import Mathlib

/-! Separate-chaining hash table: embedding and properties.

A shallow embedding of `hashtbl.h`, `hashtbl.cpp` and `primes.cpp`.

* `size_t` values are natural numbers; the places where the source relies on
  wrap-around (`n < n + 1`, `i*i`, `j += i`, `numBuckets_ - 1`) reduce modulo `2^64`.
  A sum of bucket sizes counts objects held in memory, stays below `2^64` and is not reduced.
* `fsu::Vector<BucketType>` is a list of buckets, a bucket (`fsu::List<Entry>`) is a list of
  entries and a bucket iterator is a position in that list (`End()` is the length).
  `bucketVector_[i]` is modelled for `i` in range, which is where the invariant keeps it;
  out of range a read gives the empty bucket and a write does nothing.
* `tablePtr_` is `none` for the null pointer and `some a` for the address `a` of a table;
  a member function that stores `this` in an iterator takes the address as `self`, and a
  function that dereferences `tablePtr_` takes the table it points to.
* Loops whose trip count is not bounded by the data they walk (the sieve, iteration to
  `End()`) take fuel and return `none` when it runs out; an access outside a bit vector
  also gives `none`.
* A fatal error (`exit`) is an `Except.error` carrying the message.
* The floating-point arithmetic of `Analysis` is a parameter of its row loop, with an
  instance for IEEE 754 (`double` operations, a `float` variable) and an instance for exact
  rationals.
-/

set_option autoImplicit false

namespace fsu

/-- The modulus of `size_t` arithmetic. -/
def sizeMod : Nat := 2 ^ 64

/-! ## Entry, bucket and bit vector (collaborators of the table) -/

/-- Modelled from the spec: `entry.h` is not part of the sources; an entry is a key plus an
associated data value. -/
structure Entry (K D : Type) where
  key_ : K
  data_ : D
deriving DecidableEq, Repr

/-- Modelled from the spec: `Entry(k)` builds an entry with a default-constructed data value. -/
def Entry.ofKey {K D : Type} [Inhabited D] (k : K) : Entry K D := ⟨k, default⟩

/-- Modelled from the spec: two entries are equal iff their keys are equal; data is not
compared. -/
def Entry.eq {K D : Type} [DecidableEq K] (a b : Entry K D) : Bool := decide (a.key_ = b.key_)

/-- Modelled from the spec: `list.h` is not part of the sources; a bucket is an ordered chain
of entries. -/
abbrev Bucket (K D : Type) := List (Entry K D)

namespace Bucket

variable {K D : Type}

/-- Modelled from the spec: `End()` is the position past the last element. -/
def End (b : Bucket K D) : Nat := b.length

/-- Modelled from the spec: `Begin()` is the position of the first element. -/
def Begin (_b : Bucket K D) : Nat := 0

/-- Modelled from the spec: `Size()` is the number of elements. -/
def Size (b : Bucket K D) : Nat := b.length

/-- Modelled from the spec: `Empty()` is true iff `Size()` is zero. -/
def Empty (b : Bucket K D) : Bool := b.isEmpty

/-- Modelled from the spec: `Includes(e)` (the spec's `Find`) is the position of the first
entry equal to `e`, or `End()` when there is none. -/
def Includes [DecidableEq K] : Bucket K D → Entry K D → Nat
  | [], _ => 0
  | x :: xs, e => if x.eq e then 0 else Includes xs e + 1

/-- Modelled from the spec: `Insert(e)` appends `e` and returns its position. -/
def Insert (b : Bucket K D) (e : Entry K D) : Bucket K D × Nat := (b ++ [e], b.length)

/-- Modelled from the spec: assignment through a bucket iterator, `*j = e`. -/
def assign (b : Bucket K D) (j : Nat) (e : Entry K D) : Bucket K D := b.set j e

/-- Modelled from the spec: `Remove(i)` removes the element at position `i`. -/
def Remove (b : Bucket K D) (i : Nat) : Bucket K D := b.eraseIdx i

/-- Modelled from the spec: `Back()` is the last element. -/
def Back (b : Bucket K D) : Option (Entry K D) := b.getLast?

/-- Modelled from the spec: `PopBack()` removes the last element. -/
def PopBack (b : Bucket K D) : Bucket K D := b.dropLast

/-- Modelled from the spec: `Clear()` removes every element. -/
def Clear (_b : Bucket K D) : Bucket K D := []

end Bucket

/-- Modelled from the spec: `bitvect.h` is not part of the sources; a bit vector is a
fixed-size boolean array. -/
structure BitVector where
  bits : List Bool
deriving DecidableEq, Repr

namespace BitVector

/-- Modelled from the spec: `BitVector b(n)` has `n` bits. -/
def ofSize (n : Nat) : BitVector := ⟨List.replicate n false⟩

/-- Modelled from the spec: the number of bits. -/
def Size (b : BitVector) : Nat := b.bits.length

/-- Modelled from the spec: `Set()` sets every bit. -/
def Set (b : BitVector) : BitVector := ⟨List.replicate b.bits.length true⟩

/-- Modelled from the spec: `Unset(i)` clears bit `i`; an index out of range is an error. -/
def Unset (b : BitVector) (i : Nat) : Option BitVector :=
  if i < b.bits.length then some ⟨b.bits.set i false⟩ else none

/-- Modelled from the spec: `Test(i)` reads bit `i`; an index out of range is an error. -/
def Test (b : BitVector) (i : Nat) : Option Bool := b.bits[i]?

end BitVector

/-! ## primes.cpp -/

/-- The inner loop of `Sieve`: `for (j; j < max; j += i) b.Unset(j)`. -/
def sieveInner (max i : Nat) : Nat → Nat → BitVector → Option BitVector
  | 0, _, _ => none
  | fuel + 1, j, b =>
    if j < max then
      match b.Unset j with
      | none => none
      | some b1 => sieveInner max i fuel ((j + i) % sizeMod) b1
    else some b

/-- The outer loop of `Sieve`: `for (i; i*i < max; ++i) if (b.Test(i)) ...`. -/
def sieveOuter (max : Nat) : Nat → Nat → BitVector → Option BitVector
  | 0, _, _ => none
  | fuel + 1, i, b =>
    if (i * i) % sizeMod < max then
      match b.Test i with
      | none => none
      | some true =>
        match sieveInner max i fuel ((i + i) % sizeMod) b with
        | none => none
        | some b1 => sieveOuter max fuel ((i + 1) % sizeMod) b1
      | some false => sieveOuter max fuel ((i + 1) % sizeMod) b
    else some b

/-- The function `Sieve(b)`: set every bit, clear bits 0 and 1, then clear the multiples. -/
def Sieve (fuel : Nat) (b : BitVector) : Option BitVector :=
  let max := b.Size
  match b.Set.Unset 0 with
  | none => none
  | some b0 =>
    match b0.Unset 1 with
    | none => none
    | some b1 => sieveOuter max fuel 2 b1

/-- The downward scan of `PrimeBelow`: `while (n > 2) { if (b.Test(n)) return n; --n; }
return 2;`. -/
def primeBelowScan (b : BitVector) : Nat → Option Nat
  | 0 => some 2
  | n + 1 =>
    if n + 1 > 2 then
      match b.Test (n + 1) with
      | none => none
      | some true => some (n + 1)
      | some false => primeBelowScan b n
    else some 2

/-- The function `PrimeBelow(n)`. -/
def PrimeBelow (fuel n : Nat) : Option Nat :=
  if n ≤ 1 then some 0
  else
    let n1 := if n < (n + 1) % sizeMod then n + 1 else n
    match Sieve fuel (BitVector.ofSize n1) with
    | none => none
    | some b => primeBelowScan b (n1 - 1)

/-- The constant `maxPrime`, "largest prime < 100000000". -/
def maxPrime : Nat := 99999989

/-- The upward scan of `PrimeAbove`: `while (n < maxPrime) { if (b.Test(n)) return n; ++n; }
return maxPrime;`, which makes at most `maxPrime - n` steps. -/
def primeAboveScan (b : BitVector) : Nat → Nat → Option Nat
  | 0, _ => some maxPrime
  | count + 1, n =>
    if n < maxPrime then
      match b.Test n with
      | none => none
      | some true => some n
      | some false => primeAboveScan b count (n + 1)
    else some maxPrime

/-- The function `PrimeAbove(n)`; the diagnostic written for an input that is too large is
not modelled, the zero returned is. -/
def PrimeAbove (fuel n : Nat) : Option Nat :=
  if n > maxPrime then some 0
  else if n = maxPrime then some maxPrime
  else
    match Sieve fuel (BitVector.ofSize maxPrime) with
    | none => none
    | some b => primeAboveScan b (maxPrime - n) n

/-! ## hashtbl.h: HashTable -/

/-- The data members of `HashTable<K,D,H>`. -/
structure HashTable (K D : Type) where
  numBuckets_ : Nat
  bucketVector_ : List (Bucket K D)
  hashObject_ : K → Nat
  prime_ : Bool

/-- The data members of `HashTableIterator<K,D,H>`. -/
structure HashTableIterator where
  tablePtr_ : Option Nat
  bucketNum_ : Nat
  bucketItr_ : Nat
deriving DecidableEq, Repr

namespace HashTable

variable {K D : Type}

/-- The element access `bucketVector_[i]`. -/
def bucket (t : HashTable K D) (i : Nat) : Bucket K D := t.bucketVector_.getD i []

/-- The element update `bucketVector_[i] = b`. -/
def setBucket (t : HashTable K D) (i : Nat) (b : Bucket K D) : HashTable K D :=
  { t with bucketVector_ := t.bucketVector_.set i b }

/-- The member function `Index(k)`: `hashObject_(k) % numBuckets_`. -/
def Index (t : HashTable K D) (k : K) : Nat := t.hashObject_ k % t.numBuckets_

/-- The constructor `HashTable(n, hashObject, prime)`; the constructor without a hash object
is the same with a default-constructed one. -/
def ctor (fuel n : Nat) (hashObject : K → Nat) (prime : Bool) : Option (HashTable K D) :=
  let numBuckets := if n < 3 then 2 else n
  if prime then
    match PrimeBelow fuel numBuckets with
    | none => none
    | some p => some ⟨p, List.replicate p [], hashObject, prime⟩
  else some ⟨numBuckets, List.replicate numBuckets [], hashObject, prime⟩

/-- The member function `End()`: the end position of the last bucket. -/
def End (self : Nat) (t : HashTable K D) : HashTableIterator :=
  let bucketNum := (t.numBuckets_ + sizeMod - 1) % sizeMod
  ⟨some self, bucketNum, (t.bucket bucketNum).End⟩

/-- The member function `Insert(k, d)`: the table afterwards and the returned iterator. -/
def Insert [DecidableEq K] (self : Nat) (t : HashTable K D) (k : K) (d : D) :
    HashTable K D × HashTableIterator :=
  let e : Entry K D := ⟨k, d⟩
  let bucketNum := t.Index k
  let j := (t.bucket bucketNum).Includes e
  if j = (t.bucket bucketNum).End then
    let r := (t.bucket bucketNum).Insert e
    (t.setBucket bucketNum r.1, ⟨some self, bucketNum, r.2⟩)
  else
    (t.setBucket bucketNum ((t.bucket bucketNum).assign j e), ⟨some self, bucketNum, j⟩)

/-- The member function `Remove(k)`: the table afterwards and the returned flag. -/
def Remove [DecidableEq K] [Inhabited D] (t : HashTable K D) (k : K) : HashTable K D × Bool :=
  let e : Entry K D := Entry.ofKey k
  let bucketNum := t.Index k
  let j := (t.bucket bucketNum).Includes e
  if j ≠ (t.bucket bucketNum).End then
    match (t.bucket bucketNum)[j]? with
    | some x =>
      if x.eq e then (t.setBucket bucketNum ((t.bucket bucketNum).Remove j), true)
      else (t, false)
    | none => (t, false)
  else (t, false)

/-- The member function `Includes(k)`. -/
def Includes [DecidableEq K] [Inhabited D] (self : Nat) (t : HashTable K D) (k : K) :
    HashTableIterator :=
  let e : Entry K D := Entry.ofKey k
  let bucketNum := t.Index e.key_
  let j := (t.bucket bucketNum).Includes e
  if j ≠ (t.bucket bucketNum).End then ⟨some self, bucketNum, j⟩
  else End self t

/-- The member function `Size()`: the sum of the bucket sizes. -/
def Size (t : HashTable K D) : Nat :=
  (List.range t.numBuckets_).foldl (fun size i => size + (t.bucket i).Size) 0

/-- The member function `Empty()`: no bucket is non-empty. -/
def Empty (t : HashTable K D) : Bool :=
  (List.range t.numBuckets_).all (fun i => (t.bucket i).Empty)

/-- The member function `Clear()`: clear every bucket. -/
def Clear (t : HashTable K D) : HashTable K D :=
  (List.range t.numBuckets_).foldl (fun s i => s.setBucket i (s.bucket i).Clear) t

/-- The scan `while (bucketNum < numBuckets_ && bucketVector_[bucketNum].Empty()) ++bucketNum`,
which makes at most `numBuckets_ - bucketNum` steps. -/
def skipEmpty (t : HashTable K D) : Nat → Nat → Nat
  | 0, i => i
  | fuel + 1, i =>
    if i < t.numBuckets_ && (t.bucket i).Empty then skipEmpty t fuel (i + 1) else i

/-- The member function `Begin()`. -/
def Begin (self : Nat) (t : HashTable K D) : HashTableIterator :=
  let bucketNum := t.skipEmpty t.numBuckets_ 0
  if bucketNum < t.numBuckets_ then ⟨some self, bucketNum, (t.bucket bucketNum).Begin⟩
  else ⟨some self, 0, (t.bucket 0).End⟩

end HashTable

namespace HashTable

variable {K D : Type}

/-- The copy constructor `HashTable(const HashTable& ht)`: its initialiser list names
`numBuckets_`, `bucketVector_` and `hashObject_`; `prime_` is not initialised and holds
whatever value `indeterminate` the memory has. -/
def copyCtor (ht : HashTable K D) (indeterminate : Bool) : HashTable K D :=
  ⟨ht.numBuckets_, ht.bucketVector_, ht.hashObject_, indeterminate⟩

/-- The assignment `a = ht`: `numBuckets_`, `bucketVector_` and `hashObject_` are assigned,
`prime_` is not. For `this == &ht` the source does nothing, which is what the same update
gives when `ht` is `a` itself. -/
def assign (a ht : HashTable K D) : HashTable K D :=
  { a with numBuckets_ := ht.numBuckets_, bucketVector_ := ht.bucketVector_,
           hashObject_ := ht.hashObject_ }

end HashTable

/-! ## hashtbl.h: HashTableIterator

Every function that dereferences `tablePtr_` takes the table it points to as `t`. -/

namespace HashTableIterator

variable {K D : Type}

/-- The member `HashTableIterator()`: the default constructor. -/
def init : HashTableIterator := ⟨none, 0, 0⟩

/-- The member function `Valid()`. -/
def Valid (i : HashTableIterator) (t : HashTable K D) : Bool :=
  match i.tablePtr_ with
  | none => false
  | some _ =>
    if i.bucketNum_ ≥ t.numBuckets_ then false
    else decide (i.bucketItr_ ≠ (t.bucket i.bucketNum_).End)

/-- The member `operator==`, for two iterators of the table `t`. -/
def eq (i i2 : HashTableIterator) (t : HashTable K D) : Bool :=
  if !i.Valid t && !i2.Valid t then true
  else if i.Valid t && !i2.Valid t then false
  else if !i.Valid t && i2.Valid t then false
  else if i.tablePtr_ ≠ i2.tablePtr_ then false
  else if i.bucketNum_ ≠ i2.bucketNum_ then false
  else if i.bucketItr_ ≠ i2.bucketItr_ then false
  else true

/-- The member `operator!=`. -/
def ne (i i2 : HashTableIterator) (t : HashTable K D) : Bool := !(i.eq i2 t)

/-- The member `operator*`: the entry at the iterator; dereferencing an invalid iterator is
fatal. -/
def deref (i : HashTableIterator) (t : HashTable K D) : Except String (Entry K D) :=
  if !i.Valid t then .error "** HashTableIterator error: invalid dereference"
  else
    match (t.bucket i.bucketNum_)[i.bucketItr_]? with
    | some e => .ok e
    | none => .error "** List iterator error: invalid dereference"

/-- The member `operator++` (prefix); `tablePtr_->End()` runs with `this` equal to `tablePtr_`. -/
def next (i : HashTableIterator) (t : HashTable K D) : HashTableIterator :=
  if !i.Valid t then i
  else
    match i.tablePtr_ with
    | none => i
    | some a =>
      let bucketItr := i.bucketItr_ + 1
      if bucketItr = (t.bucket i.bucketNum_).End then
        let bucketNum := t.skipEmpty (t.numBuckets_ - (i.bucketNum_ + 1)) (i.bucketNum_ + 1)
        if bucketNum < t.numBuckets_ then ⟨some a, bucketNum, (t.bucket bucketNum).Begin⟩
        else HashTable.End a t
      else ⟨some a, i.bucketNum_, bucketItr⟩

end HashTableIterator

namespace HashTable

variable {K D : Type}

/-- The member function `Retrieve(k, d)`: the returned flag and the final value of the
output parameter. -/
def Retrieve [DecidableEq K] [Inhabited D] (self : Nat) (t : HashTable K D) (k : K) (d : D) :
    Except String (Bool × D) :=
  let i := Includes self t k
  if i.ne (End self t) t then
    match i.deref t with
    | .ok e => .ok (true, e.data_)
    | .error msg => .error msg
  else .ok (false, d)

/-- The member function `Get(key)` (mutable): the table afterwards and the data the
returned reference designates. -/
def Get [DecidableEq K] [Inhabited D] (t : HashTable K D) (key : K) :
    HashTable K D × Option D :=
  let e : Entry K D := Entry.ofKey key
  let bn := t.Index key
  let i := (t.bucket bn).Includes e
  if i = (t.bucket bn).End then
    let r := (t.bucket bn).Insert e
    let t1 := t.setBucket bn r.1
    (t1, ((t1.bucket bn)[r.2]?).map Entry.data_)
  else (t, ((t.bucket bn)[i]?).map Entry.data_)

/-- The member function `Get(key) const`: a missing key is a fatal error. -/
def GetConst [DecidableEq K] [Inhabited D] (self : Nat) (t : HashTable K D) (key : K) :
    Except String D :=
  let i := Includes self t key
  if i.eq (End self t) t then
    .error "** Error: const bracket operator called on non-existence key"
  else
    match i.deref t with
    | .ok e => .ok e.data_
    | .error msg => .error msg

/-- The member function `Put(key, data)`: calls `Insert` and drops the iterator. -/
def Put [DecidableEq K] (self : Nat) (t : HashTable K D) (key : K) (data : D) : HashTable K D :=
  (Insert self t key data).1

/-- The member `operator[]` (mutable) forwards to `Get`. -/
def bracket [DecidableEq K] [Inhabited D] (t : HashTable K D) (key : K) :
    HashTable K D × Option D := Get t key

/-- The member `operator[] const` forwards to `Get const`. -/
def bracketConst [DecidableEq K] [Inhabited D] (self : Nat) (t : HashTable K D) (key : K) :
    Except String D := GetConst self t key

/-- The loop `while (!bucket.Empty()) { newTable.Insert(bucket.Back()...); bucket.PopBack(); }`
of `Rehash`, which makes at most `bucket.Size()` steps; `tmp` is the address of `newTable`. -/
def rehashDrain [DecidableEq K] (tmp : Nat) :
    Nat → HashTable K D → Bucket K D → HashTable K D × Bucket K D
  | 0, newTable, b => (newTable, b)
  | fuel + 1, newTable, b =>
    match b.Back with
    | none => (newTable, b)
    | some e => rehashDrain tmp fuel (Insert tmp newTable e.key_ e.data_).1 b.PopBack

/-- The body of the `for` loop of `Rehash` for bucket `i`, on the pair of this table and
`newTable`. -/
def rehashStep [DecidableEq K] (tmp : Nat) (s : HashTable K D × HashTable K D) (i : Nat) :
    HashTable K D × HashTable K D :=
  let d := rehashDrain tmp (s.1.bucket i).Size s.2 (s.1.bucket i)
  (s.1.setBucket i d.2, d.1)

/-- The member function `Rehash(nb)`; the local `newTable` lives at an address of its own
(`self + 1` here), which only the discarded iterators of `Insert` mention. The final swaps
leave this table with the bucket count and bucket array of `newTable`. -/
def Rehash [DecidableEq K] (fuel self : Nat) (t : HashTable K D) (nb : Nat) :
    Option (HashTable K D) :=
  let nb1 := if nb = 0 then t.Size else nb
  match ctor fuel nb1 t.hashObject_ t.prime_ with
  | none => none
  | some newTable =>
    let r := (List.range t.numBuckets_).foldl (rehashStep (self + 1)) (t, newTable)
    some { r.1 with numBuckets_ := r.2.numBuckets_, bucketVector_ := r.2.bucketVector_ }

end HashTable

/-! ## hashtbl.cpp: MaxBucketSize and Analysis

The counts of `Analysis` are `int` values: an increment past `2^31 - 1` is undefined and
gives `none`. The variable `check` is a `float` computed in `double`, with the subtraction
`element - i` kept in `size_t`. The arithmetic is the parameter `Arith` of the row loop. Its
instance `ieee` is IEEE 754 arithmetic: binary64 operations rounded to nearest, ties to
even, and a rounding to binary32 where a value is assigned to `check`; `pow` belongs to the
math library and is a parameter of `ieee`. Its instance `exactArith` is the arithmetic of
exact rationals, in which the theory column is compared with the binomial distribution.
The two search times of the report are left out. -/

/-- The largest `int`. -/
def intMax : Int := 2 ^ 31 - 1

/-- Modelled from the spec: `vector.h` is not part of the sources; a `Vector<int>` is a
sequence of `int` values together with a capacity. -/
structure IntVector where
  data : List Int
  capacity : Nat
deriving DecidableEq, Repr

namespace IntVector

/-- Modelled from the spec: `Vector<int> v(n)` has `n` elements of indeterminate value
`junk`; its capacity `cap` is the library's choice. -/
def ofSize (n cap : Nat) (junk : Int) : IntVector := ⟨List.replicate n junk, cap⟩

/-- Modelled from the spec: the number of elements. -/
def Size (v : IntVector) : Nat := v.data.length

/-- Modelled from the spec: the capacity. -/
def Capacity (v : IntVector) : Nat := v.capacity

/-- Modelled from the spec: `SetCapacity(c)` makes the capacity `c` and keeps the first `c`
elements. -/
def SetCapacity (v : IntVector) (c : Nat) : IntVector := ⟨v.data.take c, c⟩

/-- Modelled from the spec: `SetSize(n, fill)` makes the size `n`, raising the capacity to
`n` when it is smaller and giving the value `fill` to the elements that are new. -/
def SetSize (v : IntVector) (n : Nat) (fill : Int) : IntVector :=
  ⟨v.data.take n ++ List.replicate (n - v.data.length) fill,
    if n > v.capacity then n else v.capacity⟩

/-- Modelled from the spec: the assignment `v[i] = x`; an index out of range is an error. -/
def assignAt (v : IntVector) (i : Nat) (x : Int) : Option IntVector :=
  if i < v.data.length then some ⟨v.data.set i x, v.capacity⟩ else none

/-- Modelled from the spec: the increment `v[i]++` of an `int`; an index out of range is an
error and an increment of the largest `int` is undefined. -/
def incrAt (v : IntVector) (i : Nat) : Option IntVector :=
  match v.data[i]? with
  | none => none
  | some x => if x + 1 ≤ intMax then some ⟨v.data.set i (x + 1), v.capacity⟩ else none

end IntVector

/-- The local variables `bucket`, `element` and `item` of `Analysis`. -/
structure AnalysisCounts where
  bucket : IntVector
  element : Nat
  item : Nat
deriving DecidableEq, Repr

/-- A value of an IEEE 754 binary format: a finite number, an infinity or a NaN. No operand
of `Analysis` is negative, so the sign of zero is not modelled: `fin 0` is `+0`. -/
inductive FVal where
  | fin (q : ℚ)
  | pinf
  | ninf
  | nan
deriving DecidableEq

/-- An IEEE 754 binary format: precision in bits, least and greatest exponent of a normal
number. -/
structure Format where
  prec : Nat
  emin : Int
  emax : Int

/-- The format of `double`. -/
def binary64 : Format := ⟨53, -1022, 1023⟩

/-- The format of `float`. -/
def binary32 : Format := ⟨24, -126, 127⟩

/-- The integer nearest to `m`; of two nearest integers the even one. -/
def roundHalfEven (m : ℚ) : Int :=
  if m - ⌊m⌋ < 1 / 2 then ⌊m⌋
  else if 1 / 2 < m - ⌊m⌋ then ⌊m⌋ + 1
  else if ⌊m⌋ % 2 = 0 then ⌊m⌋ else ⌊m⌋ + 1

/-- The negation of a floating-point value. -/
def FVal.neg : FVal → FVal
  | .fin q => .fin (-q)
  | .pinf => .ninf
  | .ninf => .pinf
  | .nan => .nan

namespace Format

/-- Rounding of a positive rational to the format, to nearest with ties to even: the
multiple of the unit in the last place of `x` (that of the least normal number for a
subnormal one) nearest to `x`, or infinity when that is `2^(emax+1)` or more. -/
def roundPos (f : Format) (x : ℚ) : FVal :=
  let e := max (Int.log 2 x) f.emin
  let ulp : ℚ := 2 ^ (e - f.prec + 1)
  let r := (roundHalfEven (x / ulp) : ℚ) * ulp
  if r < 2 ^ (f.emax + 1) then .fin r else .pinf

/-- Rounding of a rational to the format. -/
def round (f : Format) (x : ℚ) : FVal :=
  if x = 0 then .fin 0 else if 0 < x then f.roundPos x else (f.roundPos (-x)).neg

/-- Addition in the format. -/
def add (f : Format) : FVal → FVal → FVal
  | .fin a, .fin b => f.round (a + b)
  | .fin _, .pinf => .pinf
  | .fin _, .ninf => .ninf
  | .pinf, .fin _ => .pinf
  | .pinf, .pinf => .pinf
  | .ninf, .fin _ => .ninf
  | .ninf, .ninf => .ninf
  | _, _ => .nan

/-- Subtraction in the format. -/
def sub (f : Format) (a b : FVal) : FVal := f.add a b.neg

/-- Multiplication in the format. -/
def mul (f : Format) : FVal → FVal → FVal
  | .fin a, .fin b => f.round (a * b)
  | .fin a, .pinf => if 0 < a then .pinf else if a < 0 then .ninf else .nan
  | .fin a, .ninf => if 0 < a then .ninf else if a < 0 then .pinf else .nan
  | .pinf, .fin b => if 0 < b then .pinf else if b < 0 then .ninf else .nan
  | .ninf, .fin b => if 0 < b then .ninf else if b < 0 then .pinf else .nan
  | .pinf, .pinf => .pinf
  | .pinf, .ninf => .ninf
  | .ninf, .pinf => .ninf
  | .ninf, .ninf => .pinf
  | _, _ => .nan

/-- Division in the format; a non-zero number divided by zero is an infinity. -/
def div (f : Format) : FVal → FVal → FVal
  | .fin a, .fin b =>
    if b = 0 then (if 0 < a then .pinf else if a < 0 then .ninf else .nan)
    else f.round (a / b)
  | .fin _, .pinf => .fin 0
  | .fin _, .ninf => .fin 0
  | .pinf, .fin b => if 0 ≤ b then .pinf else .ninf
  | .ninf, .fin b => if 0 ≤ b then .ninf else .pinf
  | _, _ => .nan

end Format

/-- The comparison `a > b` of floating-point values; false when one is a NaN. -/
def FVal.gt : FVal → FVal → Bool
  | .fin a, .fin b => decide (b < a)
  | .fin _, .ninf => true
  | .pinf, .fin _ => true
  | .pinf, .ninf => true
  | _, _ => false

/-- The conversion of a `double` to `float`, as on an assignment to `check`. -/
def FVal.toFloat : FVal → FVal
  | .fin q => binary32.round q
  | v => v

/-- The arithmetic of `Analysis` on values of the type `F`: the conversion of a `size_t`,
the four operations and `pow` on `double`, the conversion `toFloat` on an assignment to the
`float` variable `check`, the constant `0.1`, and the comparison `>`. -/
structure Arith (F : Type) where
  ofNat : Nat → F
  add : F → F → F
  sub : F → F → F
  mul : F → F → F
  div : F → F → F
  pow : F → Nat → F
  toFloat : F → F
  tenth : F
  gt : F → F → Bool

/-- The arithmetic of IEEE 754: `double` operations, `float` for `check`. The function `pow`
of the math library is not part of the sources and is a parameter. -/
def ieee (pow : FVal → Nat → FVal) : Arith FVal where
  ofNat n := binary64.round n
  add := binary64.add
  sub := binary64.sub
  mul := binary64.mul
  div := binary64.div
  pow := pow
  toFloat := FVal.toFloat
  tenth := binary64.round (1 / 10)
  gt := FVal.gt

/-- A function `pow` that returns the power rounded to nearest, and 1 for the exponent 0
whatever the base, as the C standard requires of `pow`. -/
def powRounded : FVal → Nat → FVal
  | _, 0 => .fin 1
  | .fin q, n + 1 => binary64.round (q ^ (n + 1))
  | .pinf, _ + 1 => .pinf
  | .ninf, n + 1 => if n % 2 = 0 then .ninf else .pinf
  | .nan, _ + 1 => .nan

/-- The arithmetic of exact rationals, without rounding. A division by zero has no value
in it; the row loop is not followed to the one division by `i = 0`, and `numBuckets_ - 1`
is not zero in a constructed table. -/
def exactArith : Arith ℚ where
  ofNat n := (n : ℚ)
  add a b := a + b
  sub a b := a - b
  mul a b := a * b
  div a b := a / b
  pow a n := a ^ n
  toFloat a := a
  tenth := 1 / 10
  gt a b := decide (b < a)

/-- A row of the distribution table that `Analysis` writes: the size `i`, the actual count
`bucket[i]` when `i < bucket.Size()`, and the theoretical value `check`. -/
structure AnalysisRow (F : Type) where
  size : Nat
  actual : Option Int
  theory : F

/-- What `Analysis` writes within `fuel` rows: table size, number of buckets, nonempty
buckets, max bucket size, the rows, and whether the row loop has ended. -/
structure AnalysisReport (F : Type) where
  tableSize : Nat
  numberOfBuckets : Nat
  nonemptyBuckets : Nat
  maxBucketSize : Nat
  rows : List (AnalysisRow F)
  finished : Bool

/-- The initial value of `check`:
`numBuckets_ * pow((numBuckets_*1.0 - 1)/(numBuckets_*1.0), element)`, assigned to the
`float`. -/
def theoryStart {F : Type} (A : Arith F) (numBuckets element : Nat) : F :=
  A.toFloat (A.mul (A.ofNat numBuckets)
    (A.pow (A.div (A.sub (A.mul (A.ofNat numBuckets) (A.ofNat 1)) (A.ofNat 1))
      (A.mul (A.ofNat numBuckets) (A.ofNat 1))) element))

/-- The update of `check` after `i++`:
`((element - (i) + 1.0)/(i)) * (1.0 / (numBuckets_ - 1.0)) * check`, where `element - i` is
a `size_t` subtraction, assigned to the `float`. -/
def theoryNext {F : Type} (A : Arith F) (numBuckets element i : Nat) (check : F) : F :=
  A.toFloat (A.mul
    (A.mul
      (A.div (A.add (A.ofNat ((element + sizeMod - i) % sizeMod)) (A.ofNat 1)) (A.ofNat i))
      (A.div (A.ofNat 1) (A.sub (A.ofNat numBuckets) (A.ofNat 1))))
    check)

/-- The row loop of `Analysis`, `while (check > 0.1 || i < bucket.Size())`: the rows written
within `fuel` rounds, and whether the loop has ended. The loop is followed for the `2^64`
row indices: when `i++` wraps the row index to 0, the update of `check` divides by zero,
which has no value in exact arithmetic, and the loop is reported as not ended. -/
def analysisRows {F : Type} (A : Arith F) (numBuckets element : Nat) (bucket : IntVector) :
    Nat → Nat → F → List (AnalysisRow F) × Bool
  | 0, _, _ => ([], false)
  | fuel + 1, i, check =>
    if A.gt check A.tenth = true ∨ i < bucket.Size then
      let i1 := (i + 1) % sizeMod
      if i1 = 0 then ([⟨i, bucket.data[i]?, check⟩], false)
      else
        let r := analysisRows A numBuckets element bucket fuel i1
          (theoryNext A numBuckets element i1 check)
        (⟨i, bucket.data[i]?, check⟩ :: r.1, r.2)
    else ([], true)

namespace HashTable

variable {K D : Type}

/-- The member function `MaxBucketSize()`. -/
def MaxBucketSize (t : HashTable K D) : Nat :=
  (List.range t.numBuckets_).foldl
    (fun max i => if max < (t.bucket i).Size then (t.bucket i).Size else max) 0

/-- The body of the counting loop of `Analysis` for bucket `i`. The vector `bucket` has at
least one element, so `bucket.Size()-1` does not wrap, and a chain has fewer than `2^63`
entries, so `Size()*2` does not wrap. -/
def analysisStep (t : HashTable K D) (s : AnalysisCounts) (i : Nat) : Option AnalysisCounts :=
  let bucket1 :=
    if s.bucket.Size - 1 < (t.bucket i).Size then
      let bucket0 :=
        if s.bucket.Size + 1 ≥ s.bucket.Capacity then s.bucket.SetCapacity ((t.bucket i).Size * 2)
        else s.bucket
      bucket0.SetSize ((t.bucket i).Size + 1) 0
    else s.bucket
  let size := (t.bucket i).Size
  match bucket1.incrAt size with
  | none => none
  | some bucket2 => some ⟨bucket2, s.element + size, if size > 0 then s.item + 1 else s.item⟩

/-- The counting loop of `Analysis` over the bucket indices `is`. -/
def analysisLoop (t : HashTable K D) : List Nat → AnalysisCounts → Option AnalysisCounts
  | [], s => some s
  | i :: is, s =>
    match t.analysisStep s i with
    | none => none
    | some s1 => analysisLoop t is s1

/-- The first part of `Analysis`: `Vector <int> bucket(1); bucket[0] = 0;` and the counting
loop over all buckets. -/
def analysisCounts (t : HashTable K D) (cap : Nat) (junk : Int) : Option AnalysisCounts :=
  match (IntVector.ofSize 1 cap junk).assignAt 0 0 with
  | none => none
  | some bucket => t.analysisLoop (List.range t.numBuckets_) ⟨bucket, 0, 0⟩

/-- The member function `Analysis(os)` under the arithmetic `A`: the counts, then the rows
written within `fuel` rounds of the row loop. -/
def Analysis {F : Type} (t : HashTable K D) (A : Arith F) (cap : Nat) (junk : Int)
    (fuel : Nat) : Option (AnalysisReport F) :=
  match t.analysisCounts cap junk with
  | none => none
  | some c =>
    let r := analysisRows A t.numBuckets_ c.element c.bucket fuel 0
      (theoryStart A t.numBuckets_ c.element)
    some ⟨c.element, t.numBuckets_, c.item, t.MaxBucketSize, r.1, r.2⟩

end HashTable

/-! ## Call sequences -/

/-- A call of a member function of the table, with its arguments. -/
inductive Op (K D : Type) where
  | Insert (k : K) (d : D)
  | Put (k : K) (d : D)
  | Get (k : K)
  | Remove (k : K)
  | Retrieve (k : K) (d : D)
  | Clear
  | Rehash (nb : Nat)
  | Size
  | Empty
  | Includes (k : K)

/-- What a call returns; an iterator comes with its validity right after the call. -/
inductive Res (D : Type) where
  | iter (i : HashTableIterator) (valid : Bool)
  | unit
  | data (d : Option D)
  | flag (b : Bool)
  | retrieved (r : Except String (Bool × D))
  | size (n : Nat)

/-- One call on the table at address `self`: the table afterwards and the value returned;
`none` when `Rehash` does not return within the fuel. -/
def step {K D : Type} [DecidableEq K] [Inhabited D] (fuel self : Nat) (t : HashTable K D) :
    Op K D → Option (HashTable K D × Res D)
  | .Insert k d =>
    some ((t.Insert self k d).1, .iter (t.Insert self k d).2
      ((t.Insert self k d).2.Valid (t.Insert self k d).1))
  | .Put k d => some (t.Put self k d, .unit)
  | .Get k => some ((t.Get k).1, .data (t.Get k).2)
  | .Remove k => some ((t.Remove k).1, .flag (t.Remove k).2)
  | .Retrieve k d => some (t, .retrieved (t.Retrieve self k d))
  | .Clear => some (t.Clear, .unit)
  | .Rehash nb =>
    match t.Rehash fuel self nb with
    | none => none
    | some t1 => some (t1, .unit)
  | .Size => some (t, .size t.Size)
  | .Empty => some (t, .flag t.Empty)
  | .Includes k => some (t, .iter (t.Includes self k) ((t.Includes self k).Valid t))

/-- A sequence of calls: the final table and the values returned, in order. -/
def run {K D : Type} [DecidableEq K] [Inhabited D] (fuel self : Nat) :
    HashTable K D → List (Op K D) → Option (HashTable K D × List (Res D))
  | t, [] => some (t, [])
  | t, op :: ops =>
    match step fuel self t op with
    | none => none
    | some (t1, r) =>
      match run fuel self t1 ops with
      | none => none
      | some (t2, rs) => some (t2, r :: rs)

/-- The tables obtained from a constructor by a finite sequence of calls. -/
inductive Reachable {K D : Type} [DecidableEq K] [Inhabited D] : HashTable K D → Prop where
  | ctor (fuel n : Nat) (hashObject : K → Nat) (prime : Bool) (t : HashTable K D) :
      HashTable.ctor fuel n hashObject prime = some t → Reachable t
  | step (fuel self : Nat) (t t1 : HashTable K D) (op : Op K D) (r : Res D) :
      Reachable t → step fuel self t op = some (t1, r) → Reachable t1

end fsu

/-! ## Abstraction and invariant -/

namespace fsu

/-- The entries of the table, in bucket order and chain order within a bucket. -/
def HashTable.entries {K D : Type} (t : HashTable K D) : List (Entry K D) :=
  t.bucketVector_.flatten

/-- The representation invariant: the bucket array has `numBuckets_` buckets, at least two;
every entry sits in the bucket of its key; no key occurs twice. -/
structure HashTable.Inv {K D : Type} (t : HashTable K D) : Prop where
  length_eq : t.bucketVector_.length = t.numBuckets_
  two_le : 2 ≤ t.numBuckets_
  placed : ∀ i e, e ∈ t.bucket i → t.Index e.key_ = i
  nodup : (t.entries.map Entry.key_).Nodup

end fsu

/-! ## Traversal order -/

namespace fsu

/-- The positions of the entries of the buckets `bs`, the first of which has index `i`: for
each bucket in turn, each chain position in turn. -/
def posOf {K D : Type} : Nat → List (Bucket K D) → List (Nat × Nat)
  | _, [] => []
  | i, b :: bs => (List.range b.length).map (fun p => (i, p)) ++ posOf (i + 1) bs

/-- The positions (bucket index, chain position) of the stored entries, in increasing bucket
index and chain order within a bucket. -/
def HashTable.positions {K D : Type} (t : HashTable K D) : List (Nat × Nat) :=
  posOf 0 t.bucketVector_

/-- The positions from chain position `p` of bucket `b` on. -/
def HashTable.posFrom {K D : Type} (t : HashTable K D) (b p : Nat) : List (Nat × Nat) :=
  (List.range' p ((t.bucket b).length - p)).map (fun q => (b, q))
    ++ posOf (b + 1) (t.bucketVector_.drop (b + 1))

/-- The entries from chain position `p` of bucket `b` on. -/
def HashTable.entriesFrom {K D : Type} (t : HashTable K D) (b p : Nat) : List (Entry K D) :=
  (t.bucket b).drop p ++ (t.bucketVector_.drop (b + 1)).flatten

/-- The iterator `it` of the table at address `a` stands before the positions `ps`, which
hold the entries `es`: either nothing is left and `it` is invalid, or `it` is at the first
of them. -/
def HashTable.Before {K D : Type} (t : HashTable K D) (a : Nat) (it : HashTableIterator)
    (ps : List (Nat × Nat)) (es : List (Entry K D)) : Prop :=
  (ps = [] ∧ es = [] ∧ it.Valid t = false) ∨
  ∃ b p, b < t.numBuckets_ ∧ p < (t.bucket b).length ∧ it = ⟨some a, b, p⟩ ∧
    ps = t.posFrom b p ∧ es = t.entriesFrom b p

/-- The iterator `it_j`: `Begin()` incremented `j` times. -/
def HashTable.iterAt {K D : Type} (self : Nat) (t : HashTable K D) (j : Nat) :
    HashTableIterator :=
  (fun i => HashTableIterator.next i t)^[j] (t.Begin self)

end fsu

/-! ## Counting along a call sequence -/

namespace fsu

/-- The call is an `Insert` or a `Remove`. -/
def Op.isInsertOrRemove {K D : Type} : Op K D → Bool
  | .Insert _ _ => true
  | .Remove _ => true
  | _ => false

/-- The key an `Insert` call inserts. -/
def Op.insertedKey {K D : Type} : Op K D → Option K
  | .Insert k _ => some k
  | _ => none

/-- Following the spec's words: the count of distinct keys ever inserted by the calls. -/
def distinctKeysInserted {K D : Type} [DecidableEq K] (ops : List (Op K D)) : Nat :=
  ((ops.filterMap Op.insertedKey).dedup).length

/-- The result is the success flag. -/
def Res.isSuccess {D : Type} : Res D → Bool
  | .flag b => b
  | _ => false

/-- The number of success flags among the results; in a run of `Insert` and `Remove` calls
these are the successful `Remove` calls. -/
def successfulRemoves {D : Type} (rs : List (Res D)) : Nat := rs.countP Res.isSuccess

/-- The number of `Insert` calls of the sequence that find their key absent
(`Includes(k) == End()` just before the call), the sequence being run from the table `t`. -/
def freshInserts {K D : Type} [DecidableEq K] [Inhabited D] (fuel self : Nat) :
    HashTable K D → List (Op K D) → Nat
  | _, [] => 0
  | t, op :: ops =>
    (match op with
      | .Insert k _ => if (t.Includes self k).eq (t.End self) t then 1 else 0
      | _ => 0) +
    (match step fuel self t op with
      | some (t1, _) => freshInserts fuel self t1 ops
      | none => 0)

/-- What a result shows independently of where entries are stored: of an iterator, only
whether it is valid. -/
def Res.observe {D : Type} : Res D → Res D
  | .iter _ valid => .iter HashTableIterator.init valid
  | r => r

end fsu

/-! ## Vocabulary for the sieve -/

namespace fsu

/-- Bit `k` of the vector, `false` outside it. -/
def BitVector.bit (b : BitVector) (k : Nat) : Bool := b.bits.getD k false

/-- The largest size up to which no `i*i` and no `j += i` of the sieve wraps around. -/
def sieveLimit : Nat := (2 ^ 32 - 1) ^ 2

/-- The bits of `b`, a vector of size `max`, after the outer loop of the sieve has dealt with
every `d` below `i`: bit `k` is set exactly when `k` is at least 2 and no such `d` from 2 on
divides `k` other than `k` itself. -/
def Sieved (max i : Nat) (b : BitVector) : Prop :=
  b.Size = max ∧
  ∀ k, b.bit k = true ↔ (k < max ∧ 2 ≤ k ∧ ∀ d, 2 ≤ d → d < i → d ∣ k → d = k)

end fsu

/-! ## Trial division -/

namespace fsu

/-- Trial division, used to show that `maxPrime` is prime: whether none of the `fuel`
numbers `d, d+1, ...` divides `n`. -/
def trialFrom (n : Nat) : Nat → Nat → Bool
  | 0, _ => true
  | fuel + 1, d => if n % d = 0 then false else trialFrom n fuel (d + 1)

end fsu

/-! ## Vocabulary for the counts of Analysis -/

namespace fsu

namespace HashTable

variable {K D : Type}

/-- The number of buckets, among those with the indices `is`, that hold exactly `k`
entries. -/
def countSize (t : HashTable K D) (is : List Nat) (k : Nat) : Nat :=
  is.countP (fun i => (t.bucket i).Size = k)

/-- The number of buckets, among those with the indices `is`, that hold an entry. -/
def countNonempty (t : HashTable K D) (is : List Nat) : Nat :=
  is.countP (fun i => (t.bucket i).Size > 0)

/-- The largest size of the buckets with the indices `is`. -/
def maxSize (t : HashTable K D) (is : List Nat) : Nat :=
  is.foldl (fun max i => if max < (t.bucket i).Size then (t.bucket i).Size else max) 0

/-- The counts of `Analysis` once the buckets with the indices `is` are counted: the vector
`bucket` has one row per size up to the largest seen, row `k` holds the number of buckets
of size `k`, `element` is the sum of the sizes and `item` the number of nonempty buckets. -/
def Counted (t : HashTable K D) (is : List Nat) (s : AnalysisCounts) : Prop :=
  s.bucket.data.length = t.maxSize is + 1 ∧
  (∀ k, s.bucket.data.getD k 0 = (t.countSize is k : Int)) ∧
  s.element = ((is.map (fun i => (t.bucket i).Size)).sum) ∧
  s.item = t.countNonempty is

end HashTable

end fsu

/-! ## Vocabulary for the row loop in IEEE arithmetic -/

namespace fsu

/-- The values of `check` at row `i` on a table whose row loop does not end: infinity, or
up to row 2 a finite value of at least `2^(1 + 61*i)`. -/
def Diverging (i : Nat) (v : FVal) : Prop :=
  v = .pinf ∨ (i ≤ 2 ∧ ∃ l : ℤ, 1 + 61 * (i : ℤ) ≤ l ∧ ∃ c, v = .fin c ∧ (2 : ℚ) ^ l ≤ c)

end fsu

/-! ## The distribution the theory column is compared with -/

namespace fsu

/-- Following the spec's words: the expected number of buckets containing exactly `i`
elements when `n` keys are thrown uniformly at random into `m` buckets,
`m · C(n,i) · p^i · (1-p)^(n-i)` with `p = 1/m`. -/
def binomialExpectation (m n i : Nat) : ℚ :=
  (m : ℚ) * (n.choose i : ℚ) * (1 / (m : ℚ)) ^ i * (1 - 1 / (m : ℚ)) ^ (n - i)

end fsu

/-! ## Example data -/

namespace fsu

/-- A hash strategy for the examples: the length of the key. -/
def lengthHash (s : String) : Nat := s.length

/-- The 3-bucket table after `Insert("cat",1); Insert("dog",2)`, hashed by length. -/
def catDog : HashTable String Nat :=
  { numBuckets_ := 3, bucketVector_ := [[⟨"cat", 1⟩, ⟨"dog", 2⟩], [], []],
    hashObject_ := lengthHash, prime_ := true }

/-- Two tables hold the same entries, possibly in different places, under the same prime
flag, and both satisfy the invariant. -/
structure Sim {K D : Type} (t1 t2 : HashTable K D) : Prop where
  inv1 : t1.Inv
  inv2 : t2.Inv
  perm : t1.entries.Perm t2.entries
  prime_eq : t1.prime_ = t2.prime_

/-- What a run shows: the observable part of each result, or `none` if it does not
return. -/
def observations {K D : Type} (r : Option (HashTable K D × List (Res D))) :
    Option (List (Res D)) :=
  r.map (fun p => p.2.map Res.observe)

/-- A second hash strategy for the examples: the code of the first character. -/
def firstCharHash (s : String) : Nat := (s.get 0).toNat

/-- A sequence of calls exercising every member function. -/
def sampleOps : List (Op String Nat) :=
  [.Insert "cat" 1, .Put "dog" 2, .Insert "emu" 3, .Size, .Get "cat", .Get "cow",
    .Remove "dog", .Remove "dog", .Retrieve "emu" 0, .Retrieve "dog" 0, .Includes "cat",
    .Includes "dog", .Rehash 0, .Size, .Empty, .Rehash 7, .Retrieve "cow" 9, .Clear, .Empty]

/-- The empty 3-bucket table `HashTable(3, lengthHash, true)`. -/
def freshTable : HashTable String Nat :=
  { numBuckets_ := 3, bucketVector_ := [[], [], []], hashObject_ := lengthHash, prime_ := true }

/-- The empty 3-bucket table `HashTable(3, firstCharHash, true)`. -/
def freshTable2 : HashTable String Nat :=
  { numBuckets_ := 3, bucketVector_ := [[], [], []], hashObject_ := firstCharHash,
    prime_ := true }

/-- Ten distinct keys with their data. -/
def tenKeys : List (String × Nat) :=
  [("a", 0), ("b", 1), ("c", 2), ("d", 3), ("e", 4), ("f", 5), ("g", 6), ("h", 7), ("i", 8),
    ("j", 9)]

/-- The table at address `self` after `Insert(k, d)` for each pair of the list in turn. -/
def insertAll {K D : Type} [DecidableEq K] (self : Nat) (t : HashTable K D)
    (kds : List (K × D)) : HashTable K D :=
  kds.foldl (fun s kd => (s.Insert self kd.1 kd.2).1) t

/-- The 5-bucket prime-policy table `HashTable(5, firstCharHash, true)` after the insertion
of the ten keys. -/
def tenTable : HashTable String Nat :=
  insertAll 7 ⟨5, [[], [], [], [], []], firstCharHash, true⟩ tenKeys

/-- The table `HashTable(10, lengthHash, false)`: ten empty buckets, prime flag clear. -/
def plainTable : HashTable String Nat :=
  { numBuckets_ := 10, bucketVector_ := [[], [], [], [], [], [], [], [], [], []],
    hashObject_ := lengthHash, prime_ := false }

/-- The table `HashTable(10, lengthHash, true)`: seven empty buckets, prime flag set. -/
def primeTable : HashTable String Nat :=
  { numBuckets_ := 7, bucketVector_ := [[], [], [], [], [], [], []],
    hashObject_ := lengthHash, prime_ := true }

/-- The calls `Insert("cat",1); Remove("cat"); Insert("cat",1)`. -/
def reinsertOps : List (Op String Nat) := [.Insert "cat" 1, .Remove "cat", .Insert "cat" 1]

/-- The table `HashTable(2, lengthHash, true)` right after its construction: two empty
buckets. -/
def twoTable : HashTable String Nat :=
  { numBuckets_ := 2, bucketVector_ := [[], []], hashObject_ := lengthHash, prime_ := true }

end fsu

/-! # Theorems -/

namespace fsu

/-! ## Buckets: searching by key -/

namespace Bucket

variable {K D : Type} [DecidableEq K]

theorem Includes_le (b : Bucket K D) (e : Entry K D) : b.Includes e ≤ b.length := by
  induction b with
  | nil => simp [Includes]
  | cons x xs ih =>
    simp only [Includes, List.length_cons]
    split <;> omega

theorem Includes_eq_length_iff (b : Bucket K D) (e : Entry K D) :
    b.Includes e = b.length ↔ ∀ x ∈ b, x.key_ ≠ e.key_ := by
  induction b with
  | nil => simp [Includes]
  | cons x xs ih =>
    simp only [Includes, List.length_cons, List.mem_cons, forall_eq_or_imp]
    by_cases hx : x.key_ = e.key_
    · simp [Entry.eq, hx]
    · simp [Entry.eq, hx, ih]

/-- A successful search splits the bucket at the first entry with the key. -/
theorem Includes_split (b : Bucket K D) (e : Entry K D) (h : b.Includes e ≠ b.length) :
    ∃ l1 x l2, b = l1 ++ x :: l2 ∧ l1.length = b.Includes e ∧ x.key_ = e.key_ ∧
      ∀ y ∈ l1, y.key_ ≠ e.key_ := by
  induction b with
  | nil => simp [Includes] at h
  | cons x xs ih =>
    by_cases hx : x.key_ = e.key_
    · exact ⟨[], x, xs, by simp, by simp [Includes, Entry.eq, hx], hx, by simp⟩
    · have h1 : Includes (x :: xs) e = Includes xs e + 1 := by simp [Includes, Entry.eq, hx]
      have h2 : Includes xs e ≠ xs.length := by
        intro hc; apply h; rw [h1, hc]; simp
      obtain ⟨l1, y, l2, hb, hl, hy, hall⟩ := ih h2
      refine ⟨x :: l1, y, l2, by simp [hb], by simp [h1, hl], hy, ?_⟩
      intro z hz
      rcases List.mem_cons.1 hz with rfl | hz
      · exact hx
      · exact hall z hz

end Bucket

end fsu

namespace fsu

/-! ## The bucket array -/

namespace HashTable

variable {K D : Type}

theorem bucket_setBucket (t : HashTable K D) (i j : Nat) (b : Bucket K D) :
    (t.setBucket i b).bucket j =
      if i = j ∧ i < t.bucketVector_.length then b else t.bucket j := by
  simp only [bucket, setBucket, List.getD_eq_getElem?_getD, List.getElem?_set]
  by_cases hij : i = j
  · subst hij
    by_cases hi : i < t.bucketVector_.length
    · simp [hi]
    · simp [hi, List.getElem?_eq_none (Nat.le_of_not_lt hi)]
  · simp [hij]

theorem bucket_setBucket_self (t : HashTable K D) (i : Nat) (b : Bucket K D)
    (hi : i < t.bucketVector_.length) : (t.setBucket i b).bucket i = b := by
  simp [bucket_setBucket, hi]

theorem bucket_setBucket_ne (t : HashTable K D) (i j : Nat) (b : Bucket K D) (h : i ≠ j) :
    (t.setBucket i b).bucket j = t.bucket j := by
  simp [bucket_setBucket, h]

theorem bucket_of_le (t : HashTable K D) (i : Nat) (h : t.bucketVector_.length ≤ i) :
    t.bucket i = [] := by
  simp [bucket, List.getElem?_eq_none h]

theorem mem_entries (t : HashTable K D) (e : Entry K D) :
    e ∈ t.entries ↔ ∃ i, e ∈ t.bucket i := by
  simp only [entries, List.mem_flatten]
  constructor
  · rintro ⟨l, hl, he⟩
    obtain ⟨i, hi, rfl⟩ := List.getElem_of_mem hl
    exact ⟨i, by simpa [bucket, hi] using he⟩
  · rintro ⟨i, he⟩
    by_cases hi : i < t.bucketVector_.length
    · exact ⟨t.bucketVector_[i], List.getElem_mem hi, by simpa [bucket, hi] using he⟩
    · rw [bucket_of_le t i (Nat.le_of_not_lt hi)] at he
      simp at he

/-- The entries split around bucket `i`, and replacing the bucket replaces the middle. -/
theorem entries_split (t : HashTable K D) (i : Nat) (hi : i < t.bucketVector_.length) :
    ∃ A C : List (Entry K D), t.entries = A ++ t.bucket i ++ C ∧
      ∀ b, (t.setBucket i b).entries = A ++ b ++ C := by
  refine ⟨(t.bucketVector_.take i).flatten, (t.bucketVector_.drop (i + 1)).flatten, ?_, ?_⟩
  · have h1 : t.bucketVector_
        = t.bucketVector_.take i ++ t.bucket i :: t.bucketVector_.drop (i + 1) := by
      have : t.bucket i = t.bucketVector_[i] := by simp [bucket, hi]
      rw [this, List.getElem_cons_drop, List.take_append_drop]
    conv_lhs => rw [entries, h1]
    simp
  · intro b
    simp only [entries, setBucket, List.set_eq_take_append_cons_drop, hi, if_true]
    simp

theorem Size_eq_sum (t : HashTable K D) :
    t.Size = ((List.range t.numBuckets_).map (fun i => (t.bucket i).length)).sum := by
  unfold Size
  simp only [Bucket.Size]
  generalize List.range t.numBuckets_ = l
  suffices h : ∀ (l : List Nat) (a : Nat),
      l.foldl (fun size i => size + (t.bucket i).length) a
        = a + (l.map (fun i => (t.bucket i).length)).sum from by simpa using h l 0
  intro l
  induction l with
  | nil => simp
  | cons x xs ih =>
    intro a
    simp only [List.foldl_cons, List.map_cons, List.sum_cons, ih, Nat.add_assoc]

theorem flatten_length_eq_sum_range (L : List (Bucket K D)) :
    L.flatten.length = ((List.range L.length).map (fun i => (L.getD i []).length)).sum := by
  induction L using List.reverseRecOn with
  | nil => simp
  | append_singleton L b ih =>
    simp only [List.flatten_append, List.length_append, List.flatten_cons, List.flatten_nil,
      List.append_nil, List.length_cons, List.length_nil, List.range_succ, List.map_append,
      List.sum_append, List.map_cons, List.map_nil, List.sum_cons, List.sum_nil, ih]
    congr 1
    · congr 1
      apply List.map_congr_left
      intro i hi
      have hi' : i < L.length := List.mem_range.1 hi
      simp [List.getElem?_append_left hi']
    · simp

theorem Size_eq (t : HashTable K D) (h : t.bucketVector_.length = t.numBuckets_) :
    t.Size = t.entries.length := by
  rw [Size_eq_sum, entries, flatten_length_eq_sum_range, h]
  rfl

end HashTable

end fsu

namespace fsu

/-! ## Construction -/

theorem primeBelowScan_two_le (b : BitVector) (n p : Nat) (h : primeBelowScan b n = some p) :
    2 ≤ p := by
  induction n with
  | zero => simp [primeBelowScan] at h; omega
  | succ n ih =>
    unfold primeBelowScan at h
    split at h
    · split at h
      · simp at h
      · simp at h; omega
      · exact ih h
    · simp at h; omega

theorem PrimeBelow_two_le (fuel n p : Nat) (hn : 2 ≤ n) (h : PrimeBelow fuel n = some p) :
    2 ≤ p := by
  unfold PrimeBelow at h
  rw [if_neg (by omega)] at h
  simp only at h
  split at h
  · simp at h
  · exact primeBelowScan_two_le _ _ _ h

namespace HashTable

variable {K D : Type}

theorem ctor_spec (fuel n : Nat) (hashObject : K → Nat) (prime : Bool) (t : HashTable K D)
    (h : ctor fuel n hashObject prime = some t) :
    2 ≤ t.numBuckets_ ∧ t.bucketVector_ = List.replicate t.numBuckets_ [] ∧
      t.hashObject_ = hashObject ∧ t.prime_ = prime := by
  unfold ctor at h
  simp only at h
  split at h
  · split at h
    · simp at h
    · rename_i p hp
      have h2 : 2 ≤ p := PrimeBelow_two_le fuel _ p (by split <;> omega) hp
      simp only [Option.some.injEq] at h
      subst h
      exact ⟨h2, rfl, rfl, rfl⟩
  · simp only [Option.some.injEq] at h
    subst h
    refine ⟨by simp only; split <;> omega, rfl, rfl, rfl⟩

theorem entries_replicate (t : HashTable K D) (n : Nat)
    (h : t.bucketVector_ = List.replicate n []) : t.entries = [] := by
  simp [entries, h]

theorem bucket_replicate (t : HashTable K D) (n i : Nat)
    (h : t.bucketVector_ = List.replicate n []) : t.bucket i = [] := by
  simp only [bucket, h, List.getD_eq_getElem?_getD]
  by_cases hi : i < n
  · simp [List.getElem?_replicate, hi]
  · simp [List.getElem?_replicate, hi]

theorem inv_of_empty (t : HashTable K D) (h2 : 2 ≤ t.numBuckets_)
    (h : t.bucketVector_ = List.replicate t.numBuckets_ []) : t.Inv where
  length_eq := by simp [h]
  two_le := h2
  placed := by
    intro i e he
    rw [bucket_replicate t _ i h] at he
    simp at he
  nodup := by simp [entries_replicate t _ h]

theorem ctor_inv (fuel n : Nat) (hashObject : K → Nat) (prime : Bool) (t : HashTable K D)
    (h : ctor fuel n hashObject prime = some t) : t.Inv ∧ t.entries = [] := by
  obtain ⟨h2, hb, _, _⟩ := ctor_spec fuel n hashObject prime t h
  exact ⟨inv_of_empty t h2 hb, entries_replicate t _ hb⟩

/-! ## Consequences of the invariant -/

theorem Inv.index_lt {t : HashTable K D} (h : t.Inv) (k : K) :
    t.Index k < t.bucketVector_.length := by
  rw [h.length_eq]
  exact Nat.mod_lt _ (by have := h.two_le; omega)

theorem Inv.mem_bucket_index {t : HashTable K D} (h : t.Inv) {e : Entry K D}
    (he : e ∈ t.entries) : e ∈ t.bucket (t.Index e.key_) := by
  obtain ⟨i, hi⟩ := (mem_entries t e).1 he
  rw [h.placed i e hi]
  exact hi

theorem Inv.unique {t : HashTable K D} (h : t.Inv) {e1 e2 : Entry K D}
    (h1 : e1 ∈ t.entries) (h2 : e2 ∈ t.entries) (hk : e1.key_ = e2.key_) : e1 = e2 :=
  List.inj_on_of_nodup_map h.nodup h1 h2 hk

/-- Replacing bucket `i` by entries that belong there keeps the invariant, provided no key
is duplicated. -/
theorem Inv.setBucket {t : HashTable K D} (h : t.Inv) (i : Nat) (b : Bucket K D)
    (hb : ∀ e ∈ b, t.Index e.key_ = i)
    (hn : ((t.setBucket i b).entries.map Entry.key_).Nodup) : (t.setBucket i b).Inv where
  length_eq := by simpa [HashTable.setBucket] using h.length_eq
  two_le := h.two_le
  placed := by
    intro j e he
    rw [bucket_setBucket] at he
    split at he
    · rename_i hij
      rw [← hij.1]
      exact hb e he
    · exact h.placed j e he
  nodup := hn

end HashTable

end fsu

namespace fsu

/-! ## Insert -/

theorem filter_key_split {K D : Type} [DecidableEq K] (X Y : List (Entry K D)) (x : Entry K D)
    (k : K) (hx : x.key_ = k) (hn : ((X ++ x :: Y).map Entry.key_).Nodup) :
    (X ++ x :: Y).filter (fun e => decide (e.key_ ≠ k)) = X ++ Y := by
  have hX : ∀ a ∈ X, a.key_ ≠ k := by
    intro a ha hak
    rw [List.map_append, List.nodup_append] at hn
    exact hn.2.2 (List.mem_map_of_mem _ ha) (by simp [hak, hx])
  have hY : ∀ a ∈ Y, a.key_ ≠ k := by
    intro a ha hak
    rw [List.map_append, List.nodup_append] at hn
    have h2 := hn.2.1
    simp only [List.map_cons, List.nodup_cons, List.mem_map, not_exists, not_and] at h2
    exact h2.1 a ha (by rw [hak, hx])
  rw [List.filter_append, List.filter_cons]
  simp only [hx, ne_eq, not_true_eq_false, decide_False, Bool.false_eq_true, if_false]
  rw [List.filter_eq_self.2 (by intro a ha; simpa using hX a ha),
    List.filter_eq_self.2 (by intro a ha; simpa using hY a ha)]

theorem filter_key_absent {K D : Type} [DecidableEq K] (L : List (Entry K D)) (k : K)
    (h : ∀ a ∈ L, a.key_ ≠ k) : L.filter (fun e => decide (e.key_ ≠ k)) = L :=
  List.filter_eq_self.2 (by intro a ha; simpa using h a ha)

theorem nodup_cons_filter {K D : Type} [DecidableEq K] (L : List (Entry K D)) (k : K) (d : D)
    (hn : (L.map Entry.key_).Nodup) :
    (((⟨k, d⟩ : Entry K D) :: L.filter (fun e => decide (e.key_ ≠ k))).map Entry.key_).Nodup := by
  rw [List.map_cons, List.nodup_cons]
  constructor
  · simp
  · exact hn.sublist ((List.filter_sublist L).map _)

namespace HashTable

variable {K D : Type} [DecidableEq K]

/-- No entry of the table has key `k` when the bucket of `k` has none. -/
theorem Inv.absent {t : HashTable K D} (h : t.Inv) (k : K) (e0 : Entry K D) (hk : e0.key_ = k)
    (hj : (t.bucket (t.Index k)).Includes e0 = (t.bucket (t.Index k)).End) :
    ∀ a ∈ t.entries, a.key_ ≠ k := by
  intro a ha hak
  have h1 := h.mem_bucket_index ha
  rw [hak] at h1
  exact (Bucket.Includes_eq_length_iff _ _).1 hj a h1 (by rw [hak, hk])

theorem Insert_spec (self : Nat) (t : HashTable K D) (k : K) (d : D) (h : t.Inv) :
    (t.Insert self k d).1.Inv ∧
    (t.Insert self k d).1.entries.Perm
      (⟨k, d⟩ :: t.entries.filter (fun e => decide (e.key_ ≠ k))) ∧
    (t.Insert self k d).1.numBuckets_ = t.numBuckets_ ∧
    (t.Insert self k d).1.hashObject_ = t.hashObject_ ∧
    (t.Insert self k d).1.prime_ = t.prime_ := by
  have hi := h.index_lt k
  obtain ⟨A, C, hAC, hset⟩ := entries_split t (t.Index k) hi
  have key : ∀ b : Bucket K D, (∀ e ∈ b, t.Index e.key_ = t.Index k) →
      (t.setBucket (t.Index k) b).entries.Perm
        (⟨k, d⟩ :: t.entries.filter (fun e => decide (e.key_ ≠ k))) →
      (t.setBucket (t.Index k) b).Inv ∧
      (t.setBucket (t.Index k) b).entries.Perm
        (⟨k, d⟩ :: t.entries.filter (fun e => decide (e.key_ ≠ k))) ∧
      (t.setBucket (t.Index k) b).numBuckets_ = t.numBuckets_ ∧
      (t.setBucket (t.Index k) b).hashObject_ = t.hashObject_ ∧
      (t.setBucket (t.Index k) b).prime_ = t.prime_ := by
    intro b hb hp
    refine ⟨h.setBucket _ b hb ?_, hp, rfl, rfl, rfl⟩
    exact ((hp.map Entry.key_).nodup_iff).2 (nodup_cons_filter _ k d h.nodup)
  unfold Insert
  simp only
  split
  · rename_i hj
    apply key
    · intro e he
      rcases List.mem_append.1 he with he | he
      · exact h.placed _ e he
      · simp only [List.mem_singleton] at he
        rw [he]
    · rw [hset, filter_key_absent _ k (h.absent k ⟨k, d⟩ rfl hj), hAC]
      simp only [Bucket.Insert]
      refine List.Perm.trans ?_ (@List.perm_middle _ ⟨k, d⟩ (A ++ t.bucket (t.Index k)) C)
      simp
  · rename_i hj
    obtain ⟨l1, x, l2, hb, hl, hx, _⟩ := Bucket.Includes_split _ _ hj
    have hx' : x.key_ = k := hx
    have hset2 : (t.bucket (t.Index k)).assign ((t.bucket (t.Index k)).Includes ⟨k, d⟩) ⟨k, d⟩
        = l1 ++ ⟨k, d⟩ :: l2 := by
      rw [← hl, Bucket.assign]
      conv_lhs => rw [hb]
      simp
    apply key
    · intro e he
      rw [hset2] at he
      rcases List.mem_append.1 he with he | he
      · exact h.placed _ e (by rw [hb]; simp [he])
      · rcases List.mem_cons.1 he with he | he
        · rw [he]
        · exact h.placed _ e (by rw [hb]; simp [he])
    · have hE : t.entries = (A ++ l1) ++ x :: (l2 ++ C) := by rw [hAC, hb]; simp
      have hn := h.nodup
      rw [hE] at hn
      rw [hset, hset2, hE, filter_key_split _ _ x k hx' hn]
      refine List.Perm.trans ?_ (@List.perm_middle _ ⟨k, d⟩ (A ++ l1) (l2 ++ C))
      simp

end HashTable

end fsu

namespace fsu

/-! ## Iterators: validity and comparison with `End()` -/

namespace HashTable

variable {K D : Type}

theorem End_not_valid (self : Nat) (t : HashTable K D) : (End self t).Valid t = false := by
  simp only [HashTableIterator.Valid, End]
  split
  · rfl
  · simp

theorem eq_End_of_valid (self : Nat) (t : HashTable K D) (i : HashTableIterator)
    (h : i.Valid t = true) : i.eq (End self t) t = false := by
  simp [HashTableIterator.eq, h, End_not_valid]

theorem eq_End_of_not_valid (self : Nat) (t : HashTable K D) (i : HashTableIterator)
    (h : i.Valid t = false) : i.eq (End self t) t = true := by
  simp [HashTableIterator.eq, h, End_not_valid]

/-- Comparison with `End()` tests validity. -/
theorem eq_End (self : Nat) (t : HashTable K D) (i : HashTableIterator) :
    i.eq (End self t) t = !i.Valid t := by
  cases h : i.Valid t
  · simp [eq_End_of_not_valid self t i h]
  · simp [eq_End_of_valid self t i h]

theorem valid_of_pos (self : Nat) (t : HashTable K D) (i j : Nat) (hi : i < t.numBuckets_)
    (hj : j < (t.bucket i).length) : (⟨some self, i, j⟩ : HashTableIterator).Valid t = true := by
  simp only [HashTableIterator.Valid, Bucket.End]
  rw [if_neg (by omega)]
  simp; omega

theorem deref_of_pos (self : Nat) (t : HashTable K D) (i j : Nat) (e : Entry K D)
    (hi : i < t.numBuckets_) (hj : (t.bucket i)[j]? = some e) :
    (⟨some self, i, j⟩ : HashTableIterator).deref t = .ok e := by
  have hlt : j < (t.bucket i).length := by
    by_contra hc
    rw [List.getElem?_eq_none (Nat.le_of_not_lt hc)] at hj
    simp at hj
  simp [HashTableIterator.deref, valid_of_pos self t i j hi hlt, hj]

end HashTable

/-! ## Includes, Retrieve and the const Get -/

namespace Bucket

variable {K D : Type} [DecidableEq K]

theorem get?_Includes (b : Bucket K D) (e : Entry K D) (h : b.Includes e ≠ b.length) :
    ∃ x, b[b.Includes e]? = some x ∧ x.key_ = e.key_ ∧ x ∈ b := by
  obtain ⟨l1, x, l2, hb, hl, hx, _⟩ := Includes_split b e h
  refine ⟨x, ?_, hx, by rw [hb]; simp⟩
  rw [← hl]
  conv_lhs => rw [hb]
  rw [List.getElem?_append_right (Nat.le_refl _)]
  simp

end Bucket

namespace HashTable

variable {K D : Type} [DecidableEq K] [Inhabited D]

/-- A key that is present: `Includes` returns a valid iterator at its entry. -/
theorem Includes_present (self : Nat) (t : HashTable K D) (h : t.Inv) (e : Entry K D)
    (he : e ∈ t.entries) :
    (t.Includes self e.key_).Valid t = true ∧ (t.Includes self e.key_).deref t = .ok e := by
  have hi := h.index_lt e.key_
  rw [h.length_eq] at hi
  have hb := h.mem_bucket_index he
  have hj : (t.bucket (t.Index e.key_)).Includes (Entry.ofKey e.key_)
      ≠ (t.bucket (t.Index e.key_)).length := by
    intro hc
    exact (Bucket.Includes_eq_length_iff _ _).1 hc e hb rfl
  obtain ⟨x, hx, hxk, hxm⟩ := Bucket.get?_Includes _ _ hj
  have hxe : x = e := h.unique ((mem_entries t x).2 ⟨_, hxm⟩) he hxk
  subst hxe
  have hlt := lt_of_le_of_ne (Bucket.Includes_le (t.bucket (t.Index x.key_))
    (Entry.ofKey x.key_)) hj
  unfold Includes
  simp only [Entry.ofKey, Bucket.End] at hj hx hlt ⊢
  rw [if_pos hj]
  exact ⟨valid_of_pos self t _ _ hi hlt, deref_of_pos self t _ _ x hi hx⟩

/-- A key that is absent: `Includes` returns `End()`. -/
theorem Includes_absent (self : Nat) (t : HashTable K D) (k : K)
    (hk : ∀ a ∈ t.entries, a.key_ ≠ k) : t.Includes self k = End self t := by
  have hj : (t.bucket (t.Index k)).Includes (Entry.ofKey k) = (t.bucket (t.Index k)).length := by
    apply (Bucket.Includes_eq_length_iff _ _).2
    intro x hx
    exact hk x ((mem_entries t x).2 ⟨_, hx⟩)
  unfold Includes
  simp only [Entry.ofKey, Bucket.End] at hj ⊢
  simp [hj]

theorem Retrieve_present (self : Nat) (t : HashTable K D) (h : t.Inv) (e : Entry K D)
    (he : e ∈ t.entries) (d0 : D) : t.Retrieve self e.key_ d0 = .ok (true, e.data_) := by
  obtain ⟨hv, hd⟩ := Includes_present self t h e he
  simp [Retrieve, HashTableIterator.ne, eq_End, hv, hd]

theorem Retrieve_absent (self : Nat) (t : HashTable K D) (k : K)
    (hk : ∀ a ∈ t.entries, a.key_ ≠ k) (d0 : D) : t.Retrieve self k d0 = .ok (false, d0) := by
  simp [Retrieve, HashTableIterator.ne, eq_End, Includes_absent self t k hk, End_not_valid]

theorem GetConst_present (self : Nat) (t : HashTable K D) (h : t.Inv) (e : Entry K D)
    (he : e ∈ t.entries) : t.GetConst self e.key_ = .ok e.data_ := by
  obtain ⟨hv, hd⟩ := Includes_present self t h e he
  simp [GetConst, eq_End, hv, hd]

theorem GetConst_absent (self : Nat) (t : HashTable K D) (k : K)
    (hk : ∀ a ∈ t.entries, a.key_ ≠ k) :
    t.GetConst self k = .error "** Error: const bracket operator called on non-existence key" := by
  simp [GetConst, eq_End, Includes_absent self t k hk, End_not_valid]

end HashTable

end fsu

namespace fsu

/-! ## Remove and the mutable Get -/

namespace HashTable

variable {K D : Type} [DecidableEq K] [Inhabited D]

theorem Remove_absent (t : HashTable K D) (k : K) (hk : ∀ a ∈ t.entries, a.key_ ≠ k) :
    t.Remove k = (t, false) := by
  have hj : (t.bucket (t.Index k)).Includes (Entry.ofKey k) = (t.bucket (t.Index k)).length := by
    apply (Bucket.Includes_eq_length_iff _ _).2
    intro x hx
    exact hk x ((mem_entries t x).2 ⟨_, hx⟩)
  unfold Remove
  simp only [Bucket.End]
  simp [hj]

theorem Remove_present (t : HashTable K D) (h : t.Inv) (e : Entry K D) (he : e ∈ t.entries) :
    (t.Remove e.key_).2 = true ∧ (t.Remove e.key_).1.Inv ∧
    (t.Remove e.key_).1.entries = t.entries.filter (fun a => decide (a.key_ ≠ e.key_)) ∧
    t.entries.Perm (e :: (t.Remove e.key_).1.entries) ∧
    (t.Remove e.key_).1.numBuckets_ = t.numBuckets_ ∧
    (t.Remove e.key_).1.hashObject_ = t.hashObject_ ∧
    (t.Remove e.key_).1.prime_ = t.prime_ := by
  have hi := h.index_lt e.key_
  obtain ⟨A, C, hAC, hset⟩ := entries_split t (t.Index e.key_) hi
  have hb := h.mem_bucket_index he
  have hj : (t.bucket (t.Index e.key_)).Includes (Entry.ofKey e.key_)
      ≠ (t.bucket (t.Index e.key_)).length := by
    intro hc
    exact (Bucket.Includes_eq_length_iff _ _).1 hc e hb rfl
  obtain ⟨l1, x, l2, hbs, hl, hxk, _⟩ := Bucket.Includes_split _ _ hj
  have hxk' : x.key_ = e.key_ := hxk
  have hxe : x = e :=
    h.unique ((mem_entries t x).2 ⟨_, by rw [hbs]; simp⟩) he hxk'
  subst hxe
  have hget : (t.bucket (t.Index x.key_))[(t.bucket (t.Index x.key_)).Includes
      (Entry.ofKey x.key_)]? = some x := by
    rw [← hl]
    conv_lhs => rw [hbs]
    rw [List.getElem?_append_right (Nat.le_refl _)]
    simp
  have hrem : (t.bucket (t.Index x.key_)).Remove ((t.bucket (t.Index x.key_)).Includes
      (Entry.ofKey x.key_)) = l1 ++ l2 := by
    rw [← hl, Bucket.Remove]
    conv_lhs => rw [hbs]
    rw [List.eraseIdx_append_of_length_le (Nat.le_refl _)]
    simp
  have hE : t.entries = (A ++ l1) ++ x :: (l2 ++ C) := by rw [hAC, hbs]; simp
  have hn := h.nodup
  rw [hE] at hn
  have hfilter := filter_key_split (A ++ l1) (l2 ++ C) x x.key_ rfl hn
  have hR : t.Remove x.key_ = (t.setBucket (t.Index x.key_) (l1 ++ l2), true) := by
    unfold Remove
    simp only [Bucket.End]
    rw [if_pos hj, hget]
    simp [Entry.eq, Entry.ofKey, ← hrem]
  have hent : (t.setBucket (t.Index x.key_) (l1 ++ l2)).entries = (A ++ l1) ++ (l2 ++ C) := by
    rw [hset]; simp
  rw [hR]
  refine ⟨rfl, ?_, ?_, ?_, rfl, rfl, rfl⟩
  · apply h.setBucket
    · intro a ha
      exact h.placed _ a (by rw [hbs]; rcases List.mem_append.1 ha with ha | ha <;> simp [ha])
    · rw [hent]
      exact hn.sublist (List.Sublist.map _
        ((List.Sublist.refl (A ++ l1)).append (List.sublist_cons_self x (l2 ++ C))))
  · simp only
    rw [hent, hE, hfilter]
  · simp only
    rw [hent, hE]
    exact List.perm_middle

theorem Get_present (t : HashTable K D) (h : t.Inv) (e : Entry K D) (he : e ∈ t.entries) :
    t.Get e.key_ = (t, some e.data_) := by
  have hb := h.mem_bucket_index he
  have hj : (t.bucket (t.Index e.key_)).Includes (Entry.ofKey e.key_)
      ≠ (t.bucket (t.Index e.key_)).length := by
    intro hc
    exact (Bucket.Includes_eq_length_iff _ _).1 hc e hb rfl
  obtain ⟨x, hx, hxk, hxm⟩ := Bucket.get?_Includes _ _ hj
  have hxe : x = e := h.unique ((mem_entries t x).2 ⟨_, hxm⟩) he hxk
  subst hxe
  unfold Get
  simp only [Bucket.End]
  rw [if_neg hj, hx]
  rfl

theorem Get_absent (t : HashTable K D) (h : t.Inv) (k : K)
    (hk : ∀ a ∈ t.entries, a.key_ ≠ k) :
    t.Get k = (t.setBucket (t.Index k) (t.bucket (t.Index k) ++ [Entry.ofKey k]), some default) ∧
    (t.Get k).1.Inv ∧ (t.Get k).1.entries.Perm (Entry.ofKey k :: t.entries) := by
  have hi := h.index_lt k
  obtain ⟨A, C, hAC, hset⟩ := entries_split t (t.Index k) hi
  have hj : (t.bucket (t.Index k)).Includes (Entry.ofKey k) = (t.bucket (t.Index k)).length := by
    apply (Bucket.Includes_eq_length_iff _ _).2
    intro x hx
    exact hk x ((mem_entries t x).2 ⟨_, hx⟩)
  have hG : t.Get k
      = (t.setBucket (t.Index k) (t.bucket (t.Index k) ++ [Entry.ofKey k]), some default) := by
    unfold Get
    simp only [Bucket.End, Bucket.Insert]
    rw [if_pos hj, bucket_setBucket_self t _ _ hi]
    simp [Entry.ofKey]
  have hp : (t.setBucket (t.Index k) (t.bucket (t.Index k) ++ [Entry.ofKey k])).entries.Perm
      (Entry.ofKey k :: t.entries) := by
    rw [hset, hAC]
    refine List.Perm.trans ?_
      (@List.perm_middle _ (Entry.ofKey k) (A ++ t.bucket (t.Index k)) C)
    simp
  rw [hG]
  refine ⟨rfl, ?_, hp⟩
  apply h.setBucket
  · intro a ha
    rcases List.mem_append.1 ha with ha | ha
    · exact h.placed _ a ha
    · simp only [List.mem_singleton] at ha
      rw [ha]; rfl
  · rw [(hp.map Entry.key_).nodup_iff, List.map_cons, List.nodup_cons]
    refine ⟨?_, h.nodup⟩
    simp only [List.mem_map, not_exists, not_and]
    intro a ha
    exact hk a ha

end HashTable

end fsu

namespace fsu

/-! ## Clear -/

namespace HashTable

variable {K D : Type}

theorem foldl_clear (l : List Nat) (t : HashTable K D) :
    (l.foldl (fun s i => s.setBucket i (s.bucket i).Clear) t).numBuckets_ = t.numBuckets_ ∧
    (l.foldl (fun s i => s.setBucket i (s.bucket i).Clear) t).hashObject_ = t.hashObject_ ∧
    (l.foldl (fun s i => s.setBucket i (s.bucket i).Clear) t).prime_ = t.prime_ ∧
    (l.foldl (fun s i => s.setBucket i (s.bucket i).Clear) t).bucketVector_.length
      = t.bucketVector_.length ∧
    ∀ j, (l.foldl (fun s i => s.setBucket i (s.bucket i).Clear) t).bucket j
      = if j ∈ l then [] else t.bucket j := by
  induction l generalizing t with
  | nil => simp
  | cons x xs ih =>
    simp only [List.foldl_cons]
    obtain ⟨h1, h2, h3, h4, h5⟩ := ih (t.setBucket x (t.bucket x).Clear)
    refine ⟨h1, h2, h3, by rw [h4]; simp [setBucket], ?_⟩
    intro j
    rw [h5 j]
    by_cases hj : j ∈ xs
    · simp [hj]
    · simp only [hj, if_false, List.mem_cons, or_false]
      rw [bucket_setBucket]
      by_cases hxj : x = j
      · subst hxj
        by_cases hx : x < t.bucketVector_.length
        · simp [hx, Bucket.Clear]
        · simp [hx, bucket_of_le t x (Nat.le_of_not_lt hx)]
      · have : ¬ j = x := fun h => hxj h.symm
        simp [hxj, this]

theorem entries_eq_nil (t : HashTable K D)
    (h : ∀ j, j < t.bucketVector_.length → t.bucket j = []) : t.entries = [] := by
  rw [entries, List.flatten_eq_nil_iff]
  intro l hl
  obtain ⟨i, hi, rfl⟩ := List.getElem_of_mem hl
  have := h i hi
  simpa [bucket, hi] using this

theorem Clear_spec (t : HashTable K D) (h : t.Inv) :
    t.Clear.Inv ∧ t.Clear.entries = [] ∧ t.Clear.numBuckets_ = t.numBuckets_ ∧
      t.Clear.hashObject_ = t.hashObject_ ∧ t.Clear.prime_ = t.prime_ := by
  obtain ⟨h1, h2, h3, h4, h5⟩ := foldl_clear (List.range t.numBuckets_) t
  have hb : ∀ j, t.Clear.bucket j = [] := by
    intro j
    unfold Clear
    rw [h5 j]
    by_cases hj : j < t.numBuckets_
    · simp [hj]
    · simp only [List.mem_range, hj, if_false]
      exact bucket_of_le t j (by rw [h.length_eq]; omega)
  have he : t.Clear.entries = [] := entries_eq_nil _ (fun j _ => hb j)
  refine ⟨⟨?_, ?_, ?_, ?_⟩, he, h1, h2, h3⟩
  · unfold Clear; rw [h4, h1]; exact h.length_eq
  · unfold Clear; rw [h1]; exact h.two_le
  · intro i e hi
    rw [hb i] at hi
    simp at hi
  · simp [he]

theorem Inv.congr {t1 t2 : HashTable K D} (h : t1.Inv) (hn : t2.numBuckets_ = t1.numBuckets_)
    (hb : t2.bucketVector_ = t1.bucketVector_) (hh : t2.hashObject_ = t1.hashObject_) :
    t2.Inv where
  length_eq := by rw [hb, hn]; exact h.length_eq
  two_le := by rw [hn]; exact h.two_le
  placed := by
    intro i e he
    have := h.placed i e (by simpa [bucket, hb] using he)
    simpa [Index, hn, hh] using this
  nodup := by simpa [entries, hb] using h.nodup

end HashTable

end fsu

namespace fsu

/-! ## Rehash -/

namespace HashTable

variable {K D : Type} [DecidableEq K]

theorem rehashDrain_spec (tmp fuel : Nat) (new : HashTable K D) (b : Bucket K D)
    (hf : b.length ≤ fuel) (h : new.Inv) (hn : ((b ++ new.entries).map Entry.key_).Nodup) :
    (rehashDrain tmp fuel new b).2 = [] ∧ (rehashDrain tmp fuel new b).1.Inv ∧
    (rehashDrain tmp fuel new b).1.entries.Perm (b ++ new.entries) ∧
    (rehashDrain tmp fuel new b).1.numBuckets_ = new.numBuckets_ ∧
    (rehashDrain tmp fuel new b).1.hashObject_ = new.hashObject_ ∧
    (rehashDrain tmp fuel new b).1.prime_ = new.prime_ := by
  induction fuel generalizing new b with
  | zero =>
    have hb : b = [] := List.length_eq_zero.1 (Nat.le_zero.1 hf)
    subst hb
    simp [rehashDrain, h]
  | succ fuel ih =>
    rcases List.eq_nil_or_concat b with hb | ⟨L, e, hb⟩
    · subst hb
      simp [rehashDrain, Bucket.Back, h]
    · rw [List.concat_eq_append] at hb
      subst hb
      have hback : Bucket.Back (L ++ [e]) = some e := by simp [Bucket.Back]
      have hpop : Bucket.PopBack (L ++ [e]) = L := by simp [Bucket.PopBack]
      have hstep : rehashDrain tmp (fuel + 1) new (L ++ [e])
          = rehashDrain tmp fuel (Insert tmp new e.key_ e.data_).1 L := by
        rw [rehashDrain, hback, hpop]
      obtain ⟨hi1, hi2, hi3, hi4, hi5⟩ := Insert_spec tmp new e.key_ e.data_ h
      have habs : ∀ a ∈ new.entries, a.key_ ≠ e.key_ := by
        intro a ha hak
        rw [List.map_append, List.nodup_append] at hn
        exact hn.2.2 (List.mem_map_of_mem _ (List.mem_append_right L (List.mem_singleton_self e)))
          (by rw [← hak]; exact List.mem_map_of_mem _ ha)
      rw [filter_key_absent _ _ habs] at hi2
      have hi2' : (Insert tmp new e.key_ e.data_).1.entries.Perm (e :: new.entries) := hi2
      have hp : (L ++ (Insert tmp new e.key_ e.data_).1.entries).Perm
          ((L ++ [e]) ++ new.entries) := by
        rw [List.append_assoc]
        exact List.Perm.append_left L hi2'
      have hn' : ((L ++ (Insert tmp new e.key_ e.data_).1.entries).map Entry.key_).Nodup :=
        ((hp.map Entry.key_).nodup_iff).2 hn
      have hlen : L.length ≤ fuel := by
        simp only [List.length_append, List.length_singleton] at hf; omega
      obtain ⟨r1, r2, r3, r4, r5, r6⟩ := ih _ L hlen hi1 hn'
      rw [hstep]
      exact ⟨r1, r2, r3.trans hp, by rw [r4, hi3], by rw [r5, hi4], by rw [r6, hi5]⟩

theorem foldl_rehashStep (tmp : Nat) (l : List Nat) (old new : HashTable K D)
    (hlen : ∀ i ∈ l, i < old.bucketVector_.length) (h : new.Inv)
    (hn : ((old.entries ++ new.entries).map Entry.key_).Nodup) :
    (l.foldl (rehashStep tmp) (old, new)).2.Inv ∧
    ((l.foldl (rehashStep tmp) (old, new)).1.entries ++
      (l.foldl (rehashStep tmp) (old, new)).2.entries).Perm (old.entries ++ new.entries) ∧
    (l.foldl (rehashStep tmp) (old, new)).2.numBuckets_ = new.numBuckets_ ∧
    (l.foldl (rehashStep tmp) (old, new)).2.hashObject_ = new.hashObject_ ∧
    (l.foldl (rehashStep tmp) (old, new)).1.hashObject_ = old.hashObject_ ∧
    (l.foldl (rehashStep tmp) (old, new)).1.prime_ = old.prime_ ∧
    (l.foldl (rehashStep tmp) (old, new)).1.bucketVector_.length = old.bucketVector_.length ∧
    ∀ j, (l.foldl (rehashStep tmp) (old, new)).1.bucket j
      = if j ∈ l then [] else old.bucket j := by
  induction l generalizing old new with
  | nil => simp [h]
  | cons x xs ih =>
    have hx : x < old.bucketVector_.length := hlen x (List.mem_cons_self x xs)
    obtain ⟨A, C, hAC, hset⟩ := entries_split old x hx
    have hnb : ((old.bucket x ++ new.entries).map Entry.key_).Nodup := by
      refine hn.sublist (List.Sublist.map _ ?_)
      rw [hAC, List.append_assoc, List.append_assoc]
      exact ((List.Sublist.refl _).append (List.sublist_append_right C _)).trans
        (List.sublist_append_right A _)
    obtain ⟨d1, d2, d3, d4, d5, _⟩ :=
      rehashDrain_spec tmp (old.bucket x).Size new (old.bucket x) (Nat.le_refl _) h hnb
    have hstep : rehashStep tmp (old, new) x
        = (old.setBucket x [], (rehashDrain tmp (old.bucket x).Size new (old.bucket x)).1) := by
      simp only [rehashStep, d1]
    have hp : ((old.setBucket x []).entries ++
        (rehashDrain tmp (old.bucket x).Size new (old.bucket x)).1.entries).Perm
        (old.entries ++ new.entries) := by
      rw [hset, hAC]
      apply Multiset.coe_eq_coe.1
      have e1 := Multiset.coe_eq_coe.2 d3
      simp only [← Multiset.coe_add, List.append_nil] at e1 ⊢
      rw [e1]
      abel
    have hn' := ((hp.map Entry.key_).nodup_iff).2 hn
    have hlen' : ∀ i ∈ xs, i < (old.setBucket x []).bucketVector_.length := by
      intro i hi
      simpa [setBucket] using hlen i (List.mem_cons_of_mem x hi)
    obtain ⟨r1, r2, r3, r4, r5, r6, r7, r8⟩ := ih (old.setBucket x []) _ hlen' d2 hn'
    simp only [List.foldl_cons, hstep]
    refine ⟨r1, r2.trans hp, by rw [r3, d4], by rw [r4, d5], r5, r6,
      by rw [r7]; simp [setBucket], ?_⟩
    intro j
    rw [r8 j]
    by_cases hj : j ∈ xs
    · simp [hj]
    · simp only [hj, if_false, List.mem_cons, or_false]
      rw [bucket_setBucket]
      by_cases hxj : x = j
      · subst hxj
        simp [hx]
      · have : ¬ j = x := fun h => hxj h.symm
        simp [hxj, this]

theorem Rehash_spec (fuel self : Nat) (t t1 : HashTable K D) (nb : Nat) (h : t.Inv)
    (hr : t.Rehash fuel self nb = some t1) :
    t1.Inv ∧ t1.entries.Perm t.entries ∧ t1.hashObject_ = t.hashObject_ ∧
      t1.prime_ = t.prime_ ∧
      ∃ newTable : HashTable K D, ctor fuel (if nb = 0 then t.Size else nb) t.hashObject_ t.prime_
          = some newTable ∧ t1.numBuckets_ = newTable.numBuckets_ := by
  unfold Rehash at hr
  simp only at hr
  split at hr
  · simp at hr
  · rename_i newTable hc
    obtain ⟨hinv, hempty⟩ := ctor_inv _ _ _ _ newTable hc
    obtain ⟨_, _, hho, _⟩ := ctor_spec _ _ _ _ newTable hc
    have hlen : ∀ i ∈ List.range t.numBuckets_, i < t.bucketVector_.length := by
      intro i hi
      rw [h.length_eq]
      exact List.mem_range.1 hi
    have hn : ((t.entries ++ newTable.entries).map Entry.key_).Nodup := by
      simpa [hempty] using h.nodup
    obtain ⟨r1, r2, r3, r4, r5, r6, r7, r8⟩ :=
      foldl_rehashStep (self + 1) (List.range t.numBuckets_) t newTable hlen hinv hn
    have hold : ((List.range t.numBuckets_).foldl (rehashStep (self + 1)) (t, newTable)).1.entries
        = [] := by
      apply entries_eq_nil
      intro j hj
      rw [r8 j, if_pos]
      rw [r7, h.length_eq] at hj
      exact List.mem_range.2 hj
    rw [hold, hempty] at r2
    simp only [List.nil_append, List.append_nil] at r2
    simp only [Option.some.injEq] at hr
    subst hr
    refine ⟨r1.congr rfl rfl (by simp only; rw [r5, r4, hho]), ?_, r5, r6, newTable, hc, r3⟩
    simpa [entries] using r2

end HashTable

end fsu

namespace fsu

/-! ## Reachable tables satisfy the invariant -/

section
variable {K D : Type} [DecidableEq K] [Inhabited D]

theorem step_inv (fuel self : Nat) (t t1 : HashTable K D) (op : Op K D) (r : Res D)
    (h : t.Inv) (hs : step fuel self t op = some (t1, r)) : t1.Inv := by
  cases op with
  | Insert k d =>
    simp only [step, Option.some.injEq, Prod.mk.injEq] at hs
    rw [← hs.1]
    exact (HashTable.Insert_spec self t k d h).1
  | Put k d =>
    simp only [step, Option.some.injEq, Prod.mk.injEq] at hs
    rw [← hs.1]
    exact (HashTable.Insert_spec self t k d h).1
  | Get k =>
    simp only [step, Option.some.injEq, Prod.mk.injEq] at hs
    rw [← hs.1]
    by_cases hk : ∃ e ∈ t.entries, e.key_ = k
    · obtain ⟨e, he, rfl⟩ := hk
      rw [HashTable.Get_present t h e he]
      exact h
    · exact (HashTable.Get_absent t h k (by
        intro a ha hak
        exact hk ⟨a, ha, hak⟩)).2.1
  | Remove k =>
    simp only [step, Option.some.injEq, Prod.mk.injEq] at hs
    rw [← hs.1]
    by_cases hk : ∃ e ∈ t.entries, e.key_ = k
    · obtain ⟨e, he, rfl⟩ := hk
      exact (HashTable.Remove_present t h e he).2.1
    · rw [HashTable.Remove_absent t k (by
        intro a ha hak
        exact hk ⟨a, ha, hak⟩)]
      exact h
  | Retrieve k d =>
    simp only [step, Option.some.injEq, Prod.mk.injEq] at hs
    rw [← hs.1]; exact h
  | Clear =>
    simp only [step, Option.some.injEq, Prod.mk.injEq] at hs
    rw [← hs.1]
    exact (HashTable.Clear_spec t h).1
  | Rehash nb =>
    simp only [step] at hs
    split at hs
    · simp at hs
    · rename_i t2 hr
      simp only [Option.some.injEq, Prod.mk.injEq] at hs
      rw [← hs.1]
      exact (HashTable.Rehash_spec fuel self t t2 nb h hr).1
  | Size =>
    simp only [step, Option.some.injEq, Prod.mk.injEq] at hs
    rw [← hs.1]; exact h
  | Empty =>
    simp only [step, Option.some.injEq, Prod.mk.injEq] at hs
    rw [← hs.1]; exact h
  | Includes k =>
    simp only [step, Option.some.injEq, Prod.mk.injEq] at hs
    rw [← hs.1]; exact h

theorem Reachable.inv {t : HashTable K D} (h : Reachable t) : t.Inv := by
  induction h with
  | ctor fuel n hashObject prime t hc => exact (HashTable.ctor_inv fuel n hashObject prime t hc).1
  | step fuel self t t1 op r _ hs ih => exact step_inv fuel self t t1 op r ih hs

end

theorem catDog_reachable : Reachable catDog :=
  Reachable.step 0 7 _ _ (.Insert "dog" 2) (.iter ⟨some 7, 0, 1⟩ true)
    (Reachable.step 0 7 _ _ (.Insert "cat" 1) (.iter ⟨some 7, 0, 0⟩ true)
      (Reachable.ctor 5 3 lengthHash true ⟨3, [[], [], []], lengthHash, true⟩ rfl) rfl) rfl

end fsu

namespace fsu

/-! ## The claims about the table -/

theorem HashTable.Inv.bucket_nodup {K D : Type} {t : HashTable K D} (h : t.Inv) (i : Nat) :
    ((t.bucket i).map Entry.key_).Nodup := by
  by_cases hi : i < t.bucketVector_.length
  · obtain ⟨A, C, hAC, _⟩ := HashTable.entries_split t i hi
    refine h.nodup.sublist (List.Sublist.map _ ?_)
    rw [hAC]
    exact (List.sublist_append_right A _).trans (List.sublist_append_left _ C)
  · rw [HashTable.bucket_of_le t i (Nat.le_of_not_lt hi)]
    simp

theorem HashTable.Inv.position_unique {K D : Type} {t : HashTable K D} (h : t.Inv)
    (i j p q : Nat) (e1 e2 : Entry K D) (h1 : (t.bucket i)[p]? = some e1)
    (h2 : (t.bucket j)[q]? = some e2) (hk : e1.key_ = e2.key_) : i = j ∧ p = q := by
  obtain ⟨hp, hp'⟩ := List.getElem?_eq_some_iff.1 h1
  obtain ⟨hq, hq'⟩ := List.getElem?_eq_some_iff.1 h2
  have hm1 : e1 ∈ t.bucket i := by rw [← hp']; exact List.getElem_mem hp
  have hm2 : e2 ∈ t.bucket j := by rw [← hq']; exact List.getElem_mem hq
  have hij : i = j := by rw [← h.placed i e1 hm1, ← h.placed j e2 hm2, hk]
  subst hij
  refine ⟨rfl, ?_⟩
  have hn := h.bucket_nodup i
  have hp2 : p < ((t.bucket i).map Entry.key_).length := by simpa using hp
  have hq2 : q < ((t.bucket i).map Entry.key_).length := by simpa using hq
  apply (@List.Nodup.getElem_inj_iff _ _ hn p hp2 q hq2).1
  simp only [List.getElem_map, hp', hq', hk]

/-- C1 (key-placement invariant): in every table obtained from a constructor by a finite
sequence of calls, an entry stored in bucket `i` has `hash(key) mod numBuckets_ = i`, and two
stored entries with equal keys are the same entry (same bucket, same position). -/
theorem key_placement_invariant {K D : Type} [DecidableEq K] [Inhabited D]
    (t : HashTable K D) (h : Reachable t) :
    (∀ i e, e ∈ t.bucket i → t.hashObject_ e.key_ % t.numBuckets_ = i) ∧
    (∀ (i j p q : Nat) (e1 e2 : Entry K D), (t.bucket i)[p]? = some e1 →
      (t.bucket j)[q]? = some e2 → e1.key_ = e2.key_ → i = j ∧ p = q) :=
  ⟨h.inv.placed, h.inv.position_unique⟩

/-- C1 at the table holding "cat" and "dog" in one chain. -/
theorem key_placement_invariant_witness :
    (∀ i e, e ∈ catDog.bucket i → catDog.hashObject_ e.key_ % catDog.numBuckets_ = i) ∧
    (∀ (i j p q : Nat) (e1 e2 : Entry String Nat), (catDog.bucket i)[p]? = some e1 →
      (catDog.bucket j)[q]? = some e2 → e1.key_ = e2.key_ → i = j ∧ p = q) :=
  key_placement_invariant catDog catDog_reachable

end fsu

namespace fsu

/-! ## Traversal -/

namespace HashTable

variable {K D : Type}

theorem drop_bucket (t : HashTable K D) (b : Nat) (hb : b < t.bucketVector_.length) :
    t.bucketVector_.drop b = t.bucket b :: t.bucketVector_.drop (b + 1) := by
  rw [List.drop_eq_getElem_cons hb]
  simp [bucket, hb]

/-- The scan for the next non-empty bucket skips only empty buckets. -/
theorem skipEmpty_spec (t : HashTable K D) (hlen : t.bucketVector_.length = t.numBuckets_)
    (fuel i : Nat) (hf : i + fuel = t.numBuckets_) :
    i ≤ t.skipEmpty fuel i ∧ t.skipEmpty fuel i ≤ t.numBuckets_ ∧
    (t.skipEmpty fuel i < t.numBuckets_ → t.bucket (t.skipEmpty fuel i) ≠ []) ∧
    (t.bucketVector_.drop i).flatten = (t.bucketVector_.drop (t.skipEmpty fuel i)).flatten ∧
    posOf i (t.bucketVector_.drop i)
      = posOf (t.skipEmpty fuel i) (t.bucketVector_.drop (t.skipEmpty fuel i)) := by
  induction fuel generalizing i with
  | zero =>
    simp only [skipEmpty]
    exact ⟨Nat.le_refl _, by omega, by omega, trivial, trivial⟩
  | succ fuel ih =>
    have hi : i < t.numBuckets_ := by omega
    unfold skipEmpty
    by_cases he : t.bucket i = []
    · have hc : (decide (i < t.numBuckets_) && (t.bucket i).Empty) = true := by
        simp [hi, he, Bucket.Empty]
      rw [if_pos hc]
      obtain ⟨h1, h2, h3, h4, h5⟩ := ih (i + 1) (by omega)
      refine ⟨by omega, h2, h3, ?_, ?_⟩
      · rw [← h4, drop_bucket t i (by omega), he]; simp
      · rw [← h5, drop_bucket t i (by omega), he]; simp [posOf]
    · have hc : ¬ (decide (i < t.numBuckets_) && (t.bucket i).Empty) = true := by
        simp [hi, he, Bucket.Empty]
      rw [if_neg hc]
      exact ⟨Nat.le_refl _, by omega, fun _ => he, rfl, rfl⟩

theorem next_within (a : Nat) (t : HashTable K D) (b p : Nat) (hb : b < t.numBuckets_)
    (hp : p + 1 < (t.bucket b).length) :
    (⟨some a, b, p⟩ : HashTableIterator).next t = ⟨some a, b, p + 1⟩ := by
  have hv := valid_of_pos a t b p hb (by omega)
  simp [HashTableIterator.next, hv, Bucket.End, Nat.ne_of_lt hp]

theorem next_skip (a : Nat) (t : HashTable K D) (b p : Nat) (hb : b < t.numBuckets_)
    (hp : p + 1 = (t.bucket b).length) :
    (⟨some a, b, p⟩ : HashTableIterator).next t =
      if t.skipEmpty (t.numBuckets_ - (b + 1)) (b + 1) < t.numBuckets_ then
        ⟨some a, t.skipEmpty (t.numBuckets_ - (b + 1)) (b + 1), 0⟩
      else End a t := by
  have hv := valid_of_pos a t b p hb (by omega)
  simp [HashTableIterator.next, hv, Bucket.End, Bucket.Begin, hp]

theorem next_of_not_valid (t : HashTable K D) (i : HashTableIterator)
    (h : i.Valid t = false) : i.next t = i := by
  simp [HashTableIterator.next, h]

end HashTable

end fsu

namespace fsu

namespace HashTable

variable {K D : Type}

theorem posFrom_zero (t : HashTable K D) (b : Nat) (hb : b < t.bucketVector_.length) :
    t.posFrom b 0 = posOf b (t.bucketVector_.drop b) := by
  rw [drop_bucket t b hb]
  simp [posFrom, posOf, List.range_eq_range']

theorem entriesFrom_zero (t : HashTable K D) (b : Nat) (hb : b < t.bucketVector_.length) :
    t.entriesFrom b 0 = (t.bucketVector_.drop b).flatten := by
  rw [drop_bucket t b hb]
  simp [entriesFrom]

/-- After the scan from bucket `i`, the iterator built from its result stands before the
positions of the buckets from `i` on. -/
theorem before_scan (t : HashTable K D) (hlen : t.bucketVector_.length = t.numBuckets_)
    (a i : Nat) (hi : i ≤ t.numBuckets_) (it : HashTableIterator)
    (hv : ¬ t.skipEmpty (t.numBuckets_ - i) i < t.numBuckets_ → it.Valid t = false)
    (hit : t.skipEmpty (t.numBuckets_ - i) i < t.numBuckets_ →
      it = ⟨some a, t.skipEmpty (t.numBuckets_ - i) i, 0⟩) :
    t.Before a it (posOf i (t.bucketVector_.drop i)) (t.bucketVector_.drop i).flatten := by
  obtain ⟨h1, h2, h3, h4, h5⟩ := skipEmpty_spec t hlen (t.numBuckets_ - i) i (by omega)
  by_cases hr : t.skipEmpty (t.numBuckets_ - i) i < t.numBuckets_
  · right
    refine ⟨_, 0, hr, ?_, hit hr, ?_, ?_⟩
    · exact List.length_pos.2 (h3 hr)
    · rw [h5, posFrom_zero t _ (by omega)]
    · rw [h4, entriesFrom_zero t _ (by omega)]
  · left
    have hd : t.bucketVector_.drop (t.skipEmpty (t.numBuckets_ - i) i) = [] :=
      List.drop_eq_nil_of_le (by omega)
    refine ⟨by rw [h5, hd]; rfl, by rw [h4, hd]; rfl, hv hr⟩

theorem before_Begin (self : Nat) (t : HashTable K D)
    (hlen : t.bucketVector_.length = t.numBuckets_) :
    t.Before self (t.Begin self) t.positions t.entries := by
  have := before_scan t hlen self 0 (Nat.zero_le _) (t.Begin self) ?_ ?_
  · simpa [positions, entries] using this
  · intro hr
    simp only [Nat.sub_zero] at hr
    simp only [Begin, if_neg hr, HashTableIterator.Valid, Bucket.End]
    split <;> simp
  · intro hr
    simp only [Nat.sub_zero] at hr
    simp [Begin, if_pos hr, Bucket.Begin]

/-- One increment: the iterator at a position yields the entry there and moves before the
rest. -/
theorem before_next (a : Nat) (t : HashTable K D)
    (hlen : t.bucketVector_.length = t.numBuckets_) (b p : Nat) (hb : b < t.numBuckets_)
    (hp : p < (t.bucket b).length) :
    ∃ e rest erest, t.posFrom b p = (b, p) :: rest ∧ t.entriesFrom b p = e :: erest ∧
      (t.bucket b)[p]? = some e ∧
      t.Before a ((⟨some a, b, p⟩ : HashTableIterator).next t) rest erest := by
  have hr : List.range' p ((t.bucket b).length - p)
      = p :: List.range' (p + 1) ((t.bucket b).length - (p + 1)) := by
    have : (t.bucket b).length - p = ((t.bucket b).length - (p + 1)) + 1 := by omega
    rw [this, List.range'_succ]
  refine ⟨(t.bucket b)[p],
    (List.range' (p + 1) ((t.bucket b).length - (p + 1))).map (fun q => (b, q))
      ++ posOf (b + 1) (t.bucketVector_.drop (b + 1)),
    (t.bucket b).drop (p + 1) ++ (t.bucketVector_.drop (b + 1)).flatten,
    ?_, ?_, by simp [hp], ?_⟩
  · simp [posFrom, hr]
  · rw [entriesFrom, List.drop_eq_getElem_cons hp]
    rfl
  · by_cases hp1 : p + 1 < (t.bucket b).length
    · rw [next_within a t b p hb hp1]
      right
      exact ⟨b, p + 1, hb, hp1, rfl, rfl, rfl⟩
    · have hp2 : p + 1 = (t.bucket b).length := by omega
      rw [next_skip a t b p hb hp2]
      have h0 : (t.bucket b).length - (p + 1) = 0 := by omega
      have hd : (t.bucket b).drop (p + 1) = [] := List.drop_eq_nil_of_le (by omega)
      rw [h0, hd]
      simp only [List.range'_zero, List.map_nil, List.nil_append]
      apply before_scan t hlen a (b + 1) (by omega)
      · intro hr
        rw [if_neg hr]
        exact End_not_valid a t
      · intro hr
        rw [if_pos hr]

theorem iterAt_succ (self : Nat) (t : HashTable K D) (j : Nat) :
    t.iterAt self (j + 1) = (t.iterAt self j).next t := by
  simp only [iterAt]
  exact Function.iterate_succ_apply' _ _ _

/-- The iterator `it_j` stands before everything from index `j` on. -/
theorem before_iterAt (self : Nat) (t : HashTable K D)
    (hlen : t.bucketVector_.length = t.numBuckets_) (j : Nat) :
    t.Before self (t.iterAt self j) (t.positions.drop j) (t.entries.drop j) := by
  induction j with
  | zero => simpa [iterAt] using before_Begin self t hlen
  | succ j ih =>
    rw [iterAt_succ]
    rcases ih with ⟨h1, h2, h3⟩ | ⟨b, p, hb, hp, hit, hps, hes⟩
    · left
      rw [next_of_not_valid t _ h3]
      refine ⟨?_, ?_, h3⟩
      · rw [← List.drop_drop 1 j, h1]; rfl
      · rw [← List.drop_drop 1 j, h2]; rfl
    · obtain ⟨e, rest, erest, q1, q2, _, q4⟩ := before_next self t hlen b p hb hp
      rw [hit]
      have e1 : t.positions.drop (j + 1) = rest := by
        rw [← List.drop_drop 1 j, hps, q1]; rfl
      have e2 : t.entries.drop (j + 1) = erest := by
        rw [← List.drop_drop 1 j, hes, q2]; rfl
      rw [e1, e2]
      exact q4

theorem length_posOf (i : Nat) (bs : List (Bucket K D)) :
    (posOf i bs).length = bs.flatten.length := by
  induction bs generalizing i with
  | nil => simp [posOf]
  | cons b bs ih =>
    simp only [posOf, List.length_append, List.length_map, List.length_range, ih,
      List.flatten_cons]

theorem length_positions (t : HashTable K D) (hlen : t.bucketVector_.length = t.numBuckets_) :
    t.positions.length = t.Size := by
  rw [Size_eq t hlen, positions, length_posOf, entries]

end HashTable

end fsu

namespace fsu

namespace HashTable

variable {K D : Type}

theorem mem_posOf (i : Nat) (bs : List (Bucket K D)) (b p : Nat) :
    (b, p) ∈ posOf i bs ↔ i ≤ b ∧ p < (bs.getD (b - i) []).length := by
  induction bs generalizing i with
  | nil => simp [posOf]
  | cons x xs ih =>
    simp only [posOf, List.mem_append, List.mem_map, List.mem_range, Prod.mk.injEq, ih]
    constructor
    · rintro (⟨q, hq, rfl, rfl⟩ | ⟨h1, h2⟩)
      · simpa using hq
      · refine ⟨by omega, ?_⟩
        have : b - i = (b - (i + 1)) + 1 := by omega
        rw [this]
        simpa using h2
    · rintro ⟨h1, h2⟩
      by_cases hb : b = i
      · subst hb
        left
        exact ⟨p, by simpa using h2, rfl, rfl⟩
      · right
        refine ⟨by omega, ?_⟩
        have : b - i = (b - (i + 1)) + 1 := by omega
        rw [this] at h2
        simpa using h2

theorem mem_positions (t : HashTable K D) (hlen : t.bucketVector_.length = t.numBuckets_)
    (b p : Nat) : (b, p) ∈ t.positions ↔ b < t.numBuckets_ ∧ p < (t.bucket b).length := by
  rw [positions, mem_posOf]
  simp only [Nat.zero_le, Nat.sub_zero, true_and]
  constructor
  · intro h
    refine ⟨?_, h⟩
    by_contra hb
    have h0 : t.bucket b = [] := bucket_of_le t b (by omega)
    simp only [bucket] at h0
    rw [h0] at h
    simp at h
  · intro h
    exact h.2

theorem pairwise_posOf (i : Nat) (bs : List (Bucket K D)) :
    (posOf i bs).Pairwise (fun x y => x.1 < y.1 ∨ (x.1 = y.1 ∧ x.2 < y.2)) := by
  induction bs generalizing i with
  | nil => simp [posOf]
  | cons x xs ih =>
    simp only [posOf]
    rw [List.pairwise_append]
    refine ⟨?_, ih (i + 1), ?_⟩
    · rw [List.pairwise_map]
      exact (List.pairwise_lt_range _).imp (fun h => Or.inr ⟨rfl, h⟩)
    · intro a ha c hc
      obtain ⟨q, _, rfl⟩ := List.mem_map.1 ha
      obtain ⟨c1, c2⟩ := c
      have := ((mem_posOf (i + 1) xs c1 c2).1 hc).1
      left
      simp only
      omega

theorem Empty_iff (t : HashTable K D) (hlen : t.bucketVector_.length = t.numBuckets_) :
    t.Empty = true ↔ t.entries = [] := by
  simp only [Empty, List.all_eq_true, List.mem_range, Bucket.Empty, List.isEmpty_iff]
  constructor
  · intro h
    exact entries_eq_nil t (fun j hj => h j (by omega))
  · intro h j _
    by_contra hc
    obtain ⟨e, he⟩ := List.exists_mem_of_ne_nil _ hc
    have := (mem_entries t e).2 ⟨j, he⟩
    rw [h] at this
    simp at this

end HashTable

/-- C6 (complete traversal): with `n = Size()`, the iterators `it_0 = Begin()`,
`it_(j+1) = ++it_j` for `j < n` are valid, `it_j` is at the `j`-th position in increasing
bucket index and chain order and dereferences to the entry there; the positions are exactly
the occupied ones, each once; `it_n` equals `End()`; and `Begin() == End()` exactly when the
table is empty. -/
theorem complete_traversal {K D : Type} (self : Nat) (t : HashTable K D)
    (hlen : t.bucketVector_.length = t.numBuckets_) :
    (∀ j, j < t.Size → ∃ b p e, t.positions[j]? = some (b, p) ∧
      t.iterAt self j = ⟨some self, b, p⟩ ∧ (t.iterAt self j).Valid t = true ∧
      (t.bucket b)[p]? = some e ∧ (t.iterAt self j).deref t = .ok e ∧
      t.entries[j]? = some e) ∧
    t.positions.length = t.Size ∧
    (∀ b p, (b, p) ∈ t.positions ↔ b < t.numBuckets_ ∧ p < (t.bucket b).length) ∧
    t.positions.Pairwise (fun x y => x.1 < y.1 ∨ (x.1 = y.1 ∧ x.2 < y.2)) ∧
    (t.iterAt self t.Size).eq (t.End self) t = true ∧
    ((t.Begin self).eq (t.End self) t = true ↔ t.Empty = true) := by
  have hpl := HashTable.length_positions t hlen
  refine ⟨?_, hpl, HashTable.mem_positions t hlen, HashTable.pairwise_posOf 0 _, ?_, ?_⟩
  · intro j hj
    rcases HashTable.before_iterAt self t hlen j with
      ⟨h1, _, _⟩ | ⟨b, p, hb, hp, hit, hps, hes⟩
    · have := congrArg List.length h1
      simp only [List.length_drop, List.length_nil] at this
      omega
    · obtain ⟨e, rest, erest, q1, q2, q3, _⟩ := HashTable.before_next self t hlen b p hb hp
      refine ⟨b, p, e, ?_, hit, ?_, q3, ?_, ?_⟩
      · have h0 : (t.positions.drop j)[0]? = some (b, p) := by rw [hps, q1]; simp
        simpa using h0
      · rw [hit]; exact HashTable.valid_of_pos self t b p hb hp
      · rw [hit]; exact HashTable.deref_of_pos self t b p e hb q3
      · have h0 : (t.entries.drop j)[0]? = some e := by rw [hes, q2]; simp
        simpa using h0
  · rcases HashTable.before_iterAt self t hlen t.Size with
      ⟨_, _, h3⟩ | ⟨b, p, hb, hp, hit, hps, hes⟩
    · exact HashTable.eq_End_of_not_valid self t _ h3
    · obtain ⟨e, rest, erest, q1, _, _, _⟩ := HashTable.before_next self t hlen b p hb hp
      rw [q1, ← hpl, List.drop_length] at hps
      simp at hps
  · rw [HashTable.eq_End, HashTable.Empty_iff t hlen]
    rcases HashTable.before_Begin self t hlen with
      ⟨_, h2, h3⟩ | ⟨b, p, hb, hp, hit, hps, hes⟩
    · simp [h2, h3]
    · obtain ⟨e, rest, erest, _, q2, _, _⟩ := HashTable.before_next self t hlen b p hb hp
      rw [hes, q2, hit, HashTable.valid_of_pos self t b p hb hp]
      simp

/-- C6 at the table holding "cat" and "dog". -/
theorem complete_traversal_witness :
    (∀ j, j < catDog.Size → ∃ b p e, catDog.positions[j]? = some (b, p) ∧
      catDog.iterAt 7 j = ⟨some 7, b, p⟩ ∧ (catDog.iterAt 7 j).Valid catDog = true ∧
      (catDog.bucket b)[p]? = some e ∧ (catDog.iterAt 7 j).deref catDog = .ok e ∧
      catDog.entries[j]? = some e) ∧
    catDog.positions.length = catDog.Size ∧
    (∀ b p, (b, p) ∈ catDog.positions ↔ b < catDog.numBuckets_ ∧ p < (catDog.bucket b).length) ∧
    catDog.positions.Pairwise (fun x y => x.1 < y.1 ∨ (x.1 = y.1 ∧ x.2 < y.2)) ∧
    (catDog.iterAt 7 catDog.Size).eq (catDog.End 7) catDog = true ∧
    ((catDog.Begin 7).eq (catDog.End 7) catDog = true ↔ catDog.Empty = true) :=
  complete_traversal 7 catDog rfl

end fsu

namespace fsu

namespace HashTable

variable {K D : Type}

end HashTable

end fsu

namespace fsu

/-! ## The sieve returns for bucket counts below `2^32` -/

theorem BitVector.size_of_Unset (b b1 : BitVector) (i : Nat) (h : b.Unset i = some b1) :
    b1.Size = b.Size := by
  unfold BitVector.Unset at h
  split at h
  · simp only [Option.some.injEq] at h
    subst h
    simp [BitVector.Size]
  · simp at h

theorem BitVector.Unset_isSome (b : BitVector) (i : Nat) (h : i < b.Size) :
    ∃ b1, b.Unset i = some b1 ∧ b1.Size = b.Size := by
  refine ⟨⟨b.bits.set i false⟩, ?_, by simp [BitVector.Size]⟩
  simp only [BitVector.Unset, BitVector.Size] at h ⊢
  rw [if_pos h]

theorem BitVector.Test_isSome (b : BitVector) (i : Nat) (h : i < b.Size) :
    ∃ v, b.Test i = some v := by
  simp only [BitVector.Size] at h
  exact ⟨b.bits[i], by simp [BitVector.Test, h]⟩

theorem sieveInner_terminates (max i : Nat) (hi : 1 ≤ i) (hmax : max + i ≤ sizeMod)
    (fuel j : Nat) (b : BitVector) (hb : b.Size = max) (hf : max - j < fuel) :
    ∃ b1, sieveInner max i fuel j b = some b1 ∧ b1.Size = max := by
  induction fuel generalizing j b with
  | zero => omega
  | succ fuel ih =>
    unfold sieveInner
    by_cases hj : j < max
    · rw [if_pos hj]
      obtain ⟨b1, h1, h2⟩ := b.Unset_isSome j (by omega)
      rw [h1]
      simp only
      have hmod : (j + i) % sizeMod = j + i := Nat.mod_eq_of_lt (by omega)
      rw [hmod]
      exact ih (j + i) b1 (by omega) (by omega)
    · rw [if_neg hj]
      exact ⟨b, rfl, hb⟩

theorem sieveOuter_terminates (max : Nat) (hmax : max < 2 ^ 32)
    (fuel i : Nat) (b : BitVector) (hb : b.Size = max) (hi : 1 ≤ i) (him : i ≤ max)
    (hf : max - i < fuel) :
    ∃ b1, sieveOuter max fuel i b = some b1 ∧ b1.Size = max := by
  induction fuel generalizing i b with
  | zero => omega
  | succ fuel ih =>
    have hsq : i * i < sizeMod := by
      have h1 : i * i ≤ max * max := Nat.mul_le_mul him him
      have h2 : max * max < 2 ^ 32 * 2 ^ 32 := Nat.mul_lt_mul'' hmax hmax
      have h3 : (2 : Nat) ^ 32 * 2 ^ 32 = sizeMod := by norm_num [sizeMod]
      omega
    have hs : sizeMod = 2 ^ 64 := rfl
    unfold sieveOuter
    rw [Nat.mod_eq_of_lt hsq]
    by_cases hc : i * i < max
    · rw [if_pos hc]
      have hlt : i < max := lt_of_le_of_lt (Nat.le_mul_self i) hc
      have hm1 : (i + 1) % sizeMod = i + 1 := Nat.mod_eq_of_lt (by omega)
      have hm2 : (i + i) % sizeMod = i + i := Nat.mod_eq_of_lt (by omega)
      rw [hm1, hm2]
      obtain ⟨v, hv⟩ := b.Test_isSome i (by omega)
      rw [hv]
      cases v with
      | true =>
        simp only
        obtain ⟨b1, h1, h2⟩ :=
          sieveInner_terminates max i hi (by omega) fuel (i + i) b hb (by omega)
        rw [h1]
        exact ih (i + 1) b1 h2 (by omega) (by omega) (by omega)
      | false =>
        simp only
        exact ih (i + 1) b hb (by omega) (by omega) (by omega)
    · rw [if_neg hc]
      exact ⟨b, rfl, hb⟩

theorem Sieve_terminates (fuel : Nat) (b : BitVector) (h2 : 2 ≤ b.Size) (hmax : b.Size < 2 ^ 32)
    (hf : b.Size ≤ fuel + 1) : ∃ b1, Sieve fuel b = some b1 ∧ b1.Size = b.Size := by
  have hs : b.Set.Size = b.Size := by simp [BitVector.Set, BitVector.Size]
  obtain ⟨b0, h0, hs0⟩ := b.Set.Unset_isSome 0 (by omega)
  obtain ⟨b1, h1, hs1⟩ := b0.Unset_isSome 1 (by omega)
  unfold Sieve
  simp only [h0, h1]
  exact sieveOuter_terminates b.Size hmax fuel 2 b1 (by omega) (by omega) h2 (by omega)

theorem primeBelowScan_isSome (b : BitVector) (n : Nat) (h : n < b.Size) :
    ∃ p, primeBelowScan b n = some p := by
  induction n with
  | zero => exact ⟨2, rfl⟩
  | succ n ih =>
    unfold primeBelowScan
    split
    · obtain ⟨v, hv⟩ := b.Test_isSome (n + 1) h
      rw [hv]
      cases v with
      | true => exact ⟨n + 1, rfl⟩
      | false => exact ih (by omega)
    · exact ⟨2, rfl⟩

/-- With fuel at least `n`, `PrimeBelow(n)` returns for every `n` below `2^32 - 1`. -/
theorem PrimeBelow_terminates (fuel n : Nat) (hn : n + 1 < 2 ^ 32) (hf : n ≤ fuel) :
    ∃ p, PrimeBelow fuel n = some p := by
  unfold PrimeBelow
  by_cases h1 : n ≤ 1
  · rw [if_pos h1]; exact ⟨0, rfl⟩
  · rw [if_neg h1]
    have hmod : (n + 1) % sizeMod = n + 1 := Nat.mod_eq_of_lt (by
      have : sizeMod = 2 ^ 64 := rfl
      omega)
    simp only [hmod, Nat.lt_succ_self, if_true]
    obtain ⟨b1, hb1, hs1⟩ := Sieve_terminates fuel (BitVector.ofSize (n + 1))
      (by simp [BitVector.ofSize, BitVector.Size]; omega)
      (by simpa [BitVector.ofSize, BitVector.Size] using hn)
      (by simp [BitVector.ofSize, BitVector.Size]; omega)
    rw [hb1]
    simp only
    apply primeBelowScan_isSome
    rw [hs1]
    simp [BitVector.ofSize, BitVector.Size]

namespace HashTable

variable {K D : Type}

/-- The constructor returns: always without the prime flag, and with it for requests below
`2^32 - 1` given fuel `n + 2`. -/
theorem ctor_terminates (fuel n : Nat) (hashObject : K → Nat) (prime : Bool)
    (h : prime = false ∨ (n + 1 < 2 ^ 32 ∧ n + 2 ≤ fuel)) :
    ∃ t : HashTable K D, ctor fuel n hashObject prime = some t := by
  unfold ctor
  cases prime with
  | false => exact ⟨_, rfl⟩
  | true =>
    rcases h with h | ⟨h1, h2⟩
    · simp at h
    · obtain ⟨p, hp⟩ := PrimeBelow_terminates fuel (if n < 3 then 2 else n)
        (by split <;> omega) (by split <;> omega)
      simp only [if_true, hp]
      exact ⟨_, rfl⟩

theorem Rehash_terminates [DecidableEq K] (fuel self : Nat) (t : HashTable K D) (nb : Nat)
    (h : t.prime_ = false ∨
      ((if nb = 0 then t.Size else nb) + 1 < 2 ^ 32 ∧ (if nb = 0 then t.Size else nb) + 2 ≤ fuel)) :
    ∃ t1, t.Rehash fuel self nb = some t1 := by
  obtain ⟨newTable, hc⟩ :=
    @ctor_terminates K D fuel (if nb = 0 then t.Size else nb) t.hashObject_ t.prime_ h
  unfold Rehash
  simp only [hc]
  exact ⟨_, rfl⟩

end HashTable

end fsu

namespace fsu

theorem HashTable.Inv.size_eq {K D : Type} {t : HashTable K D} (h : t.Inv) :
    t.Size = t.entries.length := HashTable.Size_eq t h.length_eq

theorem perm_cons_filter {K D : Type} [DecidableEq K] (L : List (Entry K D)) (e : Entry K D)
    (hn : (L.map Entry.key_).Nodup) (he : e ∈ L) :
    L.Perm (e :: L.filter (fun a => decide (a.key_ ≠ e.key_))) := by
  obtain ⟨X, Y, rfl⟩ := List.append_of_mem he
  rw [filter_key_split X Y e e.key_ rfl hn]
  exact List.perm_middle

/-- C3 (upsert law): on a reachable table, `Insert(k,d1); Insert(k,d2)` leaves `Size()` at
its value after the first `Insert`, and `Retrieve(k, d)` then succeeds with `d = d2`; and on
an empty 3-bucket table, under any hash, `Insert("cat",1); Insert("dog",2)` gives
`Size() == 2` and `Get("cat") == 1`. -/
theorem upsert_law {K D : Type} [DecidableEq K] [Inhabited D] (self : Nat)
    (t : HashTable K D) (h : Reachable t) (k : K) (d1 d2 d0 : D) :
    ((t.Insert self k d1).1.Insert self k d2).1.Size = (t.Insert self k d1).1.Size ∧
    ((t.Insert self k d1).1.Insert self k d2).1.Retrieve self k d0 = .ok (true, d2) ∧
    ∀ (hash : String → Nat) (prime : Bool),
      (((⟨3, [[], [], []], hash, prime⟩ : HashTable String Nat).Insert self "cat" 1).1.Insert
        self "dog" 2).1.Size = 2 ∧
      ((((⟨3, [[], [], []], hash, prime⟩ : HashTable String Nat).Insert self "cat" 1).1.Insert
        self "dog" 2).1.Get "cat").2 = some 1 := by
  obtain ⟨i1, p1, _⟩ := HashTable.Insert_spec self t k d1 h.inv
  obtain ⟨i2, p2, _⟩ := HashTable.Insert_spec self (t.Insert self k d1).1 k d2 i1
  have hm1 : (⟨k, d1⟩ : Entry K D) ∈ (t.Insert self k d1).1.entries :=
    p1.symm.subset (List.mem_cons_self _ _)
  have hm2 : (⟨k, d2⟩ : Entry K D) ∈ ((t.Insert self k d1).1.Insert self k d2).1.entries :=
    p2.symm.subset (List.mem_cons_self _ _)
  refine ⟨?_, HashTable.Retrieve_present self _ i2 ⟨k, d2⟩ hm2 d0, ?_⟩
  · rw [i2.size_eq, i1.size_eq, p2.length_eq,
      (perm_cons_filter _ ⟨k, d1⟩ i1.nodup hm1).length_eq]
    simp
  · intro hash prime
    have h0 : (⟨3, [[], [], []], hash, prime⟩ : HashTable String Nat).Inv :=
      HashTable.inv_of_empty _ (by show 2 ≤ 3; omega) rfl
    obtain ⟨j1, q1, _⟩ := HashTable.Insert_spec self _ "cat" 1 h0
    obtain ⟨j2, q2, _⟩ := HashTable.Insert_spec self _ "dog" 2 j1
    have e0 : (⟨3, [[], [], []], hash, prime⟩ : HashTable String Nat).entries = [] := rfl
    rw [e0] at q1
    simp only [List.filter_nil] at q1
    have hcat : (⟨"cat", 1⟩ : Entry String Nat) ∈
        ((((⟨3, [[], [], []], hash, prime⟩ : HashTable String Nat).Insert self "cat" 1).1.Insert
          self "dog" 2).1).entries := by
      apply q2.symm.subset
      apply List.mem_cons_of_mem
      apply List.mem_filter.2
      exact ⟨q1.symm.subset (List.mem_cons_self _ _), by decide⟩
    constructor
    · rw [j2.size_eq, q2.length_eq, List.length_cons, (q1.filter _).length_eq]
      rfl
    · rw [HashTable.Get_present _ j2 ⟨"cat", 1⟩ hcat]

/-- C3 at the table holding "cat" and "dog", overwriting "cat". -/
theorem upsert_law_witness :
    ((catDog.Insert 7 "cat" 5).1.Insert 7 "cat" 6).1.Size = (catDog.Insert 7 "cat" 5).1.Size ∧
    ((catDog.Insert 7 "cat" 5).1.Insert 7 "cat" 6).1.Retrieve 7 "cat" 0 = .ok (true, 6) ∧
    ∀ (hash : String → Nat) (prime : Bool),
      (((⟨3, [[], [], []], hash, prime⟩ : HashTable String Nat).Insert 7 "cat" 1).1.Insert
        7 "dog" 2).1.Size = 2 ∧
      ((((⟨3, [[], [], []], hash, prime⟩ : HashTable String Nat).Insert 7 "cat" 1).1.Insert
        7 "dog" 2).1.Get "cat").2 = some 1 :=
  upsert_law 7 catDog catDog_reachable "cat" 5 6 0

/-- C4 (Remove/Includes law): on a reachable table, when `Remove(k)` returns success then
right afterwards `Includes(k)` compares equal to `End()`, `Size()` is smaller by exactly 1,
and a second `Remove(k)` returns failure. -/
theorem remove_includes_law {K D : Type} [DecidableEq K] [Inhabited D] (self : Nat)
    (t : HashTable K D) (h : Reachable t) (k : K) (hr : (t.Remove k).2 = true) :
    ((t.Remove k).1.Includes self k).eq ((t.Remove k).1.End self) (t.Remove k).1 = true ∧
    (t.Remove k).1.Size + 1 = t.Size ∧
    ((t.Remove k).1.Remove k).2 = false := by
  by_cases hk : ∃ e ∈ t.entries, e.key_ = k
  · obtain ⟨e, he, rfl⟩ := hk
    obtain ⟨_, r2, r3, r4, _⟩ := HashTable.Remove_present t h.inv e he
    have habs : ∀ a ∈ (t.Remove e.key_).1.entries, a.key_ ≠ e.key_ := by
      intro a ha
      rw [r3] at ha
      simpa using (List.mem_filter.1 ha).2
    refine ⟨?_, ?_, ?_⟩
    · rw [HashTable.Includes_absent self _ e.key_ habs]
      exact HashTable.eq_End_of_not_valid self _ _ (HashTable.End_not_valid self _)
    · rw [r2.size_eq, h.inv.size_eq, r4.length_eq]
      rfl
    · rw [HashTable.Remove_absent _ e.key_ habs]
  · rw [HashTable.Remove_absent t k (by
      intro a ha hak
      exact hk ⟨a, ha, hak⟩)] at hr
    simp at hr

/-- C4 at the spec's scenario: after `Insert("cat",1); Insert("dog",2)`, `Remove("dog")`
succeeds, `Size()` is 1 and `Includes("dog") == End()`. -/
theorem remove_includes_law_witness :
    (catDog.Remove "dog").2 = true ∧ (catDog.Remove "dog").1.Size = 1 ∧
    (((catDog.Remove "dog").1.Includes 7 "dog").eq ((catDog.Remove "dog").1.End 7)
      (catDog.Remove "dog").1 = true ∧
    (catDog.Remove "dog").1.Size + 1 = catDog.Size ∧
    ((catDog.Remove "dog").1.Remove "dog").2 = false) :=
  ⟨by decide, by decide, remove_includes_law 7 catDog catDog_reachable "dog" (by decide)⟩

end fsu

namespace fsu

theorem mem_bucket_iff_absent {K D : Type} (t : HashTable K D) (k : K) :
    (∀ i e, e ∈ t.bucket i → e.key_ ≠ k) ↔ ∀ a ∈ t.entries, a.key_ ≠ k := by
  constructor
  · intro h a ha
    obtain ⟨i, hi⟩ := (HashTable.mem_entries t a).1 ha
    exact h i a hi
  · intro h i e he
    exact h e ((HashTable.mem_entries t e).2 ⟨i, he⟩)

/-- C7 (Retrieve hit/miss): on a reachable table, `Retrieve(k, d)` returns success with `d`
set to the data stored with `k` when an entry with key `k` is stored, and failure with `d`
left at its initial value when none is; the call leaves the table as it was. -/
theorem retrieve_hit_miss {K D : Type} [DecidableEq K] [Inhabited D] (fuel self : Nat)
    (t : HashTable K D) (h : Reachable t) (k : K) (d0 : D) :
    (∀ i e, e ∈ t.bucket i → e.key_ = k → t.Retrieve self k d0 = .ok (true, e.data_)) ∧
    ((∀ i e, e ∈ t.bucket i → e.key_ ≠ k) → t.Retrieve self k d0 = .ok (false, d0)) ∧
    step fuel self t (.Retrieve k d0) = some (t, .retrieved (t.Retrieve self k d0)) := by
  refine ⟨?_, ?_, rfl⟩
  · intro i e he hk
    subst hk
    exact HashTable.Retrieve_present self t h.inv e ((HashTable.mem_entries t e).2 ⟨i, he⟩) d0
  · intro habs
    exact HashTable.Retrieve_absent self t k ((mem_bucket_iff_absent t k).1 habs) d0

/-- C7 at the table holding "cat" and "dog": a hit on "dog", a miss on "cow". -/
theorem retrieve_hit_miss_witness :
    catDog.Retrieve 7 "dog" 0 = .ok (true, 2) ∧ catDog.Retrieve 7 "cow" 9 = .ok (false, 9) :=
  ⟨(retrieve_hit_miss 0 7 catDog catDog_reachable "dog" 0).1 0 ⟨"dog", 2⟩ (by decide) rfl,
    (retrieve_hit_miss 0 7 catDog catDog_reachable "cow" 9).2.1 (by
      intro i e he
      have hi : i = 0 := by
        by_contra hc
        have : catDog.bucket i = [] := by
          rcases i with _ | _ | _ | i
          · exact absurd rfl hc
          · rfl
          · rfl
          · rfl
        rw [this] at he
        simp at he
      subst hi
      have he2 : e = ⟨"cat", 1⟩ ∨ e = ⟨"dog", 2⟩ := by
        simpa [catDog, HashTable.bucket] using he
      rcases he2 with rfl | rfl <;> decide)⟩

end fsu

namespace fsu

/-- C8 (mutable Get auto-vivifies): on a reachable table, when `k` is absent `Get(k)` appends
the one entry `(k, default)` to the bucket of `k` and changes nothing else, so `Size()` grows
by 1, the data returned is the default and `Retrieve(k)` afterwards yields the default; when
`k` is present `Get(k)` returns the data stored with `k` and leaves the table as it was; in
both cases it returns data. -/
theorem get_auto_vivifies {K D : Type} [DecidableEq K] [Inhabited D] (self : Nat)
    (t : HashTable K D) (h : Reachable t) (k : K) (d0 : D) :
    ((∀ i e, e ∈ t.bucket i → e.key_ ≠ k) →
      (t.Get k).2 = some default ∧
      (t.Get k).1.bucket (t.Index k) = t.bucket (t.Index k) ++ [⟨k, default⟩] ∧
      (∀ i, i ≠ t.Index k → (t.Get k).1.bucket i = t.bucket i) ∧
      (t.Get k).1.numBuckets_ = t.numBuckets_ ∧
      (t.Get k).1.Size = t.Size + 1 ∧
      (t.Get k).1.Retrieve self k d0 = .ok (true, default)) ∧
    (∀ i e, e ∈ t.bucket i → e.key_ = k → t.Get k = (t, some e.data_)) ∧
    (∃ d, (t.Get k).2 = some d) := by
  have hpres : ∀ i e, e ∈ t.bucket i → e.key_ = k → t.Get k = (t, some e.data_) := by
    intro i e he hk
    subst hk
    exact HashTable.Get_present t h.inv e ((HashTable.mem_entries t e).2 ⟨i, he⟩)
  have habs : (∀ i e, e ∈ t.bucket i → e.key_ ≠ k) →
      (t.Get k).2 = some default ∧
      (t.Get k).1.bucket (t.Index k) = t.bucket (t.Index k) ++ [⟨k, default⟩] ∧
      (∀ i, i ≠ t.Index k → (t.Get k).1.bucket i = t.bucket i) ∧
      (t.Get k).1.numBuckets_ = t.numBuckets_ ∧
      (t.Get k).1.Size = t.Size + 1 ∧
      (t.Get k).1.Retrieve self k d0 = .ok (true, default) := by
    intro hk
    obtain ⟨g1, g2, g3⟩ := HashTable.Get_absent t h.inv k ((mem_bucket_iff_absent t k).1 hk)
    have hm : (Entry.ofKey k : Entry K D) ∈ (t.Get k).1.entries :=
      g3.symm.subset (List.mem_cons_self _ _)
    refine ⟨by rw [g1], ?_, ?_, by rw [g1]; rfl, ?_, ?_⟩
    · rw [g1]
      exact HashTable.bucket_setBucket_self t _ _ (h.inv.index_lt k)
    · intro i hi
      rw [g1]
      exact HashTable.bucket_setBucket_ne t _ _ _ (fun hc => hi hc.symm)
    · rw [g2.size_eq, h.inv.size_eq, g3.length_eq]
      rfl
    · exact HashTable.Retrieve_present self _ g2 (Entry.ofKey k) hm d0
  refine ⟨habs, hpres, ?_⟩
  by_cases hk : ∃ i e, e ∈ t.bucket i ∧ e.key_ = k
  · obtain ⟨i, e, he, hek⟩ := hk
    exact ⟨e.data_, by rw [hpres i e he hek]⟩
  · exact ⟨default, (habs (by
      intro i e he hek
      exact hk ⟨i, e, he, hek⟩)).1⟩

/-- C8 at the table holding "cat" and "dog": `Get("cow")` adds `("cow", 0)`, `Get("dog")`
returns 2. -/
theorem get_auto_vivifies_witness :
    (catDog.Get "cow").1.Size = 3 ∧ (catDog.Get "cow").2 = some 0 ∧
    catDog.Get "dog" = (catDog, some 2) ∧ ∃ d, (catDog.Get "cow").2 = some d :=
  ⟨by decide, by decide,
    (get_auto_vivifies 7 catDog catDog_reachable "dog" 0).2.1 0 ⟨"dog", 2⟩ (by decide) rfl,
    (get_auto_vivifies 7 catDog catDog_reachable "cow" 0).2.2⟩

/-- C9 (const Get fails exactly on a missing key): on a reachable table, the const `Get(k)`
and the const `operator[]` return the data stored with `k` when an entry with key `k` is
stored, and end in the fatal error if and only if no entry with key `k` is stored. -/
theorem const_get_fails_iff_missing {K D : Type} [DecidableEq K] [Inhabited D] (self : Nat)
    (t : HashTable K D) (h : Reachable t) (k : K) :
    (∀ i e, e ∈ t.bucket i → e.key_ = k →
      t.GetConst self k = .ok e.data_ ∧ t.bracketConst self k = .ok e.data_) ∧
    ((∃ msg, t.GetConst self k = .error msg) ↔ ∀ i e, e ∈ t.bucket i → e.key_ ≠ k) ∧
    ((∃ msg, t.bracketConst self k = .error msg) ↔ ∀ i e, e ∈ t.bucket i → e.key_ ≠ k) := by
  have hpres : ∀ i e, e ∈ t.bucket i → e.key_ = k → t.GetConst self k = .ok e.data_ := by
    intro i e he hk
    subst hk
    exact HashTable.GetConst_present self t h.inv e ((HashTable.mem_entries t e).2 ⟨i, he⟩)
  have hiff : (∃ msg, t.GetConst self k = .error msg) ↔
      ∀ i e, e ∈ t.bucket i → e.key_ ≠ k := by
    constructor
    · rintro ⟨msg, hm⟩ i e he hk
      rw [hpres i e he hk] at hm
      simp at hm
    · intro habs
      exact ⟨_, HashTable.GetConst_absent self t k ((mem_bucket_iff_absent t k).1 habs)⟩
  exact ⟨fun i e he hk => ⟨hpres i e he hk, hpres i e he hk⟩, hiff, hiff⟩

/-- C9 at the table holding "cat" and "dog": the const `Get("cat")` returns 1. -/
theorem const_get_fails_iff_missing_witness :
    (catDog.GetConst 7 "cat" = .ok 1 ∧ catDog.bracketConst 7 "cat" = .ok 1) ∧
    catDog.GetConst 7 "cow"
      = .error "** Error: const bracket operator called on non-existence key" :=
  ⟨(const_get_fails_iff_missing 7 catDog catDog_reachable "cat").1 0 ⟨"cat", 1⟩
    (by decide) rfl, rfl⟩

end fsu

namespace fsu

/-! ## Size along a sequence of Insert and Remove calls -/

namespace HashTable

variable {K D : Type} [DecidableEq K] [Inhabited D]

omit [Inhabited D] in
theorem Insert_valid (self : Nat) (t : HashTable K D) (k : K) (d : D) (h : t.Inv) :
    (t.Insert self k d).2.Valid (t.Insert self k d).1 = true := by
  have hi := h.index_lt k
  have hi' : t.Index k < t.numBuckets_ := by rw [← h.length_eq]; exact hi
  unfold Insert
  simp only
  split
  · apply valid_of_pos
    · exact hi'
    · rw [bucket_setBucket_self t _ _ hi]
      simp [Bucket.Insert]
  · rename_i hj
    apply valid_of_pos
    · exact hi'
    · rw [bucket_setBucket_self t _ _ hi]
      simp only [Bucket.assign, List.length_set]
      exact lt_of_le_of_ne (Bucket.Includes_le _ _) hj

theorem Insert_size (self : Nat) (t : HashTable K D) (k : K) (d : D) (h : t.Inv) :
    (t.Insert self k d).1.Size
      = t.Size + (if (t.Includes self k).eq (t.End self) t then 1 else 0) := by
  obtain ⟨i1, p1, _⟩ := Insert_spec self t k d h
  rw [i1.size_eq, h.size_eq, p1.length_eq]
  by_cases hk : ∃ e ∈ t.entries, e.key_ = k
  · obtain ⟨e, he, rfl⟩ := hk
    rw [eq_End, (Includes_present self t h e he).1, (perm_cons_filter _ e h.nodup he).length_eq]
    simp
  · have habs : ∀ a ∈ t.entries, a.key_ ≠ k := fun a ha hak => hk ⟨a, ha, hak⟩
    rw [Includes_absent self t k habs, eq_End, End_not_valid, filter_key_absent _ k habs]
    simp

theorem Remove_size (t : HashTable K D) (k : K) (h : t.Inv) :
    (t.Remove k).1.Size + (if (t.Remove k).2 then 1 else 0) = t.Size := by
  by_cases hk : ∃ e ∈ t.entries, e.key_ = k
  · obtain ⟨e, he, rfl⟩ := hk
    obtain ⟨r1, r2, _, r4, _⟩ := Remove_present t h e he
    rw [r1, r2.size_eq, h.size_eq, r4.length_eq]
    simp
  · have habs : ∀ a ∈ t.entries, a.key_ ≠ k := fun a ha hak => hk ⟨a, ha, hak⟩
    rw [Remove_absent t k habs]
    simp

end HashTable

theorem run_insert_remove {K D : Type} [DecidableEq K] [Inhabited D] (fuel self : Nat)
    (ops : List (Op K D)) (hops : ∀ op ∈ ops, op.isInsertOrRemove = true)
    (t : HashTable K D) (h : t.Inv) :
    ∃ t1 rs, run fuel self t ops = some (t1, rs) ∧
      t1.Size + successfulRemoves rs = t.Size + freshInserts fuel self t ops := by
  induction ops generalizing t with
  | nil => exact ⟨t, [], rfl, by simp [successfulRemoves, freshInserts]⟩
  | cons op ops ih =>
    have hops' : ∀ o ∈ ops, o.isInsertOrRemove = true :=
      fun o ho => hops o (List.mem_cons_of_mem _ ho)
    have hop := hops op (List.mem_cons_self _ _)
    cases op with
    | Insert k d =>
      obtain ⟨t1, rs, hr, hs⟩ := ih hops' (t.Insert self k d).1
        (HashTable.Insert_spec self t k d h).1
      refine ⟨t1, Res.iter (t.Insert self k d).2
        ((t.Insert self k d).2.Valid (t.Insert self k d).1) :: rs,
        by simp only [run, step, hr], ?_⟩
      simp only [successfulRemoves, List.countP_cons, Res.isSuccess, freshInserts, step] at hs ⊢
      rw [HashTable.Insert_size self t k d h] at hs
      simp only [Bool.false_eq_true, if_false, Nat.add_zero]
      omega
    | Remove k =>
      obtain ⟨t1, rs, hr, hs⟩ := ih hops' (t.Remove k).1 (by
        by_cases hk : ∃ e ∈ t.entries, e.key_ = k
        · obtain ⟨e, he, rfl⟩ := hk
          exact (HashTable.Remove_present t h e he).2.1
        · rw [HashTable.Remove_absent t k (fun a ha hak => hk ⟨a, ha, hak⟩)]
          exact h)
      refine ⟨t1, Res.flag (t.Remove k).2 :: rs, by simp only [run, step, hr], ?_⟩
      have hsz := HashTable.Remove_size t k h
      simp only [successfulRemoves, List.countP_cons, Res.isSuccess, freshInserts, step] at hs ⊢
      omega
    | Put k d => simp [Op.isInsertOrRemove] at hop
    | Get k => simp [Op.isInsertOrRemove] at hop
    | Retrieve k d => simp [Op.isInsertOrRemove] at hop
    | Clear => simp [Op.isInsertOrRemove] at hop
    | Rehash nb => simp [Op.isInsertOrRemove] at hop
    | Size => simp [Op.isInsertOrRemove] at hop
    | Empty => simp [Op.isInsertOrRemove] at hop
    | Includes k => simp [Op.isInsertOrRemove] at hop

end fsu

namespace fsu

/-- C5 as stated fails: after `Insert("cat",1); Remove("cat"); Insert("cat",1)` on a fresh
table `Size()` is 1, while one distinct key was ever inserted and one `Remove` succeeded. -/
theorem size_law_counterexample :
    HashTable.ctor 5 3 lengthHash true = some freshTable ∧
    (∀ op ∈ reinsertOps, op.isInsertOrRemove = true) ∧
    ∃ t rs, run 0 7 freshTable reinsertOps = some (t, rs) ∧
      t.Size = 1 ∧ distinctKeysInserted reinsertOps = 1 ∧ successfulRemoves rs = 1 ∧
      t.Size ≠ distinctKeysInserted reinsertOps - successfulRemoves rs ∧
      (t.Size : Int) ≠ (distinctKeysInserted reinsertOps : Int) - (successfulRemoves rs : Int) :=
  ⟨rfl, by decide, _, _, rfl, by decide, by decide, by decide, by decide, by decide⟩

/-- C5 amended (size law): along every finite sequence of `Insert` and `Remove` calls on a
freshly constructed table, every call returns and `Size()` at the end equals the number of
`Insert` calls that found their key absent minus the number of successful `Remove` calls. -/
theorem size_law {K D : Type} [DecidableEq K] [Inhabited D] (fuel0 n : Nat)
    (hashObject : K → Nat) (prime : Bool) (t0 : HashTable K D)
    (hc : HashTable.ctor fuel0 n hashObject prime = some t0) (fuel self : Nat)
    (ops : List (Op K D)) (hops : ∀ op ∈ ops, op.isInsertOrRemove = true) :
    ∃ t rs, run fuel self t0 ops = some (t, rs) ∧
      t.Size + successfulRemoves rs = freshInserts fuel self t0 ops ∧
      t.Size = freshInserts fuel self t0 ops - successfulRemoves rs := by
  obtain ⟨hinv, hempty⟩ := HashTable.ctor_inv fuel0 n hashObject prime t0 hc
  obtain ⟨t, rs, hr, hs⟩ := run_insert_remove fuel self ops hops t0 hinv
  have h0 : t0.Size = 0 := by rw [hinv.size_eq, hempty]; rfl
  rw [h0] at hs
  exact ⟨t, rs, hr, by omega, by omega⟩

/-- C5 amended at `Insert("cat",1); Remove("cat"); Insert("cat",1)`: two calls found the key
absent, one removal succeeded, `Size()` is 1. -/
theorem size_law_witness :
    (∃ t rs, run 0 7 freshTable reinsertOps = some (t, rs) ∧
      t.Size + successfulRemoves rs = freshInserts 0 7 freshTable reinsertOps ∧
      t.Size = freshInserts 0 7 freshTable reinsertOps - successfulRemoves rs) ∧
    freshInserts 0 7 freshTable reinsertOps = 2 :=
  ⟨size_law 5 3 lengthHash true freshTable rfl 0 7 reinsertOps (by decide), by decide⟩

end fsu

namespace fsu

/-! ## Independence of the hash strategy -/

section
variable {K D : Type} [DecidableEq K] [Inhabited D]

omit [DecidableEq K] [Inhabited D] in
theorem ctor_isSome_congr (fuel n : Nat) (h1 h2 : K → Nat) (prime : Bool) :
    (HashTable.ctor fuel n h1 prime : Option (HashTable K D)).isSome
      = (HashTable.ctor fuel n h2 prime : Option (HashTable K D)).isSome := by
  unfold HashTable.ctor
  cases prime with
  | false => rfl
  | true =>
    simp only [if_true]
    cases PrimeBelow fuel (if n < 3 then 2 else n) <;> rfl

omit [Inhabited D] in
theorem Rehash_isSome (fuel self : Nat) (t : HashTable K D) (nb : Nat) :
    (t.Rehash fuel self nb).isSome
      = (HashTable.ctor fuel (if nb = 0 then t.Size else nb) t.hashObject_ t.prime_ :
          Option (HashTable K D)).isSome := by
  unfold HashTable.Rehash
  simp only
  cases HashTable.ctor fuel (if nb = 0 then t.Size else nb) t.hashObject_ t.prime_ <;> rfl

omit [DecidableEq K] [Inhabited D] in
theorem Sim.same_size {t1 t2 : HashTable K D} (hs : Sim t1 t2) : t1.Size = t2.Size := by
  rw [hs.inv1.size_eq, hs.inv2.size_eq, hs.perm.length_eq]

/-- One call on two tables holding the same entries: both calls return or neither does, the
tables still hold the same entries afterwards and the results show the same. -/
theorem step_sim (fuel self1 self2 : Nat) (t1 t2 : HashTable K D) (hs : Sim t1 t2)
    (op : Op K D) :
    (step fuel self1 t1 op = none ∧ step fuel self2 t2 op = none) ∨
    ∃ u1 u2 r1 r2, step fuel self1 t1 op = some (u1, r1) ∧
      step fuel self2 t2 op = some (u2, r2) ∧ Sim u1 u2 ∧ r1.observe = r2.observe := by
  have hmem : ∀ e, e ∈ t1.entries ↔ e ∈ t2.entries := fun e => hs.perm.mem_iff
  have habs : ∀ k, (∀ a ∈ t1.entries, a.key_ ≠ k) → ∀ a ∈ t2.entries, a.key_ ≠ k :=
    fun k h a ha => h a ((hmem a).2 ha)
  cases op with
  | Insert k d =>
    right
    obtain ⟨i1, p1, _, _, q1⟩ := HashTable.Insert_spec self1 t1 k d hs.inv1
    obtain ⟨i2, p2, _, _, q2⟩ := HashTable.Insert_spec self2 t2 k d hs.inv2
    refine ⟨_, _, _, _, rfl, rfl, ⟨i1, i2, ?_, by rw [q1, q2, hs.prime_eq]⟩, ?_⟩
    · exact p1.trans (((hs.perm.filter _).cons _).trans p2.symm)
    · simp only [Res.observe, HashTable.Insert_valid self1 t1 k d hs.inv1,
        HashTable.Insert_valid self2 t2 k d hs.inv2]
  | Put k d =>
    right
    obtain ⟨i1, p1, _, _, q1⟩ := HashTable.Insert_spec self1 t1 k d hs.inv1
    obtain ⟨i2, p2, _, _, q2⟩ := HashTable.Insert_spec self2 t2 k d hs.inv2
    refine ⟨_, _, _, _, rfl, rfl, ⟨i1, i2, ?_, ?_⟩, rfl⟩
    · exact p1.trans (((hs.perm.filter _).cons _).trans p2.symm)
    · simp only [HashTable.Put]; rw [q1, q2, hs.prime_eq]
  | Get k =>
    right
    refine ⟨_, _, _, _, rfl, rfl, ?_⟩
    by_cases hk : ∃ e ∈ t1.entries, e.key_ = k
    · obtain ⟨e, he, rfl⟩ := hk
      rw [HashTable.Get_present t1 hs.inv1 e he,
        HashTable.Get_present t2 hs.inv2 e ((hmem e).1 he)]
      exact ⟨hs, rfl⟩
    · have ha1 : ∀ a ∈ t1.entries, a.key_ ≠ k := fun a ha hak => hk ⟨a, ha, hak⟩
      obtain ⟨g1, g2, g3⟩ := HashTable.Get_absent t1 hs.inv1 k ha1
      obtain ⟨f1, f2, f3⟩ := HashTable.Get_absent t2 hs.inv2 k (habs k ha1)
      refine ⟨⟨g2, f2, g3.trans ((hs.perm.cons _).trans f3.symm), ?_⟩, ?_⟩
      · rw [g1, f1]; exact hs.prime_eq
      · rw [g1, f1]
  | Remove k =>
    right
    refine ⟨_, _, _, _, rfl, rfl, ?_⟩
    by_cases hk : ∃ e ∈ t1.entries, e.key_ = k
    · obtain ⟨e, he, rfl⟩ := hk
      obtain ⟨a1, a2, a3, _, _, _, a7⟩ := HashTable.Remove_present t1 hs.inv1 e he
      obtain ⟨b1, b2, b3, _, _, _, b7⟩ :=
        HashTable.Remove_present t2 hs.inv2 e ((hmem e).1 he)
      refine ⟨⟨a2, b2, ?_, by rw [a7, b7, hs.prime_eq]⟩, by rw [a1, b1]⟩
      rw [a3, b3]
      exact hs.perm.filter _
    · have ha1 : ∀ a ∈ t1.entries, a.key_ ≠ k := fun a ha hak => hk ⟨a, ha, hak⟩
      rw [HashTable.Remove_absent t1 k ha1, HashTable.Remove_absent t2 k (habs k ha1)]
      exact ⟨hs, rfl⟩
  | Retrieve k d =>
    right
    refine ⟨_, _, _, _, rfl, rfl, hs, ?_⟩
    by_cases hk : ∃ e ∈ t1.entries, e.key_ = k
    · obtain ⟨e, he, rfl⟩ := hk
      rw [HashTable.Retrieve_present self1 t1 hs.inv1 e he,
        HashTable.Retrieve_present self2 t2 hs.inv2 e ((hmem e).1 he)]
    · have ha1 : ∀ a ∈ t1.entries, a.key_ ≠ k := fun a ha hak => hk ⟨a, ha, hak⟩
      rw [HashTable.Retrieve_absent self1 t1 k ha1,
        HashTable.Retrieve_absent self2 t2 k (habs k ha1)]
  | Clear =>
    right
    obtain ⟨c1, c2, _, _, c5⟩ := HashTable.Clear_spec t1 hs.inv1
    obtain ⟨d1, d2, _, _, d5⟩ := HashTable.Clear_spec t2 hs.inv2
    exact ⟨_, _, _, _, rfl, rfl, ⟨c1, d1, by rw [c2, d2], by rw [c5, d5, hs.prime_eq]⟩, rfl⟩
  | Rehash nb =>
    have hsome : (t1.Rehash fuel self1 nb).isSome = (t2.Rehash fuel self2 nb).isSome := by
      rw [Rehash_isSome, Rehash_isSome, hs.same_size, hs.prime_eq]
      exact ctor_isSome_congr _ _ _ _ _
    cases h1 : t1.Rehash fuel self1 nb with
    | none =>
      left
      rw [h1] at hsome
      have h2 : t2.Rehash fuel self2 nb = none := by
        cases h2 : t2.Rehash fuel self2 nb with
        | none => rfl
        | some u => rw [h2] at hsome; simp at hsome
      simp only [step, h1, h2, and_self]
    | some u1 =>
      right
      rw [h1] at hsome
      cases h2 : t2.Rehash fuel self2 nb with
      | none => rw [h2] at hsome; simp at hsome
      | some u2 =>
        obtain ⟨a1, a2, _, a4, _⟩ := HashTable.Rehash_spec fuel self1 t1 u1 nb hs.inv1 h1
        obtain ⟨b1, b2, _, b4, _⟩ := HashTable.Rehash_spec fuel self2 t2 u2 nb hs.inv2 h2
        refine ⟨u1, u2, .unit, .unit, by simp only [step, h1], by simp only [step, h2],
          ⟨a1, b1, a2.trans (hs.perm.trans b2.symm), by rw [a4, b4, hs.prime_eq]⟩, rfl⟩
  | Size =>
    right
    exact ⟨_, _, _, _, rfl, rfl, hs, by rw [hs.same_size]⟩
  | Empty =>
    right
    refine ⟨_, _, _, _, rfl, rfl, hs, ?_⟩
    have : t1.Empty = t2.Empty := by
      rw [Bool.eq_iff_iff, HashTable.Empty_iff t1 hs.inv1.length_eq,
        HashTable.Empty_iff t2 hs.inv2.length_eq]
      exact ⟨fun h => List.Perm.eq_nil (h ▸ hs.perm.symm),
        fun h => List.Perm.eq_nil (h ▸ hs.perm)⟩
    rw [this]
  | Includes k =>
    right
    refine ⟨_, _, _, _, rfl, rfl, hs, ?_⟩
    simp only [Res.observe, Res.iter.injEq, true_and]
    by_cases hk : ∃ e ∈ t1.entries, e.key_ = k
    · obtain ⟨e, he, rfl⟩ := hk
      rw [(HashTable.Includes_present self1 t1 hs.inv1 e he).1,
        (HashTable.Includes_present self2 t2 hs.inv2 e ((hmem e).1 he)).1]
    · have ha1 : ∀ a ∈ t1.entries, a.key_ ≠ k := fun a ha hak => hk ⟨a, ha, hak⟩
      rw [HashTable.Includes_absent self1 t1 k ha1,
        HashTable.Includes_absent self2 t2 k (habs k ha1),
        HashTable.End_not_valid, HashTable.End_not_valid]

theorem run_sim (fuel self1 self2 : Nat) (ops : List (Op K D)) (t1 t2 : HashTable K D)
    (hs : Sim t1 t2) :
    observations (run fuel self1 t1 ops) = observations (run fuel self2 t2 ops) := by
  induction ops generalizing t1 t2 with
  | nil => rfl
  | cons op ops ih =>
    rcases step_sim fuel self1 self2 t1 t2 hs op with ⟨h1, h2⟩ |
      ⟨u1, u2, r1, r2, h1, h2, hu, hr⟩
    · simp only [run, h1, h2]
    · have := ih u1 u2 hu
      simp only [run, h1, h2]
      cases e1 : run fuel self1 u1 ops with
      | none =>
        cases e2 : run fuel self2 u2 ops with
        | none => rfl
        | some p2 => rw [e1, e2] at this; simp [observations] at this
      | some p1 =>
        cases e2 : run fuel self2 u2 ops with
        | none => rw [e1, e2] at this; simp [observations] at this
        | some p2 =>
          rw [e1, e2] at this
          simp only [observations, Option.map_some', Option.some.injEq] at this ⊢
          simp only [List.map_cons, hr, this]

end

/-- C10 (hash independence): two tables constructed with the same requested bucket count and
prime flag under two hash strategies, driven by the same finite sequence of calls, return the
same results call for call (flags, retrieved data, sizes, emptiness, validity of returned
iterators), and one run returns exactly when the other does. -/
theorem hash_independence {K D : Type} [DecidableEq K] [Inhabited D] (fuel1 fuel2 n : Nat)
    (h1 h2 : K → Nat) (prime : Bool) (t1 t2 : HashTable K D)
    (hc1 : HashTable.ctor fuel1 n h1 prime = some t1)
    (hc2 : HashTable.ctor fuel2 n h2 prime = some t2)
    (fuel self1 self2 : Nat) (ops : List (Op K D)) :
    observations (run fuel self1 t1 ops) = observations (run fuel self2 t2 ops) := by
  obtain ⟨i1, e1⟩ := HashTable.ctor_inv fuel1 n h1 prime t1 hc1
  obtain ⟨i2, e2⟩ := HashTable.ctor_inv fuel2 n h2 prime t2 hc2
  obtain ⟨_, _, _, p1⟩ := HashTable.ctor_spec fuel1 n h1 prime t1 hc1
  obtain ⟨_, _, _, p2⟩ := HashTable.ctor_spec fuel2 n h2 prime t2 hc2
  exact run_sim fuel self1 self2 ops t1 t2 ⟨i1, i2, by rw [e1, e2], by rw [p1, p2]⟩

end fsu

namespace fsu

/-- C10 at two 3-bucket tables hashed by length and by first character, driven through every
member function: both runs return and show the same results. -/
theorem hash_independence_witness :
    observations (run 10 7 freshTable sampleOps) = observations (run 10 8 freshTable2 sampleOps) ∧
    (observations (run 10 7 freshTable sampleOps)).isSome = true ∧
    (run 10 7 freshTable [.Insert "cat" 1, .Insert "emu" 2]).map (fun p => p.1.bucketVector_)
      ≠ (run 10 8 freshTable2 [.Insert "cat" 1, .Insert "emu" 2]).map
        (fun p => p.1.bucketVector_) :=
  ⟨hash_independence 5 6 3 lengthHash firstCharHash true freshTable freshTable2 rfl rfl 10 7 8
    sampleOps, by rfl, by decide⟩

end fsu

namespace fsu

/-! ## The sieve computes the primes below its size -/

theorem sizeMod_eq : sizeMod = 18446744073709551616 := by norm_num [sizeMod]

theorem sieveLimit_eq : sieveLimit = 18446744065119617025 := by norm_num [sieveLimit]

namespace BitVector

theorem bit_of_le (b : BitVector) (k : Nat) (h : b.Size ≤ k) : b.bit k = false := by
  simp only [Size] at h
  simp [bit, List.getElem?_eq_none h]

theorem Test_eq_bit (b : BitVector) (k : Nat) (h : k < b.Size) : b.Test k = some (b.bit k) := by
  simp only [Size] at h
  simp [Test, bit, h]

theorem bit_Set (b : BitVector) (k : Nat) : b.Set.bit k = decide (k < b.Size) := by
  simp only [bit, Set, Size, List.getD_eq_getElem?_getD, List.getElem?_replicate]
  by_cases h : k < b.bits.length <;> simp [h]

theorem size_Set (b : BitVector) : b.Set.Size = b.Size := by simp [Set, Size]

theorem bit_of_Unset (b b1 : BitVector) (j : Nat) (h : b.Unset j = some b1) (k : Nat) :
    b1.bit k = if k = j then false else b.bit k := by
  unfold Unset at h
  split at h
  · rename_i hj
    simp only [Option.some.injEq] at h
    subst h
    simp only [bit, List.getD_eq_getElem?_getD, List.getElem?_set]
    by_cases hk : k = j
    · subst hk
      simp [hj]
    · have : ¬ j = k := fun e => hk e.symm
      simp [hk, this]
  · simp at h

end BitVector

/-- The inner loop clears exactly the bits at `j`, `j + i`, `j + 2i`, ... -/
theorem sieveInner_spec (max i : Nat) (hi : 1 ≤ i) (hmax : max + i ≤ sizeMod)
    (fuel j : Nat) (b : BitVector) (hb : b.Size = max) (hf : max - j < fuel) :
    ∃ b1, sieveInner max i fuel j b = some b1 ∧ b1.Size = max ∧
      ∀ k, b1.bit k = true ↔ (b.bit k = true ∧ ¬ (j ≤ k ∧ i ∣ (k - j))) := by
  induction fuel generalizing j b with
  | zero => omega
  | succ fuel ih =>
    unfold sieveInner
    by_cases hj : j < max
    · rw [if_pos hj]
      obtain ⟨b1, h1, h2⟩ := b.Unset_isSome j (by omega)
      rw [h1]
      simp only
      have hmod : (j + i) % sizeMod = j + i := Nat.mod_eq_of_lt (by omega)
      rw [hmod]
      obtain ⟨b2, e1, e2, e3⟩ := ih (j + i) b1 (by omega) (by omega)
      refine ⟨b2, e1, e2, ?_⟩
      intro k
      rw [e3 k, BitVector.bit_of_Unset b b1 j h1 k]
      by_cases hk : k = j
      · subst hk
        simp
      · simp only [hk, if_false]
        apply and_congr_right
        intro _
        apply not_congr
        constructor
        · rintro ⟨g1, g2⟩
          refine ⟨by omega, ?_⟩
          have : k - j = (k - (j + i)) + i := by omega
          rw [this]
          exact Dvd.dvd.add g2 (dvd_refl i)
        · rintro ⟨g1, g2⟩
          have hpos : 0 < k - j := by omega
          have hle : i ≤ k - j := Nat.le_of_dvd hpos g2
          refine ⟨by omega, ?_⟩
          have : k - (j + i) = (k - j) - i := by omega
          rw [this]
          exact Nat.dvd_sub' g2 (dvd_refl i)
    · rw [if_neg hj]
      refine ⟨b, rfl, hb, ?_⟩
      intro k
      by_cases hk : j ≤ k
      · have : b.bit k = false := b.bit_of_le k (by omega)
        simp [this]
      · simp [hk]

end fsu

namespace fsu

theorem Sieved.of_exit (max i : Nat) (b : BitVector) (hs : Sieved max i b)
    (hc : max ≤ i * i) (k : Nat) : b.bit k = true ↔ (k < max ∧ k.Prime) := by
  rw [hs.2 k]
  constructor
  · rintro ⟨h1, h2, h3⟩
    refine ⟨h1, Nat.prime_def.2 ⟨h2, ?_⟩⟩
    intro m hm
    obtain ⟨c, hc1⟩ := hm
    have hm0 : m ≠ 0 := by rintro rfl; omega
    have hc0 : c ≠ 0 := by rintro rfl; omega
    by_cases hm1 : m = 1
    · exact Or.inl hm1
    · right
      by_cases hmi : m < i
      · exact h3 m (by omega) hmi ⟨c, hc1⟩
      · have hci : c < i := by
          by_contra hci
          have : i * i ≤ m * c := Nat.mul_le_mul (by omega) (by omega)
          omega
        by_cases hc2 : c = 1
        · rw [hc1, hc2, Nat.mul_one]
        · have hck : c = k := h3 c (by omega) hci ⟨m, by rw [hc1, Nat.mul_comm]⟩
          have hmk : m * k = 1 * k := by rw [Nat.one_mul, ← hck, ← hc1, hck]
          have := Nat.eq_of_mul_eq_mul_right (by omega : 0 < k) hmk
          exact absurd this hm1
  · rintro ⟨h1, hp⟩
    refine ⟨h1, hp.two_le, ?_⟩
    intro d hd _ hdk
    rcases (Nat.prime_def.1 hp).2 d hdk with h | h
    · omega
    · exact h

theorem Sieved.step_prime (max i : Nat) (b b1 : BitVector) (hs : Sieved max i b)
    (h2 : 2 ≤ i) (hb1 : b1.Size = max)
    (hbit : ∀ k, b1.bit k = true ↔ (b.bit k = true ∧ ¬ (i + i ≤ k ∧ i ∣ (k - (i + i))))) :
    Sieved max (i + 1) b1 := by
  refine ⟨hb1, ?_⟩
  intro k
  rw [hbit k, hs.2 k]
  constructor
  · rintro ⟨⟨h1, h2', h3⟩, h4⟩
    refine ⟨h1, h2', ?_⟩
    intro d hd hdi hdk
    by_cases hlt : d < i
    · exact h3 d hd hlt hdk
    · have hdi' : d = i := by omega
      subst hdi'
      by_contra hne
      apply h4
      obtain ⟨c, hc⟩ := hdk
      have hc2 : 2 ≤ c := by
        rcases c with _ | _ | c
        · omega
        · exact absurd (by rw [hc, Nat.mul_one]) hne
        · omega
      have hge : d + d ≤ k := by
        have : d * 2 ≤ d * c := Nat.mul_le_mul_left d hc2
        omega
      refine ⟨hge, ?_⟩
      have : k - (d + d) = d * (c - 2) := by
        rw [hc, Nat.mul_sub]
        omega
      rw [this]
      exact Dvd.intro _ rfl
  · rintro ⟨h1, h2', h3⟩
    refine ⟨⟨h1, h2', fun d hd hdi hdk => h3 d hd (by omega) hdk⟩, ?_⟩
    rintro ⟨g1, g2⟩
    have hik : i ∣ k := by
      have : k = (k - (i + i)) + (i + i) := by omega
      rw [this]
      exact Dvd.dvd.add g2 (Dvd.dvd.add (dvd_refl i) (dvd_refl i))
    have := h3 i h2 (by omega) hik
    omega

theorem Sieved.step_composite (max i : Nat) (b : BitVector) (hs : Sieved max i b)
    (h2 : 2 ≤ i) (him : i < max) (hbit : b.bit i = false) : Sieved max (i + 1) b := by
  refine ⟨hs.1, ?_⟩
  have hni : ¬ (i < max ∧ 2 ≤ i ∧ ∀ d, 2 ≤ d → d < i → d ∣ i → d = i) := by
    intro h
    have := (hs.2 i).2 h
    rw [hbit] at this
    simp at this
  have hex : ∃ d, 2 ≤ d ∧ d < i ∧ d ∣ i := by
    by_contra hne
    apply hni
    refine ⟨him, h2, ?_⟩
    intro d hd hdi hdk
    exact absurd ⟨d, hd, hdi, hdk⟩ hne
  obtain ⟨d0, hd0, hd0i, hd0k⟩ := hex
  intro k
  rw [hs.2 k]
  constructor
  · rintro ⟨h1, h2', h3⟩
    refine ⟨h1, h2', ?_⟩
    intro d hd hdi hdk
    by_cases hlt : d < i
    · exact h3 d hd hlt hdk
    · have hdi' : d = i := by omega
      subst hdi'
      have hk0 := h3 d0 hd0 hd0i (Nat.dvd_trans hd0k hdk)
      have hle : d ≤ k := Nat.le_of_dvd (by omega) hdk
      omega
  · rintro ⟨h1, h2', h3⟩
    exact ⟨h1, h2', fun d hd hdi hdk => h3 d hd (by omega) hdk⟩

/-- The outer loop, started on a vector sieved below `i`, returns with exactly the primes
set, as long as the size is at most `sieveLimit`. -/
theorem sieveOuter_spec (max : Nat) (hmax : max ≤ sieveLimit) (fuel i : Nat) (b : BitVector)
    (hs : Sieved max i b) (h2 : 2 ≤ i) (h32 : i < 2 ^ 32) (him : i ≤ max)
    (hf : max - i < fuel) :
    ∃ b1, sieveOuter max fuel i b = some b1 ∧ b1.Size = max ∧
      ∀ k, b1.bit k = true ↔ (k < max ∧ k.Prime) := by
  induction fuel generalizing i b with
  | zero => omega
  | succ fuel ih =>
    have hlim := sieveLimit_eq
    have hsm := sizeMod_eq
    have hsq : i * i < sizeMod := by
      have h1 : i * i ≤ (2 ^ 32 - 1) * (2 ^ 32 - 1) := Nat.mul_le_mul (by omega) (by omega)
      have h3 : ((2 : Nat) ^ 32 - 1) * (2 ^ 32 - 1) = 18446744065119617025 := by norm_num
      omega
    unfold sieveOuter
    rw [Nat.mod_eq_of_lt hsq]
    by_cases hc : i * i < max
    · rw [if_pos hc]
      have hlt : i < max := lt_of_le_of_lt (Nat.le_mul_self i) hc
      have h32' : i + 1 < 2 ^ 32 := by
        by_contra hge
        have h1 : (2 ^ 32 - 1) * (2 ^ 32 - 1) ≤ i * i := Nat.mul_le_mul (by omega) (by omega)
        have h3 : ((2 : Nat) ^ 32 - 1) * (2 ^ 32 - 1) = 18446744065119617025 := by norm_num
        omega
      have hm1 : (i + 1) % sizeMod = i + 1 := Nat.mod_eq_of_lt (by omega)
      have hm2 : (i + i) % sizeMod = i + i := Nat.mod_eq_of_lt (by omega)
      rw [hm1, hm2, b.Test_eq_bit i (by rw [hs.1]; exact hlt)]
      cases hbit : b.bit i with
      | true =>
        simp only
        obtain ⟨b1, e1, e2, e3⟩ :=
          sieveInner_spec max i (by omega) (by omega) fuel (i + i) b hs.1 (by omega)
        rw [e1]
        exact ih (i + 1) b1 (hs.step_prime max i b b1 h2 e2 e3) (by omega) h32' (by omega)
          (by omega)
      | false =>
        simp only
        exact ih (i + 1) b (hs.step_composite max i b h2 hlt hbit) (by omega) h32' (by omega)
          (by omega)
    · rw [if_neg hc]
      exact ⟨b, rfl, hs.1, hs.of_exit max i b (by omega)⟩

/-- The sieve on a vector of size between 2 and `sieveLimit`, whatever it holds: with fuel
at least the size it returns a vector of the same size in which exactly the primes are
set. -/
theorem Sieve_spec (fuel : Nat) (b : BitVector) (h2 : 2 ≤ b.Size) (hmax : b.Size ≤ sieveLimit)
    (hf : b.Size ≤ fuel + 1) :
    ∃ b1, Sieve fuel b = some b1 ∧ b1.Size = b.Size ∧
      ∀ k, b1.bit k = true ↔ (k < b.Size ∧ k.Prime) := by
  obtain ⟨b0, h0, hs0⟩ := b.Set.Unset_isSome 0 (by rw [b.size_Set]; omega)
  obtain ⟨b1, h1, hs1⟩ := b0.Unset_isSome 1 (by rw [hs0, b.size_Set]; omega)
  have hsv : Sieved b.Size 2 b1 := by
    refine ⟨by rw [hs1, hs0, b.size_Set], ?_⟩
    intro k
    rw [BitVector.bit_of_Unset b0 b1 1 h1 k, BitVector.bit_of_Unset b.Set b0 0 h0 k, b.bit_Set]
    by_cases hk1 : k = 1
    · subst hk1; simp
    · by_cases hk0 : k = 0
      · subst hk0; simp
      · simp only [hk1, hk0, if_false, decide_eq_true_eq]
        constructor
        · intro h
          exact ⟨h, by omega, fun d hd hd2 _ => by omega⟩
        · intro h
          exact h.1
  unfold Sieve
  simp only [h0, h1]
  exact sieveOuter_spec b.Size hmax fuel 2 b1 hsv (Nat.le_refl 2) (by norm_num) h2 (by omega)

end fsu

namespace fsu

/-! ## The sieve does not return on a vector of `2^64 - 1` bits -/

theorem BitVector.size_ofSize (n : Nat) : (BitVector.ofSize n).Size = n := by
  simp [BitVector.ofSize, BitVector.Size]

/-- For `i = 2` and `max = 2^64 - 1` the inner loop never sees `j >= max`: `j` stays even
through the wrap-around. -/
theorem sieveInner_diverges (max : Nat) (hmax : max = sizeMod - 1) (fuel j : Nat)
    (b : BitVector) (hb : b.Size = max) (hj : j % 2 = 0) (hjl : j < sizeMod) :
    sieveInner max 2 fuel j b = none := by
  have hsm := sizeMod_eq
  induction fuel generalizing j b with
  | zero => rfl
  | succ fuel ih =>
    unfold sieveInner
    have hlt : j < max := by omega
    rw [if_pos hlt]
    obtain ⟨b1, h1, h2⟩ := b.Unset_isSome j (by omega)
    rw [h1]
    simp only
    exact ih ((j + 2) % sizeMod) b1 (by omega) (by rw [hsm]; omega) (Nat.mod_lt _ (by omega))

theorem Sieve_diverges (n : Nat) (hn : n = sizeMod - 1) (fuel : Nat) (b : BitVector)
    (hb : b.Size = n) : Sieve fuel b = none := by
  have hsm := sizeMod_eq
  obtain ⟨b0, h0, hs0⟩ := b.Set.Unset_isSome 0 (by rw [b.size_Set]; omega)
  obtain ⟨b1, h1, hs1⟩ := b0.Unset_isSome 1 (by rw [hs0, b.size_Set]; omega)
  have hsz : b1.Size = n := by rw [hs1, hs0, b.size_Set, hb]
  have hbit : b1.bit 2 = true := by
    rw [BitVector.bit_of_Unset b0 b1 1 h1 2, BitVector.bit_of_Unset b.Set b0 0 h0 2, b.bit_Set]
    simp
    omega
  unfold Sieve
  simp only [h0, h1, hb]
  cases fuel with
  | zero => rfl
  | succ fuel =>
    unfold sieveOuter
    have h4 : (2 * 2) % sizeMod < n := by rw [hn, hsm]; omega
    rw [if_pos h4, b1.Test_eq_bit 2 (by omega), hbit]
    simp only
    rw [sieveInner_diverges n hn fuel ((2 + 2) % sizeMod) b1 hsz (by rw [hsm])
      (Nat.mod_lt _ (by omega))]

end fsu

namespace fsu

/-- C12 as stated fails: after the sieve over size 10, bits 0 and 1 are cleared although
neither number has a divisor `d` with `2 <= d` and `d*d <=` it; and over size `2^64 - 1` the
sieve never returns. -/
theorem sieve_divisor_test_counterexample :
    (∃ b1, Sieve 9 (BitVector.ofSize 10) = some b1 ∧
      b1.Test 0 = some false ∧ (¬ ∃ d, 2 ≤ d ∧ d * d ≤ 0 ∧ d ∣ 0) ∧
      b1.Test 1 = some false ∧ (¬ ∃ d, 2 ≤ d ∧ d * d ≤ 1 ∧ d ∣ 1)) ∧
    ∀ fuel, Sieve fuel (BitVector.ofSize (2 ^ 64 - 1)) = none := by
  refine ⟨⟨_, rfl, rfl, ?_, rfl, ?_⟩,
    fun fuel => Sieve_diverges (2 ^ 64 - 1) rfl fuel _ (BitVector.size_ofSize _)⟩
  · rintro ⟨d, h1, h2, _⟩
    have : 2 * 2 ≤ d * d := Nat.mul_le_mul h1 h1
    omega
  · rintro ⟨d, h1, h2, _⟩
    have : 2 * 2 ≤ d * d := Nat.mul_le_mul h1 h1
    omega

/-- C12 amended (sieve as a divisor test): for a sieve over size `N` with
`2 <= N <= (2^32 - 1)^2` and every `k` with `2 <= k < N`, after `Sieve(b)` bit `k` is set if
and only if `k` has no divisor `d` with `2 <= d` and `d*d <= k`; bits 0 and 1 are cleared. -/
theorem sieve_divisor_test (fuel : Nat) (b : BitVector) (h2 : 2 ≤ b.Size)
    (hmax : b.Size ≤ sieveLimit) (hf : b.Size ≤ fuel + 1) :
    ∃ b1, Sieve fuel b = some b1 ∧
      (∀ k, 2 ≤ k → k < b.Size →
        ∃ v, b1.Test k = some v ∧ (v = true ↔ ¬ ∃ d, 2 ≤ d ∧ d * d ≤ k ∧ d ∣ k)) ∧
      b1.Test 0 = some false ∧ b1.Test 1 = some false := by
  obtain ⟨b1, e1, e2, e3⟩ := Sieve_spec fuel b h2 hmax hf
  have hnot : ∀ k, ¬ k.Prime → k < b.Size → b1.Test k = some false := by
    intro k hk hlt
    rw [b1.Test_eq_bit k (by rw [e2]; exact hlt)]
    cases hb : b1.bit k with
    | false => rfl
    | true => exact absurd ((e3 k).1 hb).2 hk
  refine ⟨b1, e1, ?_, hnot 0 (by norm_num) (by omega), hnot 1 (by norm_num) (by omega)⟩
  intro k hk2 hk
  refine ⟨b1.bit k, b1.Test_eq_bit k (by rw [e2]; exact hk), ?_⟩
  rw [e3 k, Nat.prime_def_le_sqrt]
  constructor
  · rintro ⟨_, _, h⟩ ⟨d, hd, hdd, hdk⟩
    exact h d hd (Nat.le_sqrt.2 hdd) hdk
  · intro h
    exact ⟨hk, hk2, fun m hm hms hmk => h ⟨m, hm, Nat.le_sqrt.1 hms, hmk⟩⟩

/-- C12 amended at `N = 10`. -/
theorem sieve_divisor_test_witness :
    ∃ b1, Sieve 9 (BitVector.ofSize 10) = some b1 ∧
      (∀ k, 2 ≤ k → k < (BitVector.ofSize 10).Size →
        ∃ v, b1.Test k = some v ∧ (v = true ↔ ¬ ∃ d, 2 ≤ d ∧ d * d ≤ k ∧ d ∣ k)) ∧
      b1.Test 0 = some false ∧ b1.Test 1 = some false :=
  sieve_divisor_test 9 (BitVector.ofSize 10) (by decide) (by rw [sieveLimit_eq]; decide)
    (by decide)

/-! ## PrimeBelow and PrimeAbove -/

end fsu

namespace fsu

theorem maxPrime_eq : maxPrime = 99999989 := rfl

theorem trialFrom_spec (n fuel d : Nat) (h : trialFrom n fuel d = true) :
    ∀ k, d ≤ k → k < d + fuel → ¬ k ∣ n := by
  induction fuel generalizing d with
  | zero => intro k h1 h2; omega
  | succ fuel ih =>
    intro k h1 h2 hk
    rw [trialFrom] at h
    split at h
    · simp at h
    · rename_i hd
      by_cases hkd : k = d
      · subst hkd
        exact hd (Nat.mod_eq_zero_of_dvd hk)
      · exact ih (d + 1) h k (by omega) (by omega) hk

theorem trialFrom_maxPrime : trialFrom 99999989 9999 2 = true := by decide!

theorem maxPrime_prime : maxPrime.Prime := by
  rw [maxPrime_eq, Nat.prime_def_le_sqrt]
  refine ⟨by norm_num, fun m h2 hm hdvd => ?_⟩
  have hs : Nat.sqrt 99999989 < 10000 := Nat.sqrt_lt.2 (by norm_num)
  exact trialFrom_spec 99999989 9999 2 trialFrom_maxPrime m h2 (by omega) hdvd

theorem primeAboveScan_spec (b : BitVector) (hb : b.Size = maxPrime)
    (hbits : ∀ k, b.bit k = true ↔ (k < maxPrime ∧ k.Prime)) (count n : Nat)
    (hn : n + count = maxPrime) :
    ∃ p, primeAboveScan b count n = some p ∧ p.Prime ∧ n ≤ p ∧ p ≤ maxPrime ∧
      ∀ q, q.Prime → n ≤ q → p ≤ q := by
  induction count generalizing n with
  | zero =>
    exact ⟨maxPrime, rfl, maxPrime_prime, by omega, Nat.le_refl _, fun q _ hq => by omega⟩
  | succ count ih =>
    unfold primeAboveScan
    have hlt : n < maxPrime := by omega
    rw [if_pos hlt, b.Test_eq_bit n (by omega)]
    cases hbit : b.bit n with
    | true =>
      exact ⟨n, rfl, ((hbits n).1 hbit).2, Nat.le_refl _, by omega, fun q _ hq => hq⟩
    | false =>
      obtain ⟨p, e1, e2, e3, e4, e5⟩ := ih (n + 1) (by omega)
      refine ⟨p, e1, e2, by omega, e4, ?_⟩
      intro q hq hnq
      by_cases hqn : q = n
      · subst hqn
        have := (hbits q).2 ⟨hlt, hq⟩
        rw [hbit] at this
        simp at this
      · exact e5 q hq (by omega)

theorem PrimeAbove_spec (fuel n : Nat) (hn : n ≤ maxPrime) (hf : maxPrime ≤ fuel + 1) :
    ∃ p, PrimeAbove fuel n = some p ∧ p.Prime ∧ n ≤ p ∧ p ≤ maxPrime ∧
      ∀ q, q.Prime → n ≤ q → p ≤ q := by
  have hmp := maxPrime_eq
  unfold PrimeAbove
  rw [if_neg (by omega)]
  by_cases he : n = maxPrime
  · rw [if_pos he]
    exact ⟨maxPrime, rfl, maxPrime_prime, by omega, Nat.le_refl _, fun q _ hq => by omega⟩
  · rw [if_neg he]
    obtain ⟨b1, e1, e2, e3⟩ := Sieve_spec fuel (BitVector.ofSize maxPrime)
      (by rw [BitVector.size_ofSize]; omega)
      (by rw [BitVector.size_ofSize, sieveLimit_eq]; omega)
      (by rw [BitVector.size_ofSize]; exact hf)
    rw [BitVector.size_ofSize] at e2 e3
    rw [e1]
    exact primeAboveScan_spec b1 e2 e3 (maxPrime - n) n (by omega)

/-- C14 (PrimeAbove): with `M = 99999989`, for every `n <= M` the call returns (fuel `M - 1`
is enough) the smallest prime `>= n`: it is prime, `>= n`, and no prime `p` satisfies
`n <= p < PrimeAbove(n)`; and `PrimeAbove(n)` returns the zero sentinel if and only if
`n > M`. -/
theorem prime_above (fuel n : Nat) (hf : maxPrime ≤ fuel + 1) :
    (n ≤ maxPrime → ∃ p, PrimeAbove fuel n = some p ∧ p.Prime ∧ n ≤ p ∧
      ¬ ∃ q, q.Prime ∧ n ≤ q ∧ q < p) ∧
    (PrimeAbove fuel n = some 0 ↔ n > maxPrime) := by
  have hle : n ≤ maxPrime → ∃ p, PrimeAbove fuel n = some p ∧ p.Prime ∧ n ≤ p ∧
      ¬ ∃ q, q.Prime ∧ n ≤ q ∧ q < p := by
    intro hn
    obtain ⟨p, e1, e2, e3, _, e5⟩ := PrimeAbove_spec fuel n hn hf
    refine ⟨p, e1, e2, e3, ?_⟩
    rintro ⟨q, hq, hnq, hqp⟩
    have := e5 q hq hnq
    omega
  refine ⟨hle, ?_, ?_⟩
  · intro h0
    by_contra hn
    obtain ⟨p, e1, e2, _⟩ := hle (by omega)
    rw [e1] at h0
    simp only [Option.some.injEq] at h0
    subst h0
    exact Nat.not_prime_zero e2
  · intro hn
    unfold PrimeAbove
    rw [if_pos hn]

/-- C14 at the spec's example: `PrimeAbove(8) = 11`; and one past `M` gives the sentinel. -/
theorem prime_above_witness :
    PrimeAbove 99999988 8 = some 11 ∧ PrimeAbove 99999988 99999990 = some 0 := by
  have hf : maxPrime ≤ 99999988 + 1 := by rw [maxPrime_eq]
  constructor
  · obtain ⟨p, e1, e2, e3, e4⟩ := (prime_above 99999988 8 hf).1 (by rw [maxPrime_eq]; omega)
    have hp : p ≤ 11 := by
      by_contra hc
      exact e4 ⟨11, by norm_num, by omega, by omega⟩
    rw [e1]
    interval_cases p
    · exact absurd e2 (by norm_num)
    · exact absurd e2 (by norm_num)
    · exact absurd e2 (by norm_num)
    · rfl
  · exact (prime_above 99999988 99999990 hf).2.2 (by rw [maxPrime_eq]; omega)

end fsu

namespace fsu

/-! ## Sizing by the constructor and by Rehash -/

end fsu

namespace fsu

theorem Reachable.insertAll {K D : Type} [DecidableEq K] [Inhabited D] (self : Nat)
    (kds : List (K × D)) (t : HashTable K D) (h : Reachable t) :
    Reachable (insertAll self t kds) := by
  induction kds generalizing t with
  | nil => exact h
  | cons kd kds ih =>
    exact ih _ (Reachable.step 0 self t _ (.Insert kd.1 kd.2) _ h rfl)

theorem tenTable_reachable : Reachable tenTable :=
  Reachable.insertAll 7 tenKeys _ (Reachable.ctor 5 5 firstCharHash true _ rfl)

/-- C16 (Rehash sizing): on a reachable table, `Rehash(r)` returns exactly when the
constructor returns for the request `r'` under the table's own prime flag, where `r' = r` if
`r != 0` and `r' = Size()` before the call if `r = 0`; the bucket count afterwards is the one
that constructor chooses, the bucket array has that many buckets, and the hash strategy and
the prime flag are unchanged. -/
theorem rehash_sizing {K D : Type} [DecidableEq K] [Inhabited D] (fuel self r : Nat)
    (t : HashTable K D) (h : Reachable t) :
    (t.Rehash fuel self r).isSome
      = (HashTable.ctor fuel (if r = 0 then t.Size else r) t.hashObject_ t.prime_ :
          Option (HashTable K D)).isSome ∧
    ∀ t1, t.Rehash fuel self r = some t1 →
      ∃ c : HashTable K D,
        HashTable.ctor fuel (if r = 0 then t.Size else r) t.hashObject_ t.prime_ = some c ∧
        t1.numBuckets_ = c.numBuckets_ ∧ t1.bucketVector_.length = t1.numBuckets_ ∧
        t1.hashObject_ = t.hashObject_ ∧ t1.prime_ = t.prime_ := by
  refine ⟨Rehash_isSome fuel self t r, ?_⟩
  intro t1 hr
  obtain ⟨i1, _, e3, e4, c, hc, e5⟩ := HashTable.Rehash_spec fuel self t t1 r h.inv hr
  exact ⟨c, hc, e5, i1.length_eq, e3, e4⟩

/-- C16 at the spec's scenario: ten distinct keys in a 5-bucket prime-policy table, then
`Rehash(0)`: 7 buckets, and every key is still retrieved with its data. -/
theorem rehash_sizing_witness :
    ((tenTable.Rehash 10 7 0).isSome
      = (HashTable.ctor 10 (if 0 = 0 then tenTable.Size else 0) tenTable.hashObject_
          tenTable.prime_ : Option (HashTable String Nat)).isSome ∧
    ∀ t1, tenTable.Rehash 10 7 0 = some t1 →
      ∃ c : HashTable String Nat,
        HashTable.ctor 10 (if 0 = 0 then tenTable.Size else 0) tenTable.hashObject_
          tenTable.prime_ = some c ∧
        t1.numBuckets_ = c.numBuckets_ ∧ t1.bucketVector_.length = t1.numBuckets_ ∧
        t1.hashObject_ = tenTable.hashObject_ ∧ t1.prime_ = tenTable.prime_) ∧
    tenTable.numBuckets_ = 5 ∧ tenTable.Size = 10 ∧
    (tenTable.Rehash 10 7 0).map (fun t1 => t1.numBuckets_) = some 7 ∧
    (tenTable.Rehash 10 7 0).map
        (fun t1 => tenKeys.map (fun kd => t1.Retrieve 7 kd.1 100))
      = some (tenKeys.map (fun kd => Except.ok (true, kd.2))) :=
  ⟨rehash_sizing 10 7 0 tenTable tenTable_reachable, rfl, by decide, by decide, rfl⟩

end fsu

namespace fsu

/-! ## Assignment -/

/-- Assignment gives the source table itself when the prime flags already agree. -/
theorem HashTable.assign_eq_of_prime_eq {K D : Type} (a ht : HashTable K D)
    (h : a.prime_ = ht.prime_) : a.assign ht = ht := by
  cases a
  cases ht
  simp only [HashTable.assign] at h ⊢
  rw [h]

/-- C17 at its failing input: `A = HashTable(10, h, false)`, `B = HashTable(10, h, true)`,
then `A = B`. The assignment copies bucket count, bucket array and hash strategy and leaves
`B` alone, but `A` keeps its own prime flag, so `Rehash(10)` gives `A` 10 buckets and `B`
7. -/
theorem assignment_keeps_prime_flag :
    HashTable.ctor 0 10 lengthHash false = some plainTable ∧
    HashTable.ctor 10 10 lengthHash true = some primeTable ∧
    (plainTable.assign primeTable).numBuckets_ = primeTable.numBuckets_ ∧
    (plainTable.assign primeTable).bucketVector_ = primeTable.bucketVector_ ∧
    (plainTable.assign primeTable).hashObject_ = primeTable.hashObject_ ∧
    (plainTable.assign primeTable).prime_ = false ∧ primeTable.prime_ = true ∧
    ((plainTable.assign primeTable).Rehash 10 7 10).map (fun t => t.numBuckets_) = some 10 ∧
    (primeTable.Rehash 10 8 10).map (fun t => t.numBuckets_) = some 7 :=
  ⟨rfl, rfl, rfl, rfl, rfl, rfl, rfl, by decide, by decide⟩

end fsu

namespace fsu

/-! ## MaxBucketSize -/

theorem foldl_max_spec (g : Nat → Nat) (l : List Nat) (a : Nat) :
    a ≤ l.foldl (fun max i => if max < g i then g i else max) a ∧
    (∀ i ∈ l, g i ≤ l.foldl (fun max i => if max < g i then g i else max) a) ∧
    (l.foldl (fun max i => if max < g i then g i else max) a = a ∨
      ∃ i ∈ l, g i = l.foldl (fun max i => if max < g i then g i else max) a) := by
  induction l generalizing a with
  | nil => simp
  | cons x xs ih =>
    simp only [List.foldl_cons, List.mem_cons, forall_eq_or_imp, exists_eq_or_imp]
    obtain ⟨h1, h2, h3⟩ := ih (if a < g x then g x else a)
    refine ⟨?_, ⟨?_, h2⟩, ?_⟩
    · refine Nat.le_trans ?_ h1
      split <;> omega
    · refine Nat.le_trans ?_ h1
      split <;> omega
    · rcases h3 with h3 | ⟨i, hi, hgi⟩
      · by_cases hx : a < g x
        · right; left
          rw [h3, if_pos hx]
        · left
          rw [h3, if_neg hx]
      · right; right
        exact ⟨i, hi, hgi⟩

/-- C18 (MaxBucketSize is the maximum chain length): for every table with at least one
bucket, `MaxBucketSize()` is at least the size of every bucket and equals the size of some
bucket; it is 0 exactly when the table is empty; and `Size() <= numBuckets_ *
MaxBucketSize()`. -/
theorem max_bucket_size {K D : Type} (t : HashTable K D) (hpos : 0 < t.numBuckets_) :
    (∀ i, i < t.numBuckets_ → (t.bucket i).Size ≤ t.MaxBucketSize) ∧
    (∃ i, i < t.numBuckets_ ∧ (t.bucket i).Size = t.MaxBucketSize) ∧
    (t.MaxBucketSize = 0 ↔ t.Empty = true) ∧
    t.Size ≤ t.numBuckets_ * t.MaxBucketSize := by
  obtain ⟨_, h2, h3⟩ :=
    foldl_max_spec (fun i => (t.bucket i).Size) (List.range t.numBuckets_) 0
  have hle : ∀ i, i < t.numBuckets_ → (t.bucket i).Size ≤ t.MaxBucketSize :=
    fun i hi => h2 i (List.mem_range.2 hi)
  have hex : ∃ i, i < t.numBuckets_ ∧ (t.bucket i).Size = t.MaxBucketSize := by
    rcases h3 with h3 | ⟨i, hi, hgi⟩
    · refine ⟨0, hpos, ?_⟩
      have := hle 0 hpos
      have h0 : t.MaxBucketSize = 0 := h3
      omega
    · exact ⟨i, List.mem_range.1 hi, hgi⟩
  refine ⟨hle, hex, ?_, ?_⟩
  · simp only [HashTable.Empty, List.all_eq_true, List.mem_range, Bucket.Empty,
      List.isEmpty_iff]
    constructor
    · intro h0 i hi
      have := hle i hi
      rw [h0] at this
      exact List.length_eq_zero.1 (Nat.le_zero.1 this)
    · intro hall
      obtain ⟨i, hi, hgi⟩ := hex
      rw [← hgi, hall i hi]
      rfl
  · rw [HashTable.Size_eq_sum]
    have := List.sum_le_card_nsmul ((List.range t.numBuckets_).map
      (fun i => (t.bucket i).length)) t.MaxBucketSize (by
        intro x hx
        obtain ⟨i, hi, rfl⟩ := List.mem_map.1 hx
        exact hle i (List.mem_range.1 hi))
    simpa using this

/-- C18 at the table holding "cat" and "dog" in one chain and at the table of ten keys: the
maximum chain length is 2 in both. -/
theorem max_bucket_size_witness :
    ((∀ i, i < catDog.numBuckets_ → (catDog.bucket i).Size ≤ catDog.MaxBucketSize) ∧
    (∃ i, i < catDog.numBuckets_ ∧ (catDog.bucket i).Size = catDog.MaxBucketSize) ∧
    (catDog.MaxBucketSize = 0 ↔ catDog.Empty = true) ∧
    catDog.Size ≤ catDog.numBuckets_ * catDog.MaxBucketSize) ∧
    catDog.MaxBucketSize = 2 ∧ tenTable.MaxBucketSize = 2 ∧ freshTable.MaxBucketSize = 0 :=
  ⟨max_bucket_size catDog (by decide), by decide, by decide, by decide⟩

end fsu

namespace fsu

/-! ## The counts of Analysis -/

theorem getD_append_replicate_zero (L : List Int) (n k : Nat) :
    (L ++ List.replicate n 0).getD k 0 = L.getD k 0 := by
  simp only [List.getD_eq_getElem?_getD]
  by_cases hk : k < L.length
  · rw [List.getElem?_append_left hk]
  · rw [List.getElem?_append_right (by omega), List.getElem?_eq_none (by omega : L.length ≤ k)]
    simp only [List.getElem?_replicate]
    split <;> rfl

namespace HashTable

variable {K D : Type}

theorem maxSize_append (t : HashTable K D) (is : List Nat) (i : Nat) :
    t.maxSize (is ++ [i])
      = if t.maxSize is < (t.bucket i).Size then (t.bucket i).Size else t.maxSize is := by
  simp [maxSize, List.foldl_append]

theorem countSize_append (t : HashTable K D) (is : List Nat) (i k : Nat) :
    t.countSize (is ++ [i]) k = t.countSize is k + if (t.bucket i).Size = k then 1 else 0 := by
  simp [countSize, List.countP_append, List.countP_cons]

theorem countSize_mono (t : HashTable K D) (is js : List Nat) (k : Nat) :
    t.countSize is k ≤ t.countSize (is ++ js) k := by
  simp [countSize, List.countP_append]

/-- One round of the counting loop. -/
theorem analysisStep_spec (t : HashTable K D) (is : List Nat) (s : AnalysisCounts) (i : Nat)
    (h : t.Counted is s) (hb : (t.countSize (is ++ [i]) (t.bucket i).Size : Int) ≤ intMax) :
    ∃ s1, t.analysisStep s i = some s1 ∧ t.Counted (is ++ [i]) s1 := by
  obtain ⟨h1, h2, h3, h4⟩ := h
  -- the vector after the resizing
  have hres : ∃ b1 : IntVector,
      (if s.bucket.Size - 1 < (t.bucket i).Size then
        (if s.bucket.Size + 1 ≥ s.bucket.Capacity then
          s.bucket.SetCapacity ((t.bucket i).Size * 2) else s.bucket).SetSize
            ((t.bucket i).Size + 1) 0
        else s.bucket) = b1 ∧
      b1.data.length = t.maxSize (is ++ [i]) + 1 ∧
      ∀ k, b1.data.getD k 0 = (t.countSize is k : Int) := by
    refine ⟨_, rfl, ?_, ?_⟩
    · rw [maxSize_append]
      by_cases hc : t.maxSize is < (t.bucket i).Size
      · have hc' : s.bucket.Size - 1 < (t.bucket i).Size := by
          simp only [IntVector.Size, h1]; omega
        rw [if_pos hc', if_pos hc]
        simp only [IntVector.SetSize, List.length_append, List.length_take,
          List.length_replicate]
        split <;> (try simp only [IntVector.SetCapacity, List.length_take]) <;> omega
      · have hc' : ¬ s.bucket.Size - 1 < (t.bucket i).Size := by
          simp only [IntVector.Size, h1]; omega
        rw [if_neg hc', if_neg hc, h1]
    · intro k
      by_cases hc' : s.bucket.Size - 1 < (t.bucket i).Size
      · have hlen : s.bucket.data.length ≤ (t.bucket i).Size := by
          simp only [IntVector.Size] at hc'; omega
        rw [if_pos hc']
        have htake : ∀ b0 : IntVector, b0.data = s.bucket.data →
            (b0.SetSize ((t.bucket i).Size + 1) 0).data.getD k 0 = (t.countSize is k : Int) := by
          intro b0 hb0
          simp only [IntVector.SetSize, hb0]
          rw [List.take_of_length_le (by omega), getD_append_replicate_zero, h2 k]
        apply htake
        split
        · simp only [IntVector.SetCapacity]
          exact List.take_of_length_le (by omega)
        · rfl
      · rw [if_neg hc']
        exact h2 k
  obtain ⟨b1, hb1, hl1, hg1⟩ := hres
  have hlt : (t.bucket i).Size < b1.data.length := by
    rw [hl1, maxSize_append]
    split <;> omega
  have hx : b1.data[(t.bucket i).Size]? = some (t.countSize is (t.bucket i).Size : Int) := by
    have := hg1 (t.bucket i).Size
    simp only [List.getD_eq_getElem?_getD, List.getElem?_eq_getElem hlt,
      Option.getD_some] at this
    rw [List.getElem?_eq_getElem hlt, this]
  have hcnt : (t.countSize (is ++ [i]) (t.bucket i).Size : Int)
      = (t.countSize is (t.bucket i).Size : Int) + 1 := by
    rw [countSize_append]
    simp
  refine ⟨⟨⟨b1.data.set (t.bucket i).Size ((t.countSize is (t.bucket i).Size : Int) + 1),
    b1.capacity⟩, s.element + (t.bucket i).Size,
    if (t.bucket i).Size > 0 then s.item + 1 else s.item⟩, ?_, ?_, ?_, ?_, ?_⟩
  · unfold analysisStep
    simp only [hb1, IntVector.incrAt, hx]
    rw [if_pos (by rw [← hcnt]; exact hb)]
  · simp only [List.length_set]
    exact hl1
  · intro k
    simp only [List.getD_eq_getElem?_getD, List.getElem?_set]
    rw [countSize_append]
    by_cases hk : (t.bucket i).Size = k
    · subst hk
      simp [hlt]
    · have := hg1 k
      simp only [List.getD_eq_getElem?_getD] at this
      simp [hk, this]
  · simp only [List.map_append, List.sum_append, h3]
    simp
  · simp only [countNonempty, List.countP_append, List.countP_cons, List.countP_nil] at h4 ⊢
    rw [h4]
    by_cases hp : (t.bucket i).Size > 0 <;> simp [hp]

theorem analysisLoop_spec (t : HashTable K D) (l is : List Nat) (s : AnalysisCounts)
    (h : t.Counted is s) (hb : ∀ k, (t.countSize (is ++ l) k : Int) ≤ intMax) :
    ∃ s1, t.analysisLoop l s = some s1 ∧ t.Counted (is ++ l) s1 := by
  induction l generalizing is s with
  | nil => exact ⟨s, rfl, by simpa using h⟩
  | cons i l ih =>
    have hb1 : (t.countSize (is ++ [i]) (t.bucket i).Size : Int) ≤ intMax := by
      refine le_trans ?_ (hb (t.bucket i).Size)
      have := countSize_mono t (is ++ [i]) l (t.bucket i).Size
      rw [List.append_assoc] at this
      exact_mod_cast this
    obtain ⟨s1, e1, e2⟩ := analysisStep_spec t is s i h hb1
    obtain ⟨s2, f1, f2⟩ := ih (is ++ [i]) s1 e2 (by
      intro k
      rw [List.append_assoc]
      exact hb k)
    refine ⟨s2, ?_, by rw [List.append_assoc] at f2; exact f2⟩
    rw [analysisLoop, e1]
    exact f1

theorem analysisCounts_spec (t : HashTable K D) (cap : Nat) (junk : Int)
    (hb : ∀ k, (t.countSize (List.range t.numBuckets_) k : Int) ≤ intMax) :
    ∃ c, t.analysisCounts cap junk = some c ∧ t.Counted (List.range t.numBuckets_) c := by
  have h0 : t.Counted [] ⟨⟨[0], cap⟩, 0, 0⟩ := by
    refine ⟨rfl, ?_, rfl, rfl⟩
    intro k
    cases k <;> simp [countSize]
  obtain ⟨c, e1, e2⟩ := analysisLoop_spec t (List.range t.numBuckets_) [] _ h0 (by simpa using hb)
  refine ⟨c, ?_, by simpa using e2⟩
  simp only [analysisCounts, IntVector.ofSize, IntVector.assignAt, List.length_replicate,
    Nat.lt_one_iff, if_true, List.replicate_one, List.set_cons_zero]
  exact e1

end HashTable

end fsu

namespace fsu

namespace HashTable

variable {K D : Type}

theorem sum_countSize (t : HashTable K D) (n : Nat) (l : List Nat)
    (h : ∀ i ∈ l, (t.bucket i).Size < n) :
    (∑ k ∈ Finset.range n, t.countSize l k) = l.length ∧
    (∑ k ∈ Finset.range n, k * t.countSize l k)
      = (l.map (fun i => (t.bucket i).Size)).sum := by
  induction l with
  | nil => simp [countSize]
  | cons x xs ih =>
    obtain ⟨ih1, ih2⟩ := ih (fun i hi => h i (List.mem_cons_of_mem _ hi))
    have hx : (t.bucket x).Size ∈ Finset.range n :=
      Finset.mem_range.2 (h x (List.mem_cons_self _ _))
    have hc : ∀ k, t.countSize (x :: xs) k
        = t.countSize xs k + if (t.bucket x).Size = k then 1 else 0 := by
      intro k
      simp [countSize, List.countP_cons]
    constructor
    · simp only [hc, Finset.sum_add_distrib, ih1, Finset.sum_ite_eq, hx, if_true,
        List.length_cons]
    · simp only [hc, Nat.mul_add, Finset.sum_add_distrib, ih2, mul_ite, Nat.mul_one,
        Nat.mul_zero, Finset.sum_ite_eq, hx, if_true, List.map_cons, List.sum_cons]
      omega

theorem analysisRows_actual {F : Type} (A : Arith F) (numBuckets element : Nat)
    (bucket : IntVector) (fuel i : Nat) (check : F) :
    ∀ row ∈ (analysisRows A numBuckets element bucket fuel i check).1,
      row.actual = bucket.data[row.size]? := by
  induction fuel generalizing i check with
  | zero => simp [analysisRows]
  | succ fuel ih =>
    intro row hrow
    rw [analysisRows] at hrow
    split at hrow
    · simp only [] at hrow
      split at hrow
      · simp only [List.mem_singleton] at hrow
        subst hrow
        rfl
      · simp only [List.mem_cons] at hrow
        rcases hrow with rfl | hrow
        · rfl
        · exact ih _ _ row hrow
    · simp at hrow

/-- The counting loop on a table whose buckets are all empty: row 0 is incremented once for
each bucket, and the loop is undefined once the counter would pass `INT_MAX`. -/
theorem analysisLoop_empty (t : HashTable K D) (hempty : ∀ i, t.bucket i = [])
    (cap e it : Nat) (l : List Nat) (v : Int) (hv : v ≤ intMax) :
    t.analysisLoop l ⟨⟨[v], cap⟩, e, it⟩
      = if v + l.length ≤ intMax then some ⟨⟨[v + l.length], cap⟩, e, it⟩ else none := by
  induction l generalizing v with
  | nil => simp [analysisLoop, hv]
  | cons i l ih =>
    rw [analysisLoop]
    have hstep : t.analysisStep ⟨⟨[v], cap⟩, e, it⟩ i
        = if v + 1 ≤ intMax then some ⟨⟨[v + 1], cap⟩, e, it⟩ else none := by
      simp only [analysisStep, hempty i, Bucket.Size, List.length_nil, IntVector.Size,
        List.length_cons, Nat.sub_self, Nat.lt_irrefl, if_false, IntVector.incrAt,
        List.getElem?_cons_zero, List.set_cons_zero, Nat.add_zero, gt_iff_lt]
      by_cases h1 : v + 1 ≤ intMax
      · simp only [if_pos h1]
      · simp only [if_neg h1]
    rw [hstep]
    by_cases h1 : v + 1 ≤ intMax
    · rw [if_pos h1]
      simp only []
      rw [ih (v + 1) h1]
      have : v + 1 + (l.length : Int) = v + ((i :: l).length : Int) := by
        simp only [List.length_cons]; push_cast; ring
      rw [this]
    · rw [if_neg h1]
      simp only []
      rw [if_neg]
      simp only [List.length_cons]; push_cast
      omega

theorem ctor_plain (fuel n : Nat) (hashObject : K → Nat) :
    (ctor fuel n hashObject false : Option (HashTable K D))
      = some ⟨if n < 3 then 2 else n, List.replicate (if n < 3 then 2 else n) [],
          hashObject, false⟩ := by
  simp [ctor]

theorem analysisCounts_empty (t : HashTable K D) (hempty : ∀ i, t.bucket i = [])
    (cap : Nat) (junk : Int) :
    t.analysisCounts cap junk
      = if (t.numBuckets_ : Int) ≤ intMax then some ⟨⟨[(t.numBuckets_ : Int)], cap⟩, 0, 0⟩
        else none := by
  have h0 : t.analysisCounts cap junk
      = t.analysisLoop (List.range t.numBuckets_) ⟨⟨[0], cap⟩, 0, 0⟩ := rfl
  rw [h0, analysisLoop_empty t hempty cap 0 0 _ 0 (by norm_num [intMax])]
  simp only [List.length_range, zero_add]

/-- The constructor without the prime flag at a request of `2^31` buckets or more: the
table has `n` empty buckets and the counts of `Analysis` are undefined. -/
theorem ctor_plain_analysis (n : Nat) (hn : 2 ^ 31 ≤ n) (hashObject : K → Nat) :
    ∃ t : HashTable K D, ctor 0 n hashObject false = some t ∧
      t.numBuckets_ = n ∧ t.countSize (List.range t.numBuckets_) 0 = n ∧
      ∀ cap junk fuel, t.analysisCounts cap junk = none ∧
        ∀ (F : Type) (A : Arith F), t.Analysis A cap junk fuel = none := by
  have h3 : ¬ n < 3 := by omega
  have hempty : ∀ i, (HashTable.bucket (⟨n, List.replicate n [], hashObject, false⟩ :
      HashTable K D) i) = [] := fun i => bucket_replicate _ n i rfl
  refine ⟨⟨n, List.replicate n [], hashObject, false⟩, ?_, rfl, ?_, ?_⟩
  · rw [ctor_plain, if_neg h3]
  · simp only [countSize, hempty, Bucket.Size, List.length_nil]
    simp
  · intro cap junk fuel
    have hc : HashTable.analysisCounts (⟨n, List.replicate n [], hashObject, false⟩ :
        HashTable K D) cap junk = none := by
      rw [analysisCounts_empty _ hempty, if_neg]
      simp only [intMax]
      have : (2 : Int) ^ 31 ≤ (n : Int) := by exact_mod_cast hn
      omega
    refine ⟨hc, ?_⟩
    intro F A
    simp only [HashTable.Analysis, hc]

end HashTable

/-! ## C19 -/

/-- C19, counterexample to the claim as it stands: the table of `2^31` empty buckets, as
the two-argument constructor sets it up with the prime flag clear, has `2^31` buckets of
size 0, and the counting loop of `Analysis` increments the `int` in row 0 of the histogram
past `INT_MAX = 2^31 - 1`, which is undefined: no histogram value is defined for it. -/
theorem analysis_integer_report_counterexample :
    ∃ t : HashTable Nat Nat, HashTable.ctor 0 (2 ^ 31) (fun k => k) false = some t ∧
      t.numBuckets_ = 2 ^ 31 ∧ t.countSize (List.range t.numBuckets_) 0 = 2 ^ 31 ∧
      ∀ cap junk fuel, t.analysisCounts cap junk = none ∧
        ∀ (F : Type) (A : Arith F), t.Analysis A cap junk fuel = none :=
  HashTable.ctor_plain_analysis (2 ^ 31) (Nat.le_refl _) (fun k => k)

/-- C19 (Analysis integer report), amended: for every table in which fewer than `2^31`
buckets have any one size, the counting loop of `Analysis` ends with defined values, and
the reported table size is `Size()`, the reported bucket count is `numBuckets_`, the
reported non-empty count is the number of buckets with at least one entry, the reported
maximum is `MaxBucketSize()`; the histogram has exactly `MaxBucketSize()+1` rows, indexed
`0..MaxBucketSize()`, row `i` holds the number of buckets with exactly `i` entries, the rows
sum to `numBuckets_`, their `i`-weighted sum is `Size()`, and every row written shows the
histogram's value at its index, whatever the arithmetic of the theory column. -/
theorem analysis_integer_report {K D F : Type} (t : HashTable K D) (A : Arith F) (cap : Nat)
    (junk : Int) (fuel : Nat)
    (hcount : ∀ k, t.countSize (List.range t.numBuckets_) k < 2 ^ 31) :
    ∃ c r, t.analysisCounts cap junk = some c ∧ t.Analysis A cap junk fuel = some r ∧
      r.tableSize = t.Size ∧ r.numberOfBuckets = t.numBuckets_ ∧
      r.nonemptyBuckets = t.countNonempty (List.range t.numBuckets_) ∧
      r.maxBucketSize = t.MaxBucketSize ∧
      c.bucket.Size = t.MaxBucketSize + 1 ∧
      (∀ i, i ≤ t.MaxBucketSize →
        c.bucket.data[i]? = some (t.countSize (List.range t.numBuckets_) i : Int)) ∧
      (∀ i, t.MaxBucketSize < i → c.bucket.data[i]? = none) ∧
      (∑ i ∈ Finset.range (t.MaxBucketSize + 1), c.bucket.data.getD i 0)
        = (t.numBuckets_ : Int) ∧
      (∑ i ∈ Finset.range (t.MaxBucketSize + 1), (i : Int) * c.bucket.data.getD i 0)
        = (t.Size : Int) ∧
      (∀ row ∈ r.rows, row.actual = c.bucket.data[row.size]?) := by
  have hb : ∀ k, (t.countSize (List.range t.numBuckets_) k : Int) ≤ intMax := by
    intro k
    have := hcount k
    simp only [intMax]
    omega
  obtain ⟨c, hc, h1, h2, h3, h4⟩ := HashTable.analysisCounts_spec t cap junk hb
  have hmax : t.maxSize (List.range t.numBuckets_) = t.MaxBucketSize := rfl
  rw [hmax] at h1
  have hsize : ((List.range t.numBuckets_).map (fun i => (t.bucket i).Size)).sum = t.Size :=
    (HashTable.Size_eq_sum t).symm
  have hle : ∀ i ∈ List.range t.numBuckets_, (t.bucket i).Size < t.MaxBucketSize + 1 := by
    intro i hi
    have := (foldl_max_spec (fun i => (t.bucket i).Size) (List.range t.numBuckets_) 0).2.1 i hi
    exact Nat.lt_succ_of_le this
  obtain ⟨s1, s2⟩ := HashTable.sum_countSize t (t.MaxBucketSize + 1) _ hle
  have hr : t.Analysis A cap junk fuel
      = some ⟨c.element, t.numBuckets_, c.item, t.MaxBucketSize,
          (analysisRows A t.numBuckets_ c.element c.bucket fuel 0
            (theoryStart A t.numBuckets_ c.element)).1,
          (analysisRows A t.numBuckets_ c.element c.bucket fuel 0
            (theoryStart A t.numBuckets_ c.element)).2⟩ := by
    simp only [HashTable.Analysis, hc]
  refine ⟨c, _, hc, hr, ?_, rfl, h4, rfl, h1, ?_, ?_, ?_, ?_, ?_⟩
  · show c.element = t.Size
    rw [h3, hsize]
  · intro i hi
    have hlt : i < c.bucket.data.length := by omega
    have := h2 i
    simp only [List.getD_eq_getElem?_getD, List.getElem?_eq_getElem hlt,
      Option.getD_some] at this
    rw [List.getElem?_eq_getElem hlt, this]
  · intro i hi
    exact List.getElem?_eq_none (by omega)
  · simp only [h2]
    rw [← Nat.cast_sum, s1, List.length_range]
  · simp only [h2]
    rw [← hsize, ← s2]
    push_cast
    rfl
  · exact HashTable.analysisRows_actual A _ _ _ _ _ _

/-- C19 at the table holding "cat" and "dog" in one chain of its three buckets: the report
gives table size 2, 3 buckets, 1 non-empty bucket, maximum 2, and the histogram rows are
2, 0, 1. -/
theorem analysis_integer_report_witness :
    (∀ k, catDog.countSize (List.range catDog.numBuckets_) k < 2 ^ 31) ∧
    (∃ c r, catDog.analysisCounts 1 5 = some c ∧
      catDog.Analysis (ieee powRounded) 1 5 3 = some r ∧
      r.tableSize = catDog.Size ∧ r.numberOfBuckets = catDog.numBuckets_ ∧
      r.nonemptyBuckets = catDog.countNonempty (List.range catDog.numBuckets_) ∧
      r.maxBucketSize = catDog.MaxBucketSize ∧
      c.bucket.Size = catDog.MaxBucketSize + 1 ∧
      (∀ i, i ≤ catDog.MaxBucketSize →
        c.bucket.data[i]? = some (catDog.countSize (List.range catDog.numBuckets_) i : Int)) ∧
      (∀ i, catDog.MaxBucketSize < i → c.bucket.data[i]? = none) ∧
      (∑ i ∈ Finset.range (catDog.MaxBucketSize + 1), c.bucket.data.getD i 0)
        = (catDog.numBuckets_ : Int) ∧
      (∑ i ∈ Finset.range (catDog.MaxBucketSize + 1), (i : Int) * c.bucket.data.getD i 0)
        = (catDog.Size : Int) ∧
      (∀ row ∈ r.rows, row.actual = c.bucket.data[row.size]?)) ∧
    (catDog.analysisCounts 1 5).map (fun c => (c.bucket.data, c.element, c.item))
      = some ([2, 0, 1], 2, 1) ∧
    catDog.MaxBucketSize = 2 ∧ catDog.Size = 2 ∧ catDog.numBuckets_ = 3 :=
  have hcount : ∀ k, catDog.countSize (List.range catDog.numBuckets_) k < 2 ^ 31 := by
    intro k
    have h : catDog.countSize (List.range catDog.numBuckets_) k
        ≤ (List.range catDog.numBuckets_).length := List.countP_le_length _
    have h3 : (List.range catDog.numBuckets_).length = 3 := rfl
    omega
  ⟨hcount, analysis_integer_report catDog (ieee powRounded) 1 5 3 hcount, by decide, by decide,
    by decide, rfl⟩

end fsu

namespace fsu

/-! ## The theory column of Analysis -/

theorem theoryStart_exact (m n : Nat) :
    theoryStart exactArith m n
      = (m : ℚ) * ((((m : ℚ) * 1 - 1) / ((m : ℚ) * 1)) ^ n) := by
  simp [theoryStart, exactArith]

theorem theoryNext_exact (m n i : Nat) (check : ℚ) :
    theoryNext exactArith m n i check
      = (((((n + sizeMod - i) % sizeMod : Nat) : ℚ) + 1) / (i : ℚ))
          * (1 / ((m : ℚ) - 1)) * check := by
  simp [theoryNext, exactArith]

/-- The row loop in exact arithmetic, one round unfolded. -/
theorem analysisRows_exact (m n : Nat) (bucket : IntVector) (fuel i : Nat) (check : ℚ) :
    analysisRows exactArith m n bucket (fuel + 1) i check
      = if check > 1 / 10 ∨ i < bucket.Size then
          (if (i + 1) % sizeMod = 0 then ([⟨i, bucket.data[i]?, check⟩], false)
          else
            (⟨i, bucket.data[i]?, check⟩ ::
              (analysisRows exactArith m n bucket fuel ((i + 1) % sizeMod)
                (theoryNext exactArith m n ((i + 1) % sizeMod) check)).1,
              (analysisRows exactArith m n bucket fuel ((i + 1) % sizeMod)
                (theoryNext exactArith m n ((i + 1) % sizeMod) check)).2))
        else ([], true) := by
  rw [analysisRows]
  have hg : (exactArith.gt check exactArith.tenth = true) ↔ check > 1 / 10 := by
    simp [exactArith]
  simp only [hg]

theorem theoryStart_eq (m n : Nat) (hm : 2 ≤ m) :
    theoryStart exactArith m n = binomialExpectation m n 0 := by
  rw [theoryStart_exact]
  have hm0 : (m : ℚ) ≠ 0 := by
    have : 0 < m := by omega
    exact_mod_cast this.ne'
  simp only [binomialExpectation, Nat.choose_zero_right, Nat.cast_one, mul_one,
    pow_zero, Nat.sub_zero]
  congr 2
  field_simp

/-- One round of the recurrence, at a row index that is at most the number of entries. -/
theorem theoryNext_eq (m n i : Nat) (hm : 2 ≤ m) (hn : n < sizeMod) (hi : i + 1 ≤ n) :
    theoryNext exactArith m n (i + 1) (binomialExpectation m n i)
      = binomialExpectation m n (i + 1) := by
  rw [theoryNext_exact]
  have hm0 : (m : ℚ) ≠ 0 := by
    have : 0 < m := by omega
    exact_mod_cast this.ne'
  have hm1 : (m : ℚ) - 1 ≠ 0 := by
    have : (1 : ℚ) < (m : ℚ) := by exact_mod_cast (by omega : 1 < m)
    linarith
  have hi0 : ((i : ℚ) + 1) ≠ 0 := by positivity
  have hsub : (n + sizeMod - (i + 1)) % sizeMod = n - (i + 1) := by
    have : n + sizeMod - (i + 1) = (n - (i + 1)) + sizeMod := by omega
    rw [this, Nat.add_mod_right, Nat.mod_eq_of_lt (by omega)]
  have hch : ((n.choose (i + 1) : ℕ) : ℚ) * ((i : ℚ) + 1) = (n.choose i : ℚ) * ((n : ℚ) - i) := by
    have h := Nat.choose_succ_right_eq n i
    have hc : ((n - i : ℕ) : ℚ) = (n : ℚ) - i := by
      rw [Nat.cast_sub (by omega)]
    rw [← hc]
    exact_mod_cast h
  have hpow : (1 - 1 / (m : ℚ)) ^ (n - i)
      = (1 - 1 / (m : ℚ)) ^ (n - (i + 1)) * (1 - 1 / (m : ℚ)) := by
    rw [← pow_succ]
    congr 1
    omega
  have hcast : (((n - (i + 1) : ℕ) : ℚ) + 1) = (n : ℚ) - i := by
    rw [Nat.cast_sub (by omega)]
    push_cast
    ring
  simp only [binomialExpectation, hsub, hpow, pow_succ, hcast]
  push_cast
  have key : (n.choose i : ℚ) * ((n : ℚ) - i) / ((i : ℚ) + 1) = (n.choose (i + 1) : ℚ) := by
    rw [← hch]
    field_simp
  rw [← key]
  field_simp
  ring

/-- The rows of the theory loop up to the row of index `n`: started at row `i` with the
value of the distribution there, the `j`-th row written has index `i + j` and shows the
value of the distribution at `i + j`, as long as `i + j <= n`. -/
theorem analysisRows_theory (m n : Nat) (bucket : IntVector) (hm : 2 ≤ m)
    (hn : n + 1 < sizeMod) (fuel i j : Nat) (hij : i + j ≤ n) (row : AnalysisRow ℚ)
    (hrow : (analysisRows exactArith m n bucket fuel i (binomialExpectation m n i)).1[j]?
      = some row) :
    row.size = i + j ∧ row.theory = binomialExpectation m n (i + j) := by
  induction fuel generalizing i j with
  | zero => simp [analysisRows] at hrow
  | succ fuel ih =>
    rw [analysisRows] at hrow
    split at hrow
    · have hi1 : (i + 1) % sizeMod = i + 1 := Nat.mod_eq_of_lt (by omega)
      simp only [hi1, if_neg (Nat.succ_ne_zero i)] at hrow
      cases j with
      | zero =>
        simp only [List.getElem?_cons_zero, Option.some.injEq] at hrow
        subst hrow
        exact ⟨rfl, rfl⟩
      | succ j =>
        simp only [List.getElem?_cons_succ] at hrow
        rw [theoryNext_eq m n i hm (by omega) (by omega)] at hrow
        have := ih (i + 1) j (by omega) hrow
        rw [show i + (j + 1) = i + 1 + j by omega]
        exact this
    · simp at hrow

end fsu

namespace fsu

/-! ## C20 -/

/-- C20 (Analysis theoretical column), the code at two small tables. At a freshly
constructed table of three buckets (no entries) the row loop writes row 0 with the value 3,
which is the value of the distribution, and then row 1 with the value `3 * 2^63`, where the
distribution gives 0: the unsigned `element - i` wraps to `2^64 - 1` once `i` passes the
number of entries. At the table of three buckets holding "cat" and "dog", rows 0, 1 and 2
show the values of the distribution, `4/3`, `4/3` and `1/3`, and row 3 is written with the
value `2^63 / 9`, where the distribution gives 0. -/
theorem analysis_theory_column :
    (HashTable.ctor 3 3 lengthHash true : Option (HashTable String Nat)) = some freshTable ∧
    freshTable.Size = 0 ∧ freshTable.numBuckets_ = 3 ∧
    (freshTable.Analysis exactArith 1 5 2).map
        (fun r => r.rows.map (fun row => (row.size, row.theory)))
      = some [(0, 3), (1, 27670116110564327424)] ∧
    binomialExpectation 3 0 0 = 3 ∧ binomialExpectation 3 0 1 = 0 ∧
    catDog.Size = 2 ∧ catDog.numBuckets_ = 3 ∧
    (catDog.Analysis exactArith 1 5 4).map
        (fun r => r.rows.map (fun row => (row.size, row.theory)))
      = some [(0, 4 / 3), (1, 4 / 3), (2, 1 / 3), (3, 9223372036854775808 / 9)] ∧
    binomialExpectation 3 2 0 = 4 / 3 ∧ binomialExpectation 3 2 1 = 4 / 3 ∧
    binomialExpectation 3 2 2 = 1 / 3 ∧ binomialExpectation 3 2 3 = 0 := by
  have hc : freshTable.analysisCounts 1 5 = some ⟨⟨[3], 1⟩, 0, 0⟩ := rfl
  have hn : freshTable.numBuckets_ = 3 := rfl
  have hc2 : catDog.analysisCounts 1 5 = some ⟨⟨[2, 0, 1], 4⟩, 2, 1⟩ := rfl
  have hn2 : catDog.numBuckets_ = 3 := rfl
  refine ⟨rfl, rfl, rfl, ?_, ?_, ?_, rfl, rfl, ?_, ?_, ?_, ?_, ?_⟩
  · simp only [HashTable.Analysis, hc, hn, Option.map]
    norm_num [analysisRows, theoryStart, theoryNext, exactArith, sizeMod, IntVector.Size]
  · norm_num [binomialExpectation]
  · norm_num [binomialExpectation]
  · simp only [HashTable.Analysis, hc2, hn2, Option.map]
    norm_num [analysisRows, theoryStart, theoryNext, exactArith, sizeMod, IntVector.Size]
  · norm_num [binomialExpectation]
  · norm_num [binomialExpectation, Nat.choose]
  · norm_num [binomialExpectation]
  · norm_num [binomialExpectation, Nat.choose]

end fsu

namespace fsu

/-! ## The row loop of Analysis -/

/-- The recurrence on a table of two buckets without entries: past row 0 the subtraction
`element - i` wraps, and the values are `2 * C(2^64, i)`. -/
theorem theoryNext_two_empty (i : Nat) (hi : i + 1 < sizeMod) :
    theoryNext exactArith 2 0 (i + 1) (2 * (sizeMod.choose i : ℚ))
      = 2 * (sizeMod.choose (i + 1) : ℚ) := by
  rw [theoryNext_exact]
  have hsub : (0 + sizeMod - (i + 1)) % sizeMod = sizeMod - (i + 1) := by
    rw [Nat.zero_add]
    exact Nat.mod_eq_of_lt (by omega)
  have hcast : (((sizeMod - (i + 1) : ℕ) : ℚ) + 1) = ((sizeMod - i : ℕ) : ℚ) := by
    have : sizeMod - i = sizeMod - (i + 1) + 1 := by omega
    rw [this]
    push_cast
    rfl
  have hch : ((sizeMod.choose (i + 1) : ℕ) : ℚ) * ((i : ℚ) + 1)
      = (sizeMod.choose i : ℚ) * ((sizeMod - i : ℕ) : ℚ) := by
    exact_mod_cast Nat.choose_succ_right_eq sizeMod i
  have hi0 : ((i : ℚ) + 1) ≠ 0 := by positivity
  simp only [hsub, hcast, Nat.cast_add, Nat.cast_one]
  have h21 : (((2 : ℕ) : ℚ) - 1) = 1 := by norm_num
  rw [h21]
  field_simp
  linear_combination (-2 : ℚ) * hch

theorem analysisRows_two_empty (bucket : IntVector) (fuel i : Nat) (hi : i < sizeMod) :
    (analysisRows exactArith 2 0 bucket fuel i (2 * (sizeMod.choose i : ℚ))).2 = false ∧
    (analysisRows exactArith 2 0 bucket fuel i (2 * (sizeMod.choose i : ℚ))).1.length
      = min fuel (sizeMod - i) ∧
    ∀ row ∈ (analysisRows exactArith 2 0 bucket fuel i (2 * (sizeMod.choose i : ℚ))).1,
      2 ≤ row.theory := by
  induction fuel generalizing i with
  | zero => simp [analysisRows]
  | succ fuel ih =>
    have hpos : (1 : ℚ) ≤ (sizeMod.choose i : ℚ) := by
      exact_mod_cast Nat.choose_pos (Nat.le_of_lt hi)
    have hc : 2 * (sizeMod.choose i : ℚ) > 1 / 10 ∨ i < bucket.Size := by
      left
      linarith
    rw [analysisRows_exact, if_pos hc]
    by_cases hw : (i + 1) % sizeMod = 0
    · rw [if_pos hw]
      have hlast : i + 1 = sizeMod := by
        by_contra hne
        rw [Nat.mod_eq_of_lt (by omega)] at hw
        omega
      refine ⟨rfl, ?_, ?_⟩
      · simp only [List.length_singleton]
        omega
      · intro row hrow
        simp only [List.mem_singleton] at hrow
        subst hrow
        show (2 : ℚ) ≤ 2 * (sizeMod.choose i : ℚ)
        linarith
    · rw [if_neg hw]
      have hlt : i + 1 < sizeMod := by
        by_contra hge
        have : i + 1 = sizeMod := by omega
        rw [this, Nat.mod_self] at hw
        exact hw rfl
      have hi1 : (i + 1) % sizeMod = i + 1 := Nat.mod_eq_of_lt hlt
      rw [hi1, theoryNext_two_empty i hlt]
      obtain ⟨h1, h2, h3⟩ := ih (i + 1) hlt
      refine ⟨h1, ?_, ?_⟩
      · simp only [List.length_cons, h2]
        omega
      · intro row hrow
        simp only [List.mem_cons] at hrow
        rcases hrow with rfl | hrow
        · show (2 : ℚ) ≤ 2 * (sizeMod.choose i : ℚ)
          linarith
        · exact h3 row hrow

end fsu

namespace fsu

/-- In exact arithmetic the row loop stops at the first row index `i0` at which the value of
the distribution is not above `1/10` and the histogram has no row left, when there is such
an index among `0..n`. -/
theorem analysisRows_stops (m n : Nat) (bucket : IntVector) (hm : 2 ≤ m)
    (hn : n + 1 < sizeMod) (i0 : Nat) (hi0 : i0 ≤ n)
    (hrun : ∀ j, j < i0 → (binomialExpectation m n j > 1 / 10 ∨ j < bucket.Size))
    (hstop : ¬ (binomialExpectation m n i0 > 1 / 10 ∨ i0 < bucket.Size))
    (fuel i : Nat) (hi : i ≤ i0) (hf : i0 - i < fuel) :
    (analysisRows exactArith m n bucket fuel i (binomialExpectation m n i)).2 = true ∧
    (analysisRows exactArith m n bucket fuel i (binomialExpectation m n i)).1.length
      = i0 - i := by
  induction fuel generalizing i with
  | zero => omega
  | succ fuel ih =>
    rw [analysisRows_exact]
    by_cases hii : i = i0
    · subst hii
      rw [if_neg hstop]
      exact ⟨rfl, by simp⟩
    · have hlt : i < i0 := by omega
      rw [if_pos (hrun i hlt)]
      have hi1 : (i + 1) % sizeMod = i + 1 := Nat.mod_eq_of_lt (by omega)
      simp only [hi1, if_neg (Nat.succ_ne_zero i)]
      rw [theoryNext_eq m n i hm (by omega) (by omega)]
      obtain ⟨h1, h2⟩ := ih (i + 1) (by omega) (by omega)
      refine ⟨h1, ?_⟩
      rw [List.length_cons, h2]
      omega

theorem twoTable_bucket (i : Nat) : twoTable.bucket i = [] := by
  match i with
  | 0 => rfl
  | 1 => rfl
  | i + 2 => rfl

/-! ## IEEE 754 rounding -/

theorem le_roundHalfEven (m : ℚ) (k : ℤ) (h : (k : ℚ) ≤ m) : k ≤ roundHalfEven m := by
  have hf : k ≤ ⌊m⌋ := Int.le_floor.2 h
  unfold roundHalfEven
  split
  · exact hf
  · split
    · omega
    · split <;> omega

theorem roundHalfEven_le (m : ℚ) (k : ℤ) (h : m ≤ (k : ℚ)) : roundHalfEven m ≤ k := by
  have hfl : ⌊m⌋ ≤ k := by
    have : ((⌊m⌋ : ℤ) : ℚ) ≤ (k : ℚ) := le_trans (Int.floor_le m) h
    exact_mod_cast this
  by_cases heq : ⌊m⌋ = k
  · have hm : m = (k : ℚ) := le_antisymm h (by rw [← heq]; exact Int.floor_le m)
    unfold roundHalfEven
    rw [hm]
    simp
  · have : ⌊m⌋ + 1 ≤ k := by omega
    unfold roundHalfEven
    split
    · exact hfl
    · split
      · exact this
      · split
        · exact hfl
        · exact this

theorem two_zpow_toNat (e : ℤ) (he : 0 ≤ e) :
    (((2 ^ e.toNat : ℕ) : ℤ) : ℚ) = (2 : ℚ) ^ e := by
  have : (e.toNat : ℤ) = e := Int.toNat_of_nonneg he
  push_cast
  rw [← zpow_natCast, this]

namespace Format

theorem roundPos_spec (f : Format) (x : ℚ) (e1 e2 : ℤ) (hp : 1 ≤ f.prec)
    (h1 : (2 : ℚ) ^ e1 ≤ x) (hmin : f.emin ≤ e1) (h2 : x ≤ (2 : ℚ) ^ e2) :
    ∃ r : ℚ, (2 : ℚ) ^ e1 ≤ r ∧ r ≤ (2 : ℚ) ^ e2 ∧
      f.roundPos x = if r < 2 ^ (f.emax + 1) then .fin r else .pinf := by
  have h2pos : (0 : ℚ) < 2 := by norm_num
  have h2ne : (2 : ℚ) ≠ 0 := by norm_num
  have h12 : (1 : ℚ) < 2 := by norm_num
  have hx : 0 < x := lt_of_lt_of_le (zpow_pos h2pos e1) h1
  have hc : ((2 : ℕ) : ℚ) = 2 := by norm_num
  have hL1 : (2 : ℚ) ^ Int.log 2 x ≤ x := by
    have := @Int.zpow_log_le_self ℚ _ _ 2 x (by norm_num) hx
    rwa [hc] at this
  have he1L : e1 ≤ Int.log 2 x := by
    have := (@Int.zpow_le_iff_le_log ℚ _ _ 2 (by norm_num) e1 x hx).1
    exact this (by rw [hc]; exact h1)
  have hLe2 : Int.log 2 x ≤ e2 :=
    (zpow_le_zpow_iff_right₀ h12).1 (le_trans hL1 h2)
  have hmax : max (Int.log 2 x) f.emin = Int.log 2 x := max_eq_left (by omega)
  have hulp : (0 : ℚ) < 2 ^ (Int.log 2 x - f.prec + 1) := zpow_pos h2pos _
  -- the two grid points
  have hk1 : ((((2 ^ ((f.prec : ℤ) - 1).toNat : ℕ) : ℤ) : ℚ))
      * 2 ^ (Int.log 2 x - f.prec + 1) = 2 ^ Int.log 2 x := by
    rw [two_zpow_toNat _ (by omega), ← zpow_add₀ h2ne]
    congr 1
    omega
  have hk2 : ((((2 ^ (e2 - Int.log 2 x + f.prec - 1).toNat : ℕ) : ℤ) : ℚ))
      * 2 ^ (Int.log 2 x - f.prec + 1) = 2 ^ e2 := by
    rw [two_zpow_toNat _ (by omega), ← zpow_add₀ h2ne]
    congr 1
    omega
  have hlow := le_roundHalfEven (x / 2 ^ (Int.log 2 x - f.prec + 1))
    ((2 ^ ((f.prec : ℤ) - 1).toNat : ℕ) : ℤ) (by
      rw [le_div_iff₀ hulp, hk1]
      exact hL1)
  have hhigh := roundHalfEven_le (x / 2 ^ (Int.log 2 x - f.prec + 1))
    ((2 ^ (e2 - Int.log 2 x + f.prec - 1).toNat : ℕ) : ℤ) (by
      rw [div_le_iff₀ hulp, hk2]
      exact h2)
  refine ⟨(roundHalfEven (x / 2 ^ (Int.log 2 x - f.prec + 1)) : ℚ)
    * 2 ^ (Int.log 2 x - f.prec + 1), ?_, ?_, ?_⟩
  · refine le_trans ((zpow_le_zpow_iff_right₀ h12).2 he1L) ?_
    rw [← hk1]
    exact mul_le_mul_of_nonneg_right (by exact_mod_cast hlow) hulp.le
  · rw [← hk2]
    exact mul_le_mul_of_nonneg_right (by exact_mod_cast hhigh) hulp.le
  · simp only [roundPos, hmax]

theorem round_fin (f : Format) (x : ℚ) (e1 e2 : ℤ) (hp : 1 ≤ f.prec)
    (h1 : (2 : ℚ) ^ e1 ≤ x) (hmin : f.emin ≤ e1) (h2 : x ≤ (2 : ℚ) ^ e2)
    (hmax : e2 ≤ f.emax) :
    ∃ q, f.round x = .fin q ∧ (2 : ℚ) ^ e1 ≤ q ∧ q ≤ (2 : ℚ) ^ e2 := by
  have hx : 0 < x := lt_of_lt_of_le (zpow_pos (by norm_num) e1) h1
  obtain ⟨r, r1, r2, hr⟩ := f.roundPos_spec x e1 e2 hp h1 hmin h2
  refine ⟨r, ?_, r1, r2⟩
  have hlt : r < 2 ^ (f.emax + 1) :=
    lt_of_le_of_lt r2 ((zpow_lt_zpow_iff_right₀ (by norm_num)).2 (by omega))
  simp only [round, hx.ne', if_false, hx, if_true, hr, hlt]

theorem round_lower (f : Format) (x : ℚ) (e1 : ℤ) (hp : 1 ≤ f.prec)
    (h1 : (2 : ℚ) ^ e1 ≤ x) (hmin : f.emin ≤ e1) :
    f.round x = .pinf ∨ ∃ q, f.round x = .fin q ∧ (2 : ℚ) ^ e1 ≤ q := by
  have hx : 0 < x := lt_of_lt_of_le (zpow_pos (by norm_num) e1) h1
  have hc : ((2 : ℕ) : ℚ) = 2 := by norm_num
  have hup : x ≤ (2 : ℚ) ^ (Int.log 2 x + 1) := by
    have := @Int.lt_zpow_succ_log_self ℚ _ _ 2 (by norm_num) x
    rw [hc] at this
    exact this.le
  obtain ⟨r, r1, _, hr⟩ := f.roundPos_spec x e1 _ hp h1 hmin hup
  simp only [round, hx.ne', if_false, hx, if_true, hr]
  by_cases hlt : r < 2 ^ (f.emax + 1)
  · right
    exact ⟨r, by rw [if_pos hlt], r1⟩
  · left
    rw [if_neg hlt]

theorem round_overflow (f : Format) (x : ℚ) (hp : 1 ≤ f.prec)
    (h : (2 : ℚ) ^ (f.emax + 1) ≤ x) (hmin : f.emin ≤ f.emax + 1) : f.round x = .pinf := by
  have hx : 0 < x := lt_of_lt_of_le (zpow_pos (by norm_num) _) h
  have hc : ((2 : ℕ) : ℚ) = 2 := by norm_num
  have hup : x ≤ (2 : ℚ) ^ (Int.log 2 x + 1) := by
    have := @Int.lt_zpow_succ_log_self ℚ _ _ 2 (by norm_num) x
    rw [hc] at this
    exact this.le
  obtain ⟨r, r1, _, hr⟩ := f.roundPos_spec x _ _ hp h hmin hup
  simp only [round, hx.ne', if_false, hx, if_true, hr]
  rw [if_neg (not_lt.2 r1)]

end Format

namespace Format

theorem round_pow2 (f : Format) (e : ℤ) (hp : 1 ≤ f.prec) (hmin : f.emin ≤ e)
    (hmax : e ≤ f.emax) : f.round ((2 : ℚ) ^ e) = .fin ((2 : ℚ) ^ e) := by
  obtain ⟨q, hq, q1, q2⟩ := f.round_fin ((2 : ℚ) ^ e) e e hp (le_refl _) hmin (le_refl _) hmax
  rw [hq, le_antisymm q2 q1]

end Format

theorem round64_one : binary64.round ((1 : ℕ) : ℚ) = .fin 1 := by
  have := binary64.round_pow2 0 (by decide) (by decide) (by decide)
  simpa using this

theorem round64_two : binary64.round ((2 : ℕ) : ℚ) = .fin 2 := by
  have := binary64.round_pow2 1 (by decide) (by decide) (by decide)
  simpa using this

theorem round32_two : binary32.round (2 : ℚ) = .fin 2 := by
  have := binary32.round_pow2 1 (by decide) (by decide) (by decide)
  simpa using this

/-- The factor of the update of `check` on a table of two buckets without entries is a
positive finite `double`, of at least `2^(ek - ei)`. -/
theorem ieee_factor_aux (k i : ℕ) (ek ei : ℤ) (hk1 : (2 : ℚ) ^ ek ≤ (k : ℚ))
    (hk2 : (k : ℚ) ≤ (2 : ℚ) ^ (64 : ℤ)) (hi1 : 1 ≤ i) (hi2 : (i : ℚ) ≤ (2 : ℚ) ^ ei)
    (hek : 0 ≤ ek) (hek2 : ek ≤ 64) (hei : 0 ≤ ei) (hei2 : ei ≤ 64) :
    ∃ q, binary64.mul
        (binary64.div (binary64.add (binary64.round (k : ℚ)) (binary64.round ((1 : ℕ) : ℚ)))
          (binary64.round (i : ℚ)))
        (binary64.div (binary64.round ((1 : ℕ) : ℚ))
          (binary64.sub (binary64.round ((2 : ℕ) : ℚ)) (binary64.round ((1 : ℕ) : ℚ))))
      = .fin q ∧ (2 : ℚ) ^ (ek - ei) ≤ q := by
  have h2 : (1 : ℚ) < 2 := by norm_num
  have hp64 : 1 ≤ binary64.prec := by decide
  have hmin64 : binary64.emin = -1022 := rfl
  have hmax64 : binary64.emax = 1023 := rfl
  -- the numerator
  obtain ⟨qa, ha, a1, a2⟩ := binary64.round_fin (k : ℚ) ek 64 hp64 hk1
    (by rw [hmin64]; omega) hk2 (by rw [hmax64]; omega)
  have hpos_ek : (0 : ℚ) < 2 ^ ek := zpow_pos (by norm_num) _
  have hb2 : qa + 1 ≤ (2 : ℚ) ^ (65 : ℤ) := by
    have : (2 : ℚ) ^ (65 : ℤ) = 2 ^ (64 : ℤ) + 2 ^ (64 : ℤ) := by norm_num
    have h1 : (1 : ℚ) ≤ 2 ^ (64 : ℤ) := by norm_num
    linarith
  obtain ⟨qb, hb, b1, b2⟩ := binary64.round_fin (qa + 1) ek 65 hp64 (by linarith)
    (by rw [hmin64]; omega) hb2 (by rw [hmax64]; omega)
  -- the divisor
  obtain ⟨qd, hd, d1, d2⟩ := binary64.round_fin (i : ℚ) 0 ei hp64
    (by simpa using (by exact_mod_cast hi1 : (1 : ℚ) ≤ (i : ℚ)))
    (by rw [hmin64]; omega) hi2 (by rw [hmax64]; omega)
  have hd1 : (1 : ℚ) ≤ qd := by simpa using d1
  have hdpos : (0 : ℚ) < qd := by linarith
  have hx1 : (2 : ℚ) ^ (ek - ei) ≤ qb / qd := by
    rw [le_div_iff₀ hdpos]
    calc (2 : ℚ) ^ (ek - ei) * qd ≤ 2 ^ (ek - ei) * 2 ^ ei :=
          mul_le_mul_of_nonneg_left d2 (zpow_pos (by norm_num) _).le
      _ = 2 ^ ek := by rw [← zpow_add₀ (by norm_num)]; congr 1; omega
      _ ≤ qb := b1
  have hx2 : qb / qd ≤ (2 : ℚ) ^ (65 : ℤ) := by
    rw [div_le_iff₀ hdpos]
    have : (0 : ℚ) ≤ 2 ^ (65 : ℤ) := by norm_num
    nlinarith
  obtain ⟨qx, hxr, x1, x2⟩ := binary64.round_fin (qb / qd) (ek - ei) 65 hp64 hx1
    (by rw [hmin64]; omega) hx2 (by rw [hmax64]; omega)
  obtain ⟨q, hq, q1, _⟩ := binary64.round_fin (qx * 1) (ek - ei) 65 hp64
    (by rw [mul_one]; exact x1) (by rw [hmin64]; omega) (by rw [mul_one]; exact x2)
    (by rw [hmax64]; omega)
  have hone : binary64.round (1 : ℚ) = .fin 1 := by simpa using round64_one
  have hY : binary64.div (binary64.round ((1 : ℕ) : ℚ))
      (binary64.sub (binary64.round ((2 : ℕ) : ℚ)) (binary64.round ((1 : ℕ) : ℚ))) = .fin 1 := by
    rw [round64_one, round64_two]
    have hs : binary64.sub (.fin 2) (.fin 1) = .fin 1 := by
      simp only [Format.sub, FVal.neg, Format.add]
      norm_num
      exact hone
    rw [hs]
    simp only [Format.div]
    norm_num
    exact hone
  refine ⟨q, ?_, q1⟩
  rw [hY, ha, round64_one]
  simp only [Format.add, hb, hd, Format.div, hdpos.ne', if_false, hxr, Format.mul, hq]


theorem theoryNext_ieee (pow : FVal → Nat → FVal) (i : Nat) (check : FVal) :
    theoryNext (ieee pow) 2 0 i check
      = FVal.toFloat (binary64.mul
          (binary64.mul
            (binary64.div
              (binary64.add (binary64.round (((0 + sizeMod - i) % sizeMod : ℕ) : ℚ))
                (binary64.round ((1 : ℕ) : ℚ)))
              (binary64.round (i : ℚ)))
            (binary64.div (binary64.round ((1 : ℕ) : ℚ))
              (binary64.sub (binary64.round ((2 : ℕ) : ℚ)) (binary64.round ((1 : ℕ) : ℚ)))))
          check) := rfl

theorem ieee_factor (i : Nat) (hi1 : 1 ≤ i) (hi2 : i < sizeMod) :
    ∃ q, binary64.mul
        (binary64.div
          (binary64.add (binary64.round (((0 + sizeMod - i) % sizeMod : ℕ) : ℚ))
            (binary64.round ((1 : ℕ) : ℚ)))
          (binary64.round (i : ℚ)))
        (binary64.div (binary64.round ((1 : ℕ) : ℚ))
          (binary64.sub (binary64.round ((2 : ℕ) : ℚ)) (binary64.round ((1 : ℕ) : ℚ))))
      = .fin q ∧ 0 < q ∧ (i ≤ 4 → (2 : ℚ) ^ (61 : ℤ) ≤ q) := by
  have hsm : sizeMod = 18446744073709551616 := by norm_num [sizeMod]
  have hk : (0 + sizeMod - i) % sizeMod = sizeMod - i := by
    rw [Nat.zero_add]
    exact Nat.mod_eq_of_lt (by omega)
  rw [hk]
  have hk2 : ((sizeMod - i : ℕ) : ℚ) ≤ (2 : ℚ) ^ (64 : ℤ) := by
    have : sizeMod - i ≤ 2 ^ 64 := by rw [hsm]; omega
    exact_mod_cast this
  have hi64 : (i : ℚ) ≤ (2 : ℚ) ^ (64 : ℤ) := by
    have : i ≤ 2 ^ 64 := by rw [hsm] at hi2; omega
    exact_mod_cast this
  by_cases h4 : i ≤ 4
  · have hk1 : (2 : ℚ) ^ (63 : ℤ) ≤ ((sizeMod - i : ℕ) : ℚ) := by
      have : 2 ^ 63 ≤ sizeMod - i := by rw [hsm]; omega
      exact_mod_cast this
    have hi4 : (i : ℚ) ≤ (2 : ℚ) ^ (2 : ℤ) := by
      have : i ≤ 2 ^ 2 := by omega
      exact_mod_cast this
    obtain ⟨q, hq, q1⟩ := ieee_factor_aux (sizeMod - i) i 63 2 hk1 hk2 hi1 hi4
      (by omega) (by omega) (by omega) (by omega)
    have q1' : (2 : ℚ) ^ (61 : ℤ) ≤ q := by simpa using q1
    exact ⟨q, hq, lt_of_lt_of_le (zpow_pos (by norm_num) _) q1', fun _ => q1'⟩
  · have hk1 : (2 : ℚ) ^ (0 : ℤ) ≤ ((sizeMod - i : ℕ) : ℚ) := by
      have : 1 ≤ sizeMod - i := by omega
      simpa using (by exact_mod_cast this : (1 : ℚ) ≤ ((sizeMod - i : ℕ) : ℚ))
    obtain ⟨q, hq, q1⟩ := ieee_factor_aux (sizeMod - i) i 0 64 hk1 hk2 hi1 hi64
      (by omega) (by omega) (by omega) (by omega)
    exact ⟨q, hq, lt_of_lt_of_le (zpow_pos (by norm_num) _) q1, fun h => absurd h h4⟩

theorem diverging_next (pow : FVal → Nat → FVal) (i : Nat) (check : FVal)
    (h : Diverging i check) (hi : i + 1 < sizeMod) :
    Diverging (i + 1) (theoryNext (ieee pow) 2 0 (i + 1) check) := by
  obtain ⟨q, hq, qpos, q61⟩ := ieee_factor (i + 1) (by omega) hi
  rw [theoryNext_ieee, hq]
  rcases h with h | ⟨hi2, l, hl, c, hc, hcl⟩
  · left
    rw [h]
    simp only [Format.mul, qpos, if_true, FVal.toFloat]
  · rw [hc]
    have hqc : (2 : ℚ) ^ (l + 61) ≤ q * c := by
      rw [zpow_add₀ (by norm_num), mul_comm]
      have hcpos : (0 : ℚ) ≤ 2 ^ l := (zpow_pos (by norm_num) _).le
      exact mul_le_mul (q61 (by omega)) hcl hcpos qpos.le
    have hmul : binary64.mul (.fin q) (.fin c) = binary64.round (q * c) := rfl
    rw [hmul]
    rcases binary64.round_lower (q * c) (l + 61) (by decide) hqc
      (by show (-1022 : ℤ) ≤ l + 61; omega) with hz | ⟨z, hz, hzl⟩
    · left
      rw [hz]
      rfl
    · rw [hz]
      have htf : FVal.toFloat (.fin z) = binary32.round z := rfl
      rw [htf]
      by_cases hi1 : i + 1 ≤ 2
      · rcases binary32.round_lower z (l + 61) (by decide) hzl
          (by show (-126 : ℤ) ≤ l + 61; omega) with hw | ⟨w, hw, hwl⟩
        · left; exact hw
        · right
          exact ⟨hi1, l + 61, by push_cast; omega, w, hw, hwl⟩
      · left
        have hbig : (2 : ℚ) ^ (binary32.emax + 1) ≤ z := by
          refine le_trans ?_ hzl
          exact (zpow_le_zpow_iff_right₀ (by norm_num)).2
            (by show (127 : ℤ) + 1 ≤ l + 61; omega)
        exact binary32.round_overflow z (by decide) hbig (by decide)

theorem diverging_gt (pow : FVal → Nat → FVal) (i : Nat) (check : FVal)
    (h : Diverging i check) : (ieee pow).gt check (ieee pow).tenth = true := by
  obtain ⟨t, ht, _, t2⟩ := binary64.round_fin (1 / 10 : ℚ) (-4) (-3) (by decide)
    (by norm_num) (by decide) (by norm_num) (by decide)
  have htenth : (ieee pow).tenth = .fin t := ht
  have hgt : (ieee pow).gt = FVal.gt := rfl
  rw [htenth, hgt]
  rcases h with h | ⟨_, l, hl, c, hc, hcl⟩
  · rw [h]
    rfl
  · rw [hc]
    simp only [FVal.gt, decide_eq_true_eq]
    have h1 : (2 : ℚ) ^ (1 : ℤ) ≤ 2 ^ l :=
      (zpow_le_zpow_iff_right₀ (by norm_num)).2 (by omega)
    have h3 : (2 : ℚ) ^ (-3 : ℤ) < 2 ^ (1 : ℤ) := by norm_num
    linarith

theorem diverging_start (pow : FVal → Nat → FVal) (hpow : ∀ x, pow x 0 = .fin 1) :
    theoryStart (ieee pow) 2 0 = .fin 2 ∧ Diverging 0 (theoryStart (ieee pow) 2 0) := by
  have hs : theoryStart (ieee pow) 2 0 = .fin 2 := by
    have h1 : theoryStart (ieee pow) 2 0
        = FVal.toFloat (binary64.mul (binary64.round ((2 : ℕ) : ℚ))
            (pow (binary64.div
              (binary64.sub (binary64.mul (binary64.round ((2 : ℕ) : ℚ))
                (binary64.round ((1 : ℕ) : ℚ))) (binary64.round ((1 : ℕ) : ℚ)))
              (binary64.mul (binary64.round ((2 : ℕ) : ℚ)) (binary64.round ((1 : ℕ) : ℚ)))) 0)) :=
      rfl
    rw [h1, hpow, round64_two]
    have h2 : binary64.mul (.fin 2) (.fin 1) = .fin 2 := by
      simp only [Format.mul]
      norm_num
      simpa using round64_two
    rw [h2]
    exact round32_two
  refine ⟨hs, ?_⟩
  right
  exact ⟨by omega, 1, by norm_num, 2, hs, by norm_num⟩

/-- The row loop under an invariant of `check` that implies `check > 0.1`: the loop does not
end, and a row is written for every row index up to the last, `2^64 - 1`. -/
theorem analysisRows_runs {F : Type} (A : Arith F) (m n : Nat) (bucket : IntVector)
    (I : Nat → F → Prop) (hgt : ∀ i c, I i c → A.gt c A.tenth = true)
    (hnext : ∀ i c, I i c → i + 1 < sizeMod → I (i + 1) (theoryNext A m n (i + 1) c))
    (fuel i : Nat) (c : F) (hi : i < sizeMod) (hI : I i c) :
    (analysisRows A m n bucket fuel i c).2 = false ∧
    (analysisRows A m n bucket fuel i c).1.length = min fuel (sizeMod - i) ∧
    ∀ row ∈ (analysisRows A m n bucket fuel i c).1, ∃ j, I j row.theory := by
  induction fuel generalizing i c with
  | zero => simp [analysisRows]
  | succ fuel ih =>
    rw [analysisRows, if_pos (Or.inl (hgt i c hI))]
    simp only []
    by_cases hw : (i + 1) % sizeMod = 0
    · rw [if_pos hw]
      have hlast : i + 1 = sizeMod := by
        by_contra hne
        rw [Nat.mod_eq_of_lt (by omega)] at hw
        omega
      refine ⟨rfl, ?_, ?_⟩
      · simp only [List.length_singleton]
        omega
      · intro row hrow
        simp only [List.mem_singleton] at hrow
        subst hrow
        exact ⟨i, hI⟩
    · rw [if_neg hw]
      have hlt : i + 1 < sizeMod := by
        by_contra hge
        have : i + 1 = sizeMod := by omega
        rw [this, Nat.mod_self] at hw
        exact hw rfl
      have hi1 : (i + 1) % sizeMod = i + 1 := Nat.mod_eq_of_lt hlt
      rw [hi1]
      obtain ⟨h1, h2, h3⟩ := ih (i + 1) _ hlt (hnext i c hI hlt)
      refine ⟨h1, ?_, ?_⟩
      · simp only [List.length_cons, h2]
        omega
      · intro row hrow
        simp only [List.mem_cons] at hrow
        rcases hrow with rfl | hrow
        · exact ⟨i, hI⟩
        · exact h3 row hrow

/-- The two arithmetics differ on a table of ten buckets with two entries in two buckets:
in exact arithmetic row 2 has the value `1/10` and the loop ends after two rows; in IEEE
arithmetic the `float` of that row is above the `double` `0.1` and row 2 is written. -/
theorem analysisRows_ten_two :
    analysisRows exactArith 10 2 ⟨[8, 2], 2⟩ 3 0 (theoryStart exactArith 10 2)
      = ([⟨0, some 8, 81 / 10⟩, ⟨1, some 2, 9 / 5⟩], true) ∧
    (analysisRows (ieee powRounded) 10 2 ⟨[8, 2], 2⟩ 3 0
      (theoryStart (ieee powRounded) 10 2)).1.length = 3 := by
  constructor
  · norm_num [analysisRows, theoryStart, theoryNext, exactArith, sizeMod, IntVector.Size]
  · decide!

/-! ## C21 -/

/-- C21 (Analysis terminates), the code at the table `HashTable(2, lengthHash, true)` right
after its construction, which has two buckets and no entry: whatever the number of rounds
followed, the row loop of `Analysis` has not ended, and it writes a row for every row index
below `2^64`. In exact arithmetic each row has a theoretical value of at least 2. In IEEE
arithmetic, with any `pow` that returns 1 for the exponent 0, row 0 has the value 2 and
every row has a value of at least 2 or infinity. So no row index has a value that is not
above 0.1. At the table of five buckets holding ten keys the loop ends after six rows, in
exact arithmetic and in IEEE arithmetic with the rounded power. -/
theorem analysis_row_loop :
    (HashTable.ctor 2 2 lengthHash true : Option (HashTable String Nat)) = some twoTable ∧
    twoTable.Size = 0 ∧
    (∀ cap junk fuel, ∃ r, twoTable.Analysis exactArith cap junk fuel = some r ∧
      r.finished = false ∧
      r.rows.length = min fuel sizeMod ∧ ∀ row ∈ r.rows, 2 ≤ row.theory) ∧
    (tenTable.Analysis exactArith 1 5 7).map (fun r => (r.finished, r.rows.length))
      = some (true, 6) ∧
    (∀ pow : FVal → Nat → FVal, (∀ x, pow x 0 = .fin 1) →
      theoryStart (ieee pow) 2 0 = .fin 2 ∧
      ∀ cap junk fuel, ∃ r, twoTable.Analysis (ieee pow) cap junk fuel = some r ∧
        r.finished = false ∧ r.rows.length = min fuel sizeMod ∧
        ∀ row ∈ r.rows, row.theory = .pinf ∨ ∃ c, row.theory = .fin c ∧ 2 ≤ c) ∧
    (tenTable.Analysis (ieee powRounded) 1 5 7).map (fun r => (r.finished, r.rows.length))
      = some (true, 6) := by
  have hc : ∀ cap junk, twoTable.analysisCounts cap junk = some ⟨⟨[2], cap⟩, 0, 0⟩ := by
    intro cap junk
    rw [HashTable.analysisCounts_empty twoTable twoTable_bucket cap junk]
    rfl
  have hn : twoTable.numBuckets_ = 2 := rfl
  have hr : ∀ (F : Type) (A : Arith F) cap junk fuel, twoTable.Analysis A cap junk fuel
      = some ⟨0, 2, 0, twoTable.MaxBucketSize,
          (analysisRows A 2 0 ⟨[2], cap⟩ fuel 0 (theoryStart A 2 0)).1,
          (analysisRows A 2 0 ⟨[2], cap⟩ fuel 0 (theoryStart A 2 0)).2⟩ := by
    intro F A cap junk fuel
    simp only [HashTable.Analysis, hc, hn]
  have hten : tenTable.analysisCounts 1 5 = some ⟨⟨[0, 0, 5], 4⟩, 10, 5⟩ := rfl
  have hnten : tenTable.numBuckets_ = 5 := rfl
  refine ⟨rfl, rfl, ?_, ?_, ?_, ?_⟩
  · intro cap junk fuel
    have hs : theoryStart exactArith 2 0 = 2 * (sizeMod.choose 0 : ℚ) := by
      norm_num [theoryStart_exact, Nat.choose_zero_right]
    obtain ⟨h1, h2, h3⟩ := analysisRows_two_empty ⟨[2], cap⟩ fuel 0 (by norm_num [sizeMod])
    rw [← hs] at h1 h2 h3
    refine ⟨_, hr ℚ exactArith cap junk fuel, h1, ?_, h3⟩
    show (analysisRows exactArith 2 0 ⟨[2], cap⟩ fuel 0 (theoryStart exactArith 2 0)).1.length
      = min fuel sizeMod
    rw [h2, Nat.sub_zero]
  · simp only [HashTable.Analysis, hten, hnten, Option.map]
    norm_num [analysisRows, theoryStart, theoryNext, exactArith, sizeMod, IntVector.Size]
  · intro pow hpow
    obtain ⟨hs, hd⟩ := diverging_start pow hpow
    refine ⟨hs, ?_⟩
    intro cap junk fuel
    obtain ⟨h1, h2, h3⟩ := analysisRows_runs (ieee pow) 2 0 ⟨[2], cap⟩ Diverging
      (diverging_gt pow) (diverging_next pow) fuel 0 _ (by norm_num [sizeMod]) hd
    refine ⟨_, hr FVal (ieee pow) cap junk fuel, h1, ?_, ?_⟩
    · show (analysisRows (ieee pow) 2 0 ⟨[2], cap⟩ fuel 0 (theoryStart (ieee pow) 2 0)).1.length
        = min fuel sizeMod
      rw [h2, Nat.sub_zero]
    · intro row hrow
      obtain ⟨j, hj⟩ := h3 row hrow
      rcases hj with hj | ⟨_, l, hl, c, hc1, hc2⟩
      · left; exact hj
      · right
        refine ⟨c, hc1, ?_⟩
        have h1l : (2 : ℚ) ^ (1 : ℤ) ≤ 2 ^ l :=
          (zpow_le_zpow_iff_right₀ (by norm_num)).2 (by omega)
        have : (2 : ℚ) ^ (1 : ℤ) = 2 := by norm_num
        linarith
  · simp only [HashTable.Analysis, hten, hnten, Option.map]
    decide!

/-- C21 in IEEE arithmetic with the rounded power, which returns 1 for the exponent 0: the
row loop on the table of two buckets without entries does not end. -/
theorem analysis_row_loop_witness :
    (∀ x, powRounded x 0 = .fin 1) ∧
    (theoryStart (ieee powRounded) 2 0 = .fin 2 ∧
      ∀ cap junk fuel, ∃ r, twoTable.Analysis (ieee powRounded) cap junk fuel = some r ∧
        r.finished = false ∧ r.rows.length = min fuel sizeMod ∧
        ∀ row ∈ r.rows, row.theory = .pinf ∨ ∃ c, row.theory = .fin c ∧ 2 ≤ c) :=
  ⟨fun x => by cases x <;> rfl,
    analysis_row_loop.2.2.2.2.1 powRounded (fun x => by cases x <;> rfl)⟩

end fsu

namespace fsu

/-! ## Walking off the last entry -/

namespace HashTable

variable {K D : Type}

theorem skipEmpty_all_empty (t : HashTable K D) (fuel i : Nat)
    (hf : i + fuel = t.numBuckets_)
    (h : ∀ j, i ≤ j → j < t.numBuckets_ → (t.bucket j).Empty = true) :
    t.skipEmpty fuel i = t.numBuckets_ := by
  induction fuel generalizing i with
  | zero =>
    simp only [skipEmpty]
    omega
  | succ fuel ih =>
    have hi : i < t.numBuckets_ := by omega
    rw [skipEmpty]
    simp only [hi, decide_True, Bool.true_and, h i (Nat.le_refl i) hi, if_true]
    exact ih (i + 1) (by omega) (fun j hj hjn => h j (by omega) hjn)

/-- Incrementing a valid iterator that stands on the last entry of the table gives
`End()`, which is not valid and compares equal to `End()`. -/
theorem next_last_entry (self : Nat) (t : HashTable K D) (it : HashTableIterator)
    (hv : it.Valid t = true) (hlast : it.bucketItr_ + 1 = (t.bucket it.bucketNum_).End)
    (hrest : ∀ j, it.bucketNum_ < j → j < t.numBuckets_ → (t.bucket j).Empty = true) :
    (it.next t).eq (End self t) t = true ∧ (it.next t).Valid t = false ∧
    ∀ a, it.tablePtr_ = some a → it.next t = End a t := by
  obtain ⟨ptr, b, p⟩ := it
  cases ptr with
  | none => simp [HashTableIterator.Valid] at hv
  | some a =>
    have hb : b < t.numBuckets_ := by
      simp only [HashTableIterator.Valid] at hv
      by_contra hge
      rw [if_pos (by omega)] at hv
      exact Bool.noConfusion hv
    have hskip : t.skipEmpty (t.numBuckets_ - (b + 1)) (b + 1) = t.numBuckets_ :=
      skipEmpty_all_empty t _ _ (by omega) (fun j hj hjn => hrest j (by simpa using hj) hjn)
    have hnext : (⟨some a, b, p⟩ : HashTableIterator).next t = End a t := by
      simp only [HashTableIterator.next, hv, Bool.not_true, Bool.false_eq_true, if_false]
      simp only [] at hlast
      rw [if_pos hlast, hskip, if_neg (Nat.lt_irrefl _)]
    refine ⟨?_, ?_, ?_⟩
    · rw [hnext]
      exact eq_End_of_not_valid self t _ (End_not_valid a t)
    · rw [hnext]
      exact End_not_valid a t
    · intro a1 ha1
      simp only [Option.some.injEq] at ha1
      rw [← ha1]
      exact hnext

end HashTable

/-! ## C22 -/

/-- C22, the negation of the claim as it stands: there is no table with an entry and a
valid iterator on its last entry, that entry in a bucket before the last one, whose
increment does not compare equal to `End()`. -/
theorem walked_off_iterator_counterexample :
    ¬ ∃ (K D : Type) (t : HashTable K D) (self : Nat) (it : HashTableIterator),
      t.Empty = false ∧ it.Valid t = true ∧
      it.bucketItr_ + 1 = (t.bucket it.bucketNum_).End ∧
      (∀ j, it.bucketNum_ < j → j < t.numBuckets_ → (t.bucket j).Empty = true) ∧
      it.bucketNum_ + 1 < t.numBuckets_ ∧
      (it.next t).eq (HashTable.End self t) t = false := by
  rintro ⟨K, D, t, self, it, _, hv, hlast, hrest, _, hne⟩
  have := (HashTable.next_last_entry self t it hv hlast hrest).1
  rw [this] at hne
  exact Bool.noConfusion hne

/-- C22 amended (walked-off iterator versus `End()`): for every table and every valid
iterator positioned on its last entry (the last of its bucket, every later bucket empty),
whether or not that entry lies in the physically last bucket, incrementing the iterator
yields `End()`: an iterator that is not valid and compares equal to the table's `End()`. -/
theorem walked_off_iterator {K D : Type} (self : Nat) (t : HashTable K D)
    (it : HashTableIterator) (hv : it.Valid t = true)
    (hlast : it.bucketItr_ + 1 = (t.bucket it.bucketNum_).End)
    (hrest : ∀ j, it.bucketNum_ < j → j < t.numBuckets_ → (t.bucket j).Empty = true) :
    (it.next t).eq (HashTable.End self t) t = true ∧ (it.next t).Valid t = false ∧
    ∀ a, it.tablePtr_ = some a → it.next t = HashTable.End a t :=
  HashTable.next_last_entry self t it hv hlast hrest

end fsu

namespace fsu

/-- C22 at the table of three buckets holding "cat" and "dog" in bucket 0: the iterator on
"dog", the last entry, which is not in the last bucket, is incremented to `End()`, the end
of bucket 2, and compares equal to `End()`. -/
theorem walked_off_iterator_witness :
    catDog.Empty = false ∧
    (⟨some 7, 0, 1⟩ : HashTableIterator).Valid catDog = true ∧
    (⟨some 7, 0, 1⟩ : HashTableIterator).deref catDog = .ok ⟨"dog", 2⟩ ∧
    (0 : Nat) + 1 < catDog.numBuckets_ ∧
    (((⟨some 7, 0, 1⟩ : HashTableIterator).next catDog).eq (HashTable.End 7 catDog) catDog
        = true ∧
      ((⟨some 7, 0, 1⟩ : HashTableIterator).next catDog).Valid catDog = false ∧
      ∀ a, (⟨some 7, 0, 1⟩ : HashTableIterator).tablePtr_ = some a →
        (⟨some 7, 0, 1⟩ : HashTableIterator).next catDog = HashTable.End a catDog) ∧
    (⟨some 7, 0, 1⟩ : HashTableIterator).next catDog = ⟨some 7, 2, 0⟩ :=
  ⟨rfl, rfl, rfl, by decide,
    walked_off_iterator 7 catDog ⟨some 7, 0, 1⟩ rfl rfl (by
      intro j h1 h2
      have h3 : j < 3 := h2
      have h0 : 0 < j := h1
      interval_cases j <;> rfl),
    rfl⟩

/-! ## C23 -/

/-- C23 (Index is always safe): in every table reachable from a constructor by calls of
`Insert`, `Put`, `Get`, `Remove`, `Clear` and `Rehash` (and the calls that do not change the
table), `numBuckets_ >= 2` and the bucket array has exactly `numBuckets_` buckets; so
`Index(k)` takes no remainder by zero and is below `numBuckets_`, the bucket
`bucketVector_[Index(k)]` that `Insert`, `Remove`, `Includes` and `Get` access exists, and
so do the buckets that `Begin` and `End` access. -/
theorem index_always_safe {K D : Type} [DecidableEq K] [Inhabited D] (t : HashTable K D)
    (h : Reachable t) (self : Nat) :
    2 ≤ t.numBuckets_ ∧ t.bucketVector_.length = t.numBuckets_ ∧ t.numBuckets_ ≠ 0 ∧
    (∀ k, t.Index k < t.numBuckets_ ∧ t.Index k < t.bucketVector_.length ∧
      t.bucketVector_[t.Index k]? = some (t.bucket (t.Index k))) ∧
    (∀ k d, (t.Insert self k d).2.bucketNum_ < t.bucketVector_.length) ∧
    (∀ k, (t.Includes self k).bucketNum_ < t.bucketVector_.length) ∧
    0 < t.bucketVector_.length ∧
    (t.Begin self).bucketNum_ < t.bucketVector_.length ∧
    (t.End self).bucketNum_ < t.bucketVector_.length := by
  have hinv := h.inv
  have hlen := hinv.length_eq
  have h2 := hinv.two_le
  have hidx : ∀ k, t.Index k < t.numBuckets_ := fun k => Nat.mod_lt _ (by omega)
  have hend : (t.End self).bucketNum_ < t.bucketVector_.length := by
    simp only [HashTable.End]
    have e : t.numBuckets_ + sizeMod - 1 = (t.numBuckets_ - 1) + sizeMod := by omega
    rw [e, Nat.add_mod_right, hlen]
    exact Nat.lt_of_le_of_lt (Nat.mod_le _ _) (by omega)
  refine ⟨h2, hlen, by omega, ?_, ?_, ?_, by omega, ?_, hend⟩
  · intro k
    have hk : t.Index k < t.bucketVector_.length := by rw [hlen]; exact hidx k
    refine ⟨hidx k, hk, ?_⟩
    simp only [HashTable.bucket, List.getD_eq_getElem?_getD, List.getElem?_eq_getElem hk,
      Option.getD_some]
  · intro k d
    simp only [HashTable.Insert]
    split <;> · rw [hlen]; exact hidx k
  · intro k
    simp only [HashTable.Includes]
    split
    · rw [hlen]; exact hidx k
    · exact hend
  · simp only [HashTable.Begin]
    split
    · rename_i hlt
      rw [hlen]; exact hlt
    · show 0 < t.bucketVector_.length
      omega

/-- C23 at the table holding "cat" and "dog", reached from the constructor by two calls of
`Insert`: three buckets, and every index is below 3. -/
theorem index_always_safe_witness :
    Reachable catDog ∧
    (2 ≤ catDog.numBuckets_ ∧ catDog.bucketVector_.length = catDog.numBuckets_ ∧
    catDog.numBuckets_ ≠ 0 ∧
    (∀ k, catDog.Index k < catDog.numBuckets_ ∧ catDog.Index k < catDog.bucketVector_.length ∧
      catDog.bucketVector_[catDog.Index k]? = some (catDog.bucket (catDog.Index k))) ∧
    (∀ k d, (catDog.Insert 7 k d).2.bucketNum_ < catDog.bucketVector_.length) ∧
    (∀ k, (catDog.Includes 7 k).bucketNum_ < catDog.bucketVector_.length) ∧
    0 < catDog.bucketVector_.length ∧
    (catDog.Begin 7).bucketNum_ < catDog.bucketVector_.length ∧
    (catDog.End 7).bucketNum_ < catDog.bucketVector_.length) ∧
    catDog.numBuckets_ = 3 ∧ catDog.Index "horse" = 2 ∧ catDog.End 7 = ⟨some 7, 2, 0⟩ :=
  ⟨catDog_reachable, index_always_safe catDog catDog_reachable 7, rfl, by decide, rfl⟩

end fsu

namespace fsu

/-! ## C2 -/

end fsu
